import Mathlib

/-!
# Diagmaker: graph storage and index rebasing

A shallow embedding of the dialogue-graph engine of `src/main.c`
(`CreateDialogueBoxAtIndex`, `UpdateDialogueBox`, `LoadDialogueBoxes`, the
delete / select / connect / drag handlers of the main loop, and the Save
menu entry), followed by theorems about it.

Conventions of the embedding
* C `int` values are `Int`, narrowed with `wrapInt` where the code converts
  to `int`. A `float` is the rational number (`Rat`) it equals; the float
  operations of the text layout and of the drag round their result to
  binary32 (`roundFloat`, `fadd`, `fsub`, `fmul`, `fdiv`), one rounding for
  each operation, in the order of the source. Positions handed to an
  operation, entries of the font table and numbers of a document are taken as
  the floats they are.
* A C string is a `List Char`, one `Char` per byte; a copy into a fixed
  buffer that does not fit is undefined behaviour (`none`).
* A `slb_Vector` is a `List`; every access outside the current size is
  undefined behaviour in C and makes the embedded operation return `none`.
* GPU resources (buffers, descriptor sets, textures) are not represented;
  the calls creating or destroying them have no effect on the model.
* The global font table `characters` is a parameter of every operation; it
  has the 128 entries `characters 0` to `characters 127`, and a read at
  another index is undefined behaviour (`glyph`).
-/

namespace Diagmaker

/-! ## Data model -/

/-- The cglm `vec2`: two floats. -/
structure Vec2 where
  x : Rat
  y : Rat
deriving DecidableEq

/-- Character info for the font atlas (`Character` in main.c). -/
structure Character where
  ax : Rat
  ay : Rat
  bw : Rat
  bh : Rat
  bl : Rat
  bt : Rat
  tx : Rat
  ty : Rat

/-- The anchor of a node (`RenderObject`): position and scale; slot 0 of the
anchor list is the cursor. -/
structure RenderObject where
  position : Vec2
  scale : Vec2
deriving DecidableEq

/-- One laid-out line of a node's text (`TextObject`). -/
structure TextObject where
  text : List Char
  position : Vec2
  scale : Rat
deriving DecidableEq

/-- A visual line between two nodes (`LineObject`), with its two 0-based
node indices. -/
structure LineObject where
  firstBoxIndex : Int
  secondBoxIndex : Int
deriving DecidableEq

/-- A node of the dialogue graph (`DialogueBox`). -/
structure DialogueBox where
  text : List Char
  event : List Char
  connections : List Int
  numTextObjects : Int
  beginningTextIndex : Int
deriving DecidableEq

/-- The mutable program state the graph engine works on: the four vectors of
`main` and the globals `currentDialogueBox`, `firstConnectionDialogueBox`,
`secondConnectionDialogueBox`, `isConnecting`, and the local `isDragging`. -/
structure Editor where
  renderObjects : List RenderObject
  textObjects : List TextObject
  dialogueBoxes : List DialogueBox
  lineObjects : List LineObject
  currentDialogueBox : Int
  firstConnectionDialogueBox : Int
  secondConnectionDialogueBox : Int
  isConnecting : Bool
  isDragging : Bool
deriving DecidableEq

/-- One element of the persisted document: `position`, `text`, `event` (the
key may be absent) and the `connections` integer array (an absent key reads
like an empty array). -/
structure DocElement where
  position : Vec2
  text : List Char
  event : Option (List Char)
  connections : List Int
deriving DecidableEq

/-- The persisted document: a JSON array of elements. -/
abbrev Document := List DocElement

/-! ## slb_Vector -/

/-- Modelled from the spec: `slb_Vector_Get` of strolb/vector.h, which is not
among the sources; element `i` of the vector, undefined outside `[0, size)`. -/
def slb_Vector_Get {α : Type} (v : List α) (i : Int) : Option α :=
  if 0 ≤ i then v[i.toNat]? else none

/-- Modelled from the spec: `slb_Vector_Insert` of strolb/vector.h, which is
not among the sources; inserts before position `i`, for `0 ≤ i ≤ size`. -/
def slb_Vector_Insert {α : Type} (v : List α) (i : Int) (x : α) : Option (List α) :=
  if 0 ≤ i ∧ i ≤ v.length then some (v.insertIdx i.toNat x) else none

/-- Modelled from the spec: `slb_Vector_Remove` of strolb/vector.h, which is
not among the sources; removes element `i`, for `0 ≤ i < size`. -/
def slb_Vector_Remove {α : Type} (v : List α) (i : Int) : Option (List α) :=
  if 0 ≤ i ∧ i < v.length then some (v.eraseIdx i.toNat) else none

/-- Modelled from the spec: `slb_Vector_PushBack` of strolb/vector.h, which is
not among the sources; appends one element. -/
def slb_Vector_PushBack {α : Type} (v : List α) (x : α) : List α :=
  v ++ [x]

/-- A write through the pointer returned by `slb_Vector_Get(v, i)`. -/
def slb_Vector_Set {α : Type} (v : List α) (i : Int) (x : α) : Option (List α) :=
  if 0 ≤ i ∧ i < v.length then some (v.set i.toNat x) else none

/-! ## Loops -/

/-- The loop `for (i = start; ...; i++) body`, run for `n` iterations. -/
def forUp {σ : Type} (body : Int → σ → Option σ) : Nat → Int → σ → Option σ
  | 0, _, s => some s
  | n + 1, i, s => (body i s).bind (fun s1 => forUp body n (i + 1) s1)

/-- The loop `for (i = start; ...; i--) body`, run for `n` iterations. -/
def forDown {σ : Type} (body : Int → σ → Option σ) : Nat → Int → σ → Option σ
  | 0, _, s => some s
  | n + 1, i, s => (body i s).bind (fun s1 => forDown body n (i - 1) s1)

/-- The closed form of a loop that rewrites every element from index `k` on:
element `k + j` becomes `f (k + j)` of itself. -/
def mapFrom {α : Type} (f : Nat → α → α) : Nat → List α → List α
  | _, [] => []
  | k, x :: xs => f k x :: mapFrom f (k + 1) xs

/-! ## Text layout -/

/-- The newline character, the only delimiter passed to `strtok`. -/
def newline : Char := Char.ofNat 10

/-- One call of libc `strtok` with delimiter set "\n", as a function of the
input that is left: leading delimiters are skipped; the result is `none` when
nothing else is left, otherwise the token and the input after the delimiter
that ended it. -/
def strtok (s : List Char) : Option (List Char × List Char) :=
  match s.dropWhile (fun c => c == newline) with
  | [] => none
  | c :: cs =>
    some ((c :: cs).takeWhile (fun d => d != newline),
          ((c :: cs).dropWhile (fun d => d != newline)).drop 1)

/-- The loop `while (token != NULL && count < limit)` collecting tokens;
`limit` is the first argument. -/
def strtokLoop : Nat → List Char → List (List Char)
  | 0, _ => []
  | n + 1, s =>
    match strtok s with
    | none => []
    | some (tok, rest) => tok :: strtokLoop n rest

/-- The loop `while (line != NULL)` over all tokens of `s`; a token takes at
least one character, so `s.length` iterations exhaust the input. -/
def strtokAll (s : List Char) : List (List Char) :=
  strtokLoop s.length s

/-- The loop building the reversed string: `lines[i]` for `i` from
`line_count - 1` down to 0, with a newline after each but the last one
appended. The argument is `lines[0 .. line_count)`. -/
def buildReversed : List (List Char) → List Char
  | [] => []
  | [l] => l
  | l :: l2 :: rest => buildReversed (l2 :: rest) ++ newline :: l

/-- The integer nearest to `q`, the even one of two that are equally near. -/
def roundHalfEven (q : Rat) : Int :=
  if q - ⌊q⌋ < 1 / 2 then ⌊q⌋
  else if 1 / 2 < q - ⌊q⌋ then ⌊q⌋ + 1
  else if ⌊q⌋ % 2 = 0 then ⌊q⌋ else ⌊q⌋ + 1

/-- The value a `float` holds for the real number `x`: IEEE 754 binary32,
rounded to nearest, ties to even, with 24 significant bits and gradual
underflow below `2 ^ (-126)`. A `float` is represented by the rational it
equals; infinities and NaN are not represented (a result beyond the largest
float stays the rational it rounds to). -/
def roundFloat (x : Rat) : Rat :=
  if x = 0 then 0
  else (roundHalfEven (x / 2 ^ (max (Int.log 2 |x|) (-126) - 23)) : Rat)
    * 2 ^ (max (Int.log 2 |x|) (-126) - 23)

/-- The `float` sum `x + y`. Every operation rounds its own result: the
product and the sum of `w += a * b` are two operations. -/
def fadd (x y : Rat) : Rat := roundFloat (x + y)

/-- The `float` difference `x - y`. -/
def fsub (x y : Rat) : Rat := roundFloat (x - y)

/-- The `float` product `x * y`. -/
def fmul (x y : Rat) : Rat := roundFloat (x * y)

/-- The `float` quotient `x / y`. -/
def fdiv (x y : Rat) : Rat := roundFloat (x / y)

/-- The read `characters[(int)c]`: the table `Character characters[128]` has
entries for the characters 0 to 127 only; the argument `characters` gives
these entries. -/
def glyph (characters : Nat → Character) (c : Char) : Option Character :=
  if c.toNat < 128 then some (characters c.toNat) else none

/-- The loop over the characters of a line, `lineWidth += ch.ax * textScale`;
the last argument is the running `lineWidth`. The parameter `textScale` is a
`float`. -/
def lineWidthLoop (characters : Nat → Character) (textScale : Rat) :
    List Char → Rat → Option Rat
  | [], w => some w
  | c :: rest, w =>
    (glyph characters c).bind (fun ch =>
      lineWidthLoop characters textScale rest (fadd w (fmul ch.ax (roundFloat textScale))))

/-- Width of one line: `lineWidth` after the loop over its characters, from
`0.0f`. -/
def lineWidth (characters : Nat → Character) (textScale : Rat) (line : List Char) :
    Option Rat :=
  lineWidthLoop characters textScale line 0

/-- The loop over the lines keeping the running maximum `maxLineWidth`, which
is the last argument. -/
def maxLineWidthLoop (characters : Nat → Character) (textScale : Rat) :
    List (List Char) → Rat → Option Rat
  | [], m => some m
  | l :: rest, m =>
    (lineWidth characters textScale l).bind (fun w =>
      maxLineWidthLoop characters textScale rest (if w > m then w else m))

/-- The value `maxLineWidth` after the loop over the lines, from `0.0f`. -/
def maxLineWidth (characters : Nat → Character) (textScale : Rat)
    (lines : List (List Char)) : Option Rat :=
  maxLineWidthLoop characters textScale lines 0

/-- The constant `padding = 0.4f`. -/
def padding : Rat := roundFloat (4 / 10)

/-- The value `boxWidth`. -/
def boxWidth (characters : Nat → Character) (textScale : Rat)
    (lines : List (List Char)) : Option Rat :=
  (maxLineWidth characters textScale lines).map (fun m => fadd m (fmul 2 padding))

/-- The value `boxHeight`; the `int lineCount` is converted to `float` for the
product. -/
def boxHeight (characters : Nat → Character) (textScale : Rat) (lineCount : Nat) : Rat :=
  fadd (fmul (fmul (characters 65).bh (roundFloat textScale)) (roundFloat lineCount))
    (fmul 2 padding)

/-- The part of `CreateTextObject` that fills the object and walks over the
text: the text is copied into `char text[256]`, so a line of 256 or more
characters overflows it, and every character of the text indexes the
128-entry table `characters`. -/
def CreateTextObject (text : List Char) (position : Vec2) (scale : Rat) : Option TextObject :=
  if text.length < 256 ∧ ∀ c ∈ text, c.toNat < 128 then
    some ⟨text, position, roundFloat scale⟩
  else none

/-- The part of `CreateRenderObject` that fills the object. -/
def CreateRenderObject (position scale : Vec2) : RenderObject :=
  ⟨position, scale⟩

/-- The loop creating one text object per line and inserting it at
`textInsertIndex + i`; the list argument is the sequence of lines `strtok`
delivers, `i` the loop counter and `yOffset` the running offset. -/
def insertTextLoop (characters : Nat → Character) (pos : Vec2) (textScale bw bh : Rat)
    (textInsertIndex : Int) :
    List (List Char) → Int → Rat → List TextObject → Option (List TextObject)
  | [], _, _, v => some v
  | line :: rest, i, yOffset, v =>
    (CreateTextObject line
        ⟨fadd (fsub pos.x (fdiv bw 2)) padding, fadd (fsub pos.y (fdiv bh 2)) yOffset⟩
        textScale).bind
      (fun textObj =>
        (slb_Vector_Insert v (textInsertIndex + i) textObj).bind (fun v1 =>
          insertTextLoop characters pos textScale bw bh textInsertIndex rest (i + 1)
            (fadd yOffset
              (fmul (fmul (characters 65).bh (roundFloat textScale)) (roundFloat (12 / 10))))
            v1))

/-- Body of the loop summing `numTextObjects` of the boxes before the
insertion point. -/
def sumBody (dialogueBoxes : List DialogueBox) (i : Int) (acc : Int) : Option Int :=
  (slb_Vector_Get dialogueBoxes i).map (fun prevBox => acc + prevBox.numTextObjects)

/-- Body of the loops adding `delta` to `beginningTextIndex` of box `i`. -/
def shiftBody (delta : Int) (i : Int) (boxes : List DialogueBox) : Option (List DialogueBox) :=
  (slb_Vector_Get boxes i).bind (fun laterBox =>
    slb_Vector_Set boxes i
      { laterBox with beginningTextIndex := laterBox.beginningTextIndex + delta })

/-- The function `CreateDialogueBoxAtIndex` of main.c. -/
def CreateDialogueBoxAtIndex (characters : Nat → Character) (textOriginal : List Char)
    (pos : Vec2) (textScale : Rat) (insertIndex : Int) (s : Editor) : Option Editor :=
  -- strcpy(buffer, textOriginal) with char buffer[1024]
  if ¬ textOriginal.length < 1024 then none else
  let lines := strtokLoop 100 textOriginal
  let text := buildReversed lines
  let tokens := strtokAll text
  let lineCount : Nat := tokens.length
  (boxWidth characters textScale tokens).bind (fun bw =>
  let bh := boxHeight characters textScale lineCount
  let boxObj := CreateRenderObject pos ⟨bw, bh⟩
  (slb_Vector_Insert s.renderObjects (insertIndex + 1) boxObj).bind (fun renderObjects =>
  (forUp (sumBody s.dialogueBoxes) insertIndex.toNat 0 0).bind (fun textInsertIndex =>
  (insertTextLoop characters pos textScale bw bh textInsertIndex tokens 0 padding
      s.textObjects).bind (fun textObjects =>
  (forUp (shiftBody lineCount) ((s.dialogueBoxes.length : Int) - insertIndex).toNat
      insertIndex s.dialogueBoxes).bind (fun shifted =>
  (slb_Vector_Insert shifted insertIndex
      { text := textOriginal, event := [], connections := [],
        numTextObjects := lineCount, beginningTextIndex := textInsertIndex }).bind
    (fun dialogueBoxes =>
      some { s with renderObjects := renderObjects, textObjects := textObjects,
                    dialogueBoxes := dialogueBoxes }))))))

/-- The function `CreateDialogueBox` of main.c: insertion at the end. -/
def CreateDialogueBox (characters : Nat → Character) (text : List Char) (pos : Vec2)
    (textScale : Rat) (s : Editor) : Option Editor :=
  CreateDialogueBoxAtIndex characters text pos textScale s.dialogueBoxes.length s

/-! ## UpdateDialogueBox -/

/-- Body of the loops copying a connection vector element by element. -/
def copyBody (src : List Int) (i : Int) (dst : List Int) : Option (List Int) :=
  (slb_Vector_Get src i).map (fun connection => slb_Vector_PushBack dst connection)

/-- Body of the loops destroying the text objects of a run: element `i` is
fetched and its GPU resources are released. -/
def destroyTextBody (textObjects : List TextObject) (i : Int) (u : Unit) : Option Unit :=
  (slb_Vector_Get textObjects i).map (fun _ => u)

/-- Body of the loops removing the text objects of a run. -/
def removeTextBody (i : Int) (textObjects : List TextObject) : Option (List TextObject) :=
  slb_Vector_Remove textObjects i

/-- The function `UpdateDialogueBox` of main.c. -/
def UpdateDialogueBox (characters : Nat → Character) (dialogueIndex : Int) (s : Editor) :
    Option Editor :=
  (slb_Vector_Get s.dialogueBoxes dialogueIndex).bind (fun box =>
  (slb_Vector_Get s.renderObjects (dialogueIndex + 1)).bind (fun obj =>
  let text := box.text
  let event := box.event
  let pos := obj.position
  (forUp (copyBody box.connections) box.connections.length 0 []).bind (fun tempConnections =>
  let oldNumTextObjects := box.numTextObjects
  (forUp (destroyTextBody s.textObjects) box.numTextObjects.toNat
      box.beginningTextIndex ()).bind (fun _ =>
  (forDown removeTextBody box.numTextObjects.toNat
      (box.numTextObjects + box.beginningTextIndex - 1) s.textObjects).bind (fun textObjects =>
  (slb_Vector_Remove s.renderObjects (dialogueIndex + 1)).bind (fun renderObjects =>
  (slb_Vector_Remove s.dialogueBoxes dialogueIndex).bind (fun removed =>
  (forUp (shiftBody (-oldNumTextObjects)) ((removed.length : Int) - dialogueIndex).toNat
      dialogueIndex removed).bind (fun dialogueBoxes =>
  (CreateDialogueBoxAtIndex characters text pos (1 / 100) dialogueIndex
      { s with renderObjects := renderObjects, textObjects := textObjects,
               dialogueBoxes := dialogueBoxes }).bind (fun s1 =>
  (slb_Vector_Get s1.dialogueBoxes dialogueIndex).bind (fun newBox =>
  (forUp (copyBody tempConnections) tempConnections.length 0 newBox.connections).bind
    (fun connections =>
  (slb_Vector_Set s1.dialogueBoxes dialogueIndex
      { newBox with event := event, connections := connections }).bind (fun boxes =>
  some { s1 with dialogueBoxes := boxes,
                 currentDialogueBox := dialogueIndex + 1 }))))))))))))

/-! ## The delete handler of the main loop -/

/-- Body of the loop removing the line objects that start or end at the
deleted box. -/
def lineRemoveBody (dialogueIndex : Int) (i : Int) (lineObjects : List LineObject) :
    Option (List LineObject) :=
  (slb_Vector_Get lineObjects i).bind (fun line =>
    if line.firstBoxIndex = dialogueIndex ∨ line.secondBoxIndex = dialogueIndex then
      slb_Vector_Remove lineObjects i
    else some lineObjects)

/-- The two conditional decrements applied to one remaining line. -/
def lineShift (dialogueIndex : Int) (line : LineObject) : LineObject :=
  let line1 : LineObject :=
    if line.firstBoxIndex > dialogueIndex then
      { line with firstBoxIndex := line.firstBoxIndex - 1 } else line
  if line1.secondBoxIndex > dialogueIndex then
    { line1 with secondBoxIndex := line1.secondBoxIndex - 1 } else line1

/-- Body of the loop shifting the indices of the remaining lines. -/
def lineShiftBody (dialogueIndex : Int) (i : Int) (lineObjects : List LineObject) :
    Option (List LineObject) :=
  (slb_Vector_Get lineObjects i).bind (fun line =>
    slb_Vector_Set lineObjects i (lineShift dialogueIndex line))

/-- Body of the inner loop over the connections of one box. -/
def connBody (currentDialogueBox : Int) (j : Int) (connections : List Int) :
    Option (List Int) :=
  (slb_Vector_Get connections j).bind (fun connection =>
    if connection = currentDialogueBox then slb_Vector_Remove connections j
    else if connection > currentDialogueBox then slb_Vector_Set connections j (connection - 1)
    else some connections)

/-- Body of the outer loop over the dialogue boxes: every box but the deleted
one has its connections rebased. -/
def connOuterBody (currentDialogueBox dialogueIndex : Int) (i : Int)
    (dialogueBoxes : List DialogueBox) : Option (List DialogueBox) :=
  if i ≠ dialogueIndex then
    (slb_Vector_Get dialogueBoxes i).bind (fun box =>
      (forDown (connBody currentDialogueBox) box.connections.length
          ((box.connections.length : Int) - 1) box.connections).bind (fun connections =>
        slb_Vector_Set dialogueBoxes i { box with connections := connections }))
  else some dialogueBoxes

/-- The block of `main` run when the DELETE key goes down. -/
def deleteHandler (s : Editor) : Option Editor :=
  if s.currentDialogueBox ≠ -1 ∧ s.currentDialogueBox ≠ 0 then
    let dialogueIndex := s.currentDialogueBox - 1
    (slb_Vector_Get s.dialogueBoxes dialogueIndex).bind (fun boxToDelete =>
    (slb_Vector_Get s.renderObjects s.currentDialogueBox).bind (fun _ =>
    (forUp (destroyTextBody s.textObjects) boxToDelete.numTextObjects.toNat
        boxToDelete.beginningTextIndex ()).bind (fun _ =>
    (forDown (lineRemoveBody dialogueIndex) s.lineObjects.length
        ((s.lineObjects.length : Int) - 1) s.lineObjects).bind (fun kept =>
    (forUp (lineShiftBody dialogueIndex) kept.length 0 kept).bind (fun lineObjects =>
    (forUp (connOuterBody s.currentDialogueBox dialogueIndex) s.dialogueBoxes.length 0
        s.dialogueBoxes).bind (fun rebased =>
    (forDown removeTextBody boxToDelete.numTextObjects.toNat
        (boxToDelete.numTextObjects + boxToDelete.beginningTextIndex - 1)
        s.textObjects).bind (fun textObjects =>
    (forUp (shiftBody (-boxToDelete.numTextObjects))
        ((rebased.length : Int) - (dialogueIndex + 1)).toNat (dialogueIndex + 1)
        rebased).bind (fun shifted =>
    (slb_Vector_Remove s.renderObjects s.currentDialogueBox).bind (fun renderObjects =>
    (slb_Vector_Remove shifted dialogueIndex).bind (fun dialogueBoxes =>
    -- the selection is reset first ...
    let currentDialogueBox : Int := -1
    -- ... and the connection state is compared with the new value
    let reset : Bool :=
      s.isConnecting && decide (s.firstConnectionDialogueBox = currentDialogueBox)
    some { renderObjects := renderObjects, textObjects := textObjects,
           dialogueBoxes := dialogueBoxes, lineObjects := lineObjects,
           currentDialogueBox := currentDialogueBox,
           firstConnectionDialogueBox :=
             if reset then -1 else s.firstConnectionDialogueBox,
           secondConnectionDialogueBox := s.secondConnectionDialogueBox,
           isConnecting := if reset then false else s.isConnecting,
           isDragging := false }))))))))))
  else some s

/-! ## Mouse handlers of the main loop -/

/-- The left button goes down over node `i` (anchor index, `1 ≤ i < size`).
The two pointers the handler also stores (`currentDialogueBoxObject`,
`currentRenderObject`) are never read and are not represented. -/
def leftDown (i : Int) (s : Editor) : Option Editor :=
  if 1 ≤ i ∧ i < s.renderObjects.length then
    some { s with currentDialogueBox := i, isDragging := true }
  else none

/-- The left button goes up over node `i`. -/
def leftUp (i : Int) (s : Editor) : Option Editor :=
  if 1 ≤ i ∧ i < s.renderObjects.length then some { s with isDragging := false } else none

/-- The right button goes down over node `i`: the two-click connection
protocol. -/
def rightDown (i : Int) (s : Editor) : Option Editor :=
  if 1 ≤ i ∧ i < s.renderObjects.length then
    if ¬ s.isConnecting then
      some { s with firstConnectionDialogueBox := i, isConnecting := true }
    else
      let secondConnectionDialogueBox := i
      (slb_Vector_Get s.renderObjects s.firstConnectionDialogueBox).bind (fun _ =>
      let line : LineObject :=
        ⟨s.firstConnectionDialogueBox - 1, secondConnectionDialogueBox - 1⟩
      let lineObjects := slb_Vector_PushBack s.lineObjects line
      (slb_Vector_Get s.dialogueBoxes (s.firstConnectionDialogueBox - 1)).bind (fun diagBox =>
      (slb_Vector_Set s.dialogueBoxes (s.firstConnectionDialogueBox - 1)
          { diagBox with connections := slb_Vector_PushBack diagBox.connections i }).bind
        (fun dialogueBoxes =>
          some { s with lineObjects := lineObjects, dialogueBoxes := dialogueBoxes,
                        secondConnectionDialogueBox := secondConnectionDialogueBox,
                        isConnecting := false })))
  else none

/-- The middle button goes down with the cursor at `pos`. -/
def middleDown (characters : Nat → Character) (pos : Vec2) (s : Editor) : Option Editor :=
  CreateDialogueBox characters "Hello world".toList pos (1 / 100) s

/-- Body of the loop moving the text objects of the dragged box. -/
def dragTextBody (dx dz : Rat) (i : Int) (textObjects : List TextObject) :
    Option (List TextObject) :=
  (slb_Vector_Get textObjects i).bind (fun text =>
    slb_Vector_Set textObjects i
      { text with position := ⟨fadd text.position.x dx, fadd text.position.y dz⟩ })

/-- The dragging block of the main loop, for a mouse movement `(dx, dz)`. -/
def dragStep (dx dz : Rat) (s : Editor) : Option Editor :=
  if s.isDragging then
    (slb_Vector_Get s.renderObjects s.currentDialogueBox).bind (fun obj =>
    (slb_Vector_Get s.dialogueBoxes (s.currentDialogueBox - 1)).bind (fun diagBox =>
    (forUp (dragTextBody dx dz) diagBox.numTextObjects.toNat diagBox.beginningTextIndex
        s.textObjects).bind (fun textObjects =>
    (slb_Vector_Set s.renderObjects s.currentDialogueBox
        { obj with position := ⟨fadd obj.position.x dx, fadd obj.position.y dz⟩ }).bind
      (fun renderObjects =>
        some { s with textObjects := textObjects, renderObjects := renderObjects }))))
  else some s

/-- The inspector's text field: the widget writes `newText` into the 1024-byte
buffer `box->text` and `UpdateDialogueBox` rebuilds the node. -/
def editText (characters : Nat → Character) (newText : List Char) (s : Editor) :
    Option Editor :=
  if s.currentDialogueBox ≠ -1 ∧ newText.length < 1024 then
    (slb_Vector_Get s.dialogueBoxes (s.currentDialogueBox - 1)).bind (fun box =>
    (slb_Vector_Set s.dialogueBoxes (s.currentDialogueBox - 1)
        { box with text := newText }).bind (fun dialogueBoxes =>
      UpdateDialogueBox characters (s.currentDialogueBox - 1)
        { s with dialogueBoxes := dialogueBoxes }))
  else none

/-- The inspector's event field: the widget writes `newEvent` into the
1024-byte buffer `box->event`. -/
def editEvent (newEvent : List Char) (s : Editor) : Option Editor :=
  if s.currentDialogueBox ≠ -1 ∧ newEvent.length < 1024 then
    (slb_Vector_Get s.dialogueBoxes (s.currentDialogueBox - 1)).bind (fun box =>
    (slb_Vector_Set s.dialogueBoxes (s.currentDialogueBox - 1)
        { box with event := newEvent }).bind (fun dialogueBoxes =>
      some { s with dialogueBoxes := dialogueBoxes }))
  else none

/-! ## Persistence -/

/-- Body of the Save loop: the element written for node `i`.
`slb_Json_CreateIntArray` stores an empty array under "connections" and
`slb_Json_SaveIntArray` replaces it by the values when there is at least
one. -/
def saveBody (s : Editor) (i : Int) (json : Document) : Option Document :=
  (slb_Vector_Get s.dialogueBoxes i).bind (fun box =>
  (slb_Vector_Get s.renderObjects (i + 1)).bind (fun obj =>
    some (json ++ [{ position := obj.position, text := box.text, event := some box.event,
                     connections :=
                       if box.connections.length > 0 then box.connections else [] }])))

/-- The document built by the Save menu entry. -/
def Save (s : Editor) : Option Document :=
  forUp (saveBody s) s.dialogueBoxes.length 0 []

/-- The loop `while (renderObjects->size > 1)` removing the last element;
the first argument bounds the number of iterations. -/
def clearRenderObjects : Nat → List RenderObject → Option (List RenderObject)
  | 0, v => some v
  | n + 1, v =>
    if v.length > 1 then
      (slb_Vector_Remove v ((v.length : Int) - 1)).bind (fun v1 => clearRenderObjects n v1)
    else some v

/-- First pass of `LoadDialogueBoxes`: one `CreateDialogueBox` per document
element, then the event is read into the new (last) box. The text is read
into `char text[1024]`, the event into the box's 1024-byte buffer. -/
def loadPass1 (characters : Nat → Character) : List DocElement → Editor → Option Editor
  | [], s => some s
  | boxJson :: rest, s =>
    if ¬ boxJson.text.length < 1024 then none else
    (CreateDialogueBox characters boxJson.text boxJson.position (1 / 100) s).bind (fun s1 =>
    (slb_Vector_Get s1.dialogueBoxes ((s1.dialogueBoxes.length : Int) - 1)).bind (fun newBox =>
    match boxJson.event with
    | none => loadPass1 characters rest s1
    | some e =>
      if ¬ e.length < 1024 then none else
      (slb_Vector_Set s1.dialogueBoxes ((s1.dialogueBoxes.length : Int) - 1)
          { newBox with event := e }).bind (fun boxes =>
        loadPass1 characters rest { s1 with dialogueBoxes := boxes })))

/-- A 64-bit integer converted to `int`: the low 32 bits, read as signed. -/
def wrapInt (n : Int) : Int :=
  (n + 2147483648) % 4294967296 - 2147483648

/-- Body of the inner loop of the second pass, for connection `j` of element
`i`; `connections` is the local buffer filled from the document. -/
def loadConnBody (connections : List Int) (i : Int) (j : Int) (s : Editor) : Option Editor :=
  (slb_Vector_Get connections j).bind (fun c =>
    let targetIndex := c - 1
    if targetIndex ≥ 0 ∧ targetIndex < (s.renderObjects.length : Int) - 1 then
      (slb_Vector_Get s.renderObjects (targetIndex + 1)).bind (fun _ =>
      let line : LineObject := ⟨i, targetIndex⟩
      let connectionValue := targetIndex + 1
      (slb_Vector_Get s.dialogueBoxes i).bind (fun sourceBox =>
      (slb_Vector_Set s.dialogueBoxes i
          { sourceBox with
            connections := slb_Vector_PushBack sourceBox.connections connectionValue }).bind
        (fun boxes =>
          some { s with lineObjects := slb_Vector_PushBack s.lineObjects line,
                        dialogueBoxes := boxes })))
    else some s)

/-- Second pass of `LoadDialogueBoxes`, from element `i` on: the connections
of each element are read by `slb_Json_LoadIntArray` into `int connections[16]`
(more than 16 values overflow it; each value is narrowed to `int` by
`element.get<int>()`) and turned into line objects and box connections. -/
def loadPass2 : List DocElement → Int → Editor → Option Editor
  | [], _, s => some s
  | boxJson :: rest, i, s =>
    let connectionsCount := boxJson.connections.length
    if connectionsCount > 0 then
      if connectionsCount > 16 then none else
      (slb_Vector_Get s.dialogueBoxes i).bind (fun _ =>
      (slb_Vector_Get s.renderObjects (i + 1)).bind (fun _ =>
      (forUp (loadConnBody (boxJson.connections.map wrapInt) i) connectionsCount 0 s).bind
        (fun s1 => loadPass2 rest (i + 1) s1)))
    else loadPass2 rest (i + 1) s

/-- The function `LoadDialogueBoxes` of main.c; `file` is what
`slb_Json_LoadFromFile` returns: `none` when the file is missing or does not
parse. -/
def LoadDialogueBoxes (characters : Nat → Character) (file : Option Document) (s : Editor) :
    Option Editor :=
  (clearRenderObjects s.renderObjects.length s.renderObjects).bind (fun renderObjects =>
  let s1 : Editor :=
    { s with renderObjects := renderObjects, textObjects := [], dialogueBoxes := [],
             lineObjects := [] }
  match file with
  | none => some s1
  | some json =>
    (loadPass1 characters json s1).bind (fun s2 => loadPass2 json 0 s2))

/-! ## The program as a transition system -/

/-- The state of `main` before the first node is created: the vectors hold
only the cursor anchor. -/
def emptyEditor : Editor :=
  { renderObjects := [CreateRenderObject ⟨0, 0⟩ ⟨2 / 10, 2 / 10⟩], textObjects := [],
    dialogueBoxes := [], lineObjects := [], currentDialogueBox := -1,
    firstConnectionDialogueBox := -1, secondConnectionDialogueBox := -1,
    isConnecting := false, isDragging := false }

/-- The state of `main` on entering the main loop: the cursor and the node
"Hello, world!" at (0, 1). -/
def mainInit (characters : Nat → Character) : Option Editor :=
  CreateDialogueBox characters "Hello, world!".toList ⟨0, 1⟩ (1 / 100) emptyEditor

/-- The operations that change the graph: the two functions
`CreateDialogueBoxAtIndex` and `UpdateDialogueBox` called directly, and the
events of the main loop. -/
inductive Action where
  | createAt (text : List Char) (pos : Vec2) (textScale : Rat) (insertIndex : Int)
  | middleDown (pos : Vec2)
  | leftDown (i : Int)
  | leftUp (i : Int)
  | rightDown (i : Int)
  | delete
  | drag (dx dz : Rat)
  | editText (newText : List Char)
  | editEvent (newEvent : List Char)
  | load (file : Option Document)
  | update (dialogueIndex : Int)

/-- The public operations of the editor: what a user can trigger from the
main loop (every node is created at the end of the list, and
`UpdateDialogueBox` runs on the selected node after a text edit). -/
def Action.isPublic : Action → Bool
  | Action.createAt _ _ _ _ => false
  | Action.update _ => false
  | _ => true

/-- One operation applied to a state; `none` when the operation runs into
undefined behaviour. -/
def step (characters : Nat → Character) : Action → Editor → Option Editor
  | Action.createAt text pos textScale insertIndex, s =>
    CreateDialogueBoxAtIndex characters text pos textScale insertIndex s
  | Action.middleDown pos, s => middleDown characters pos s
  | Action.leftDown i, s => leftDown i s
  | Action.leftUp i, s => leftUp i s
  | Action.rightDown i, s => rightDown i s
  | Action.delete, s => deleteHandler s
  | Action.drag dx dz, s => dragStep dx dz s
  | Action.editText newText, s => editText characters newText s
  | Action.editEvent newEvent, s => editEvent newEvent s
  | Action.load file, s => LoadDialogueBoxes characters file s
  | Action.update dialogueIndex, s => UpdateDialogueBox characters dialogueIndex s

/-- A sequence of operations applied from left to right. -/
def run (characters : Nat → Character) : List Action → Editor → Option Editor
  | [], s => some s
  | a :: rest, s => (step characters a s).bind (fun s1 => run characters rest s1)

/-- The states reachable from the initial graph by the operations. -/
inductive Reachable (characters : Nat → Character) : Editor → Prop where
  | init (s : Editor) : mainInit characters = some s → Reachable characters s
  | step (a : Action) (s s1 : Editor) :
      Reachable characters s → step characters a s = some s1 → Reachable characters s1

/-- The states reachable from the initial graph by public operations only. -/
inductive PublicReachable (characters : Nat → Character) : Editor → Prop where
  | init (s : Editor) : mainInit characters = some s → PublicReachable characters s
  | step (a : Action) (s s1 : Editor) :
      PublicReachable characters s → a.isPublic = true →
      step characters a s = some s1 → PublicReachable characters s1

/-! ## Closed forms, invariants and example graphs -/

/-- The sum of `numTextObjects` over a list of boxes. -/
def numSum (boxes : List DialogueBox) : Int :=
  (boxes.map (fun b => b.numTextObjects)).sum

/-- A box with `beginningTextIndex` moved by `delta`. -/
def bump (delta : Int) (b : DialogueBox) : DialogueBox :=
  { b with beginningTextIndex := b.beginningTextIndex + delta }

/-- The text objects the layout loop creates for a sequence of lines, in
creation order. -/
def layoutObjs (characters : Nat → Character) (pos : Vec2) (textScale bw bh : Rat) :
    List (List Char) → Rat → List TextObject
  | [], _ => []
  | line :: rest, yOffset =>
    ⟨line, ⟨fadd (fsub pos.x (fdiv bw 2)) padding, fadd (fsub pos.y (fdiv bh 2)) yOffset⟩,
      roundFloat textScale⟩ ::
      layoutObjs characters pos textScale bw bh rest
        (fadd yOffset
          (fmul (fmul (characters 65).bh (roundFloat textScale)) (roundFloat (12 / 10))))

/-- The closed form of the connection rebase of the delete handler: values
equal to the anchor index are dropped, larger ones are decremented. -/
def rebaseConnections (currentDialogueBox : Int) (connections : List Int) : List Int :=
  (connections.filter (fun c => decide (c ≠ currentDialogueBox))).map
    (fun c => if c > currentDialogueBox then c - 1 else c)

/-- The test of the line pruning loop: the line neither starts nor ends at
the deleted box. -/
def keepLine (dialogueIndex : Int) (l : LineObject) : Bool :=
  decide (¬ (l.firstBoxIndex = dialogueIndex ∨ l.secondBoxIndex = dialogueIndex))

/-- The closed form of the line pruning of the delete handler. -/
def pruneLines (dialogueIndex : Int) (lineObjects : List LineObject) : List LineObject :=
  (lineObjects.filter (keepLine dialogueIndex)).map (lineShift dialogueIndex)

/-- A box with its connections rebased for the deletion of the anchor
`currentDialogueBox`. -/
def rebaseBox (currentDialogueBox : Int) (b : DialogueBox) : DialogueBox :=
  { b with connections := rebaseConnections currentDialogueBox b.connections }

/-- The lines the layout computes for a node text: the tokens of the
reversed text. -/
def layoutLines (text : List Char) : List (List Char) :=
  strtokAll (buildReversed (strtokLoop 100 text))

/-- The text fits the fixed buffers and the glyph table of the program: 1024
bytes for a node text, 256 bytes for the text of one text object, and every
laid-out character is one of the 128 the table `characters` has an entry
for. -/
def TextFits (text : List Char) : Prop :=
  text.length < 1024 ∧ (∀ l ∈ layoutLines text, l.length < 256) ∧
    ∀ l ∈ layoutLines text, ∀ c ∈ l, c.toNat < 128

instance (text : List Char) : Decidable (TextFits text) :=
  inferInstanceAs (Decidable (_ ∧ _ ∧ _))

/-- The box `CreateDialogueBoxAtIndex` inserts for `text` when the text run
starts at `textInsertIndex`. -/
def newBox (text : List Char) (textInsertIndex : Int) : DialogueBox :=
  { text := text, event := [], connections := [],
    numTextObjects := ((layoutLines text).length : Int),
    beginningTextIndex := textInsertIndex }

/-- The anchor `CreateDialogueBoxAtIndex` inserts for a text whose characters
are all in the glyph table. -/
def newAnchor (characters : Nat → Character) (text : List Char) (pos : Vec2)
    (textScale : Rat) : RenderObject :=
  CreateRenderObject pos
    ⟨(boxWidth characters textScale (layoutLines text)).getD 0,
     boxHeight characters textScale (layoutLines text).length⟩

/-- The text objects `CreateDialogueBoxAtIndex` inserts, in vector order. -/
def newTexts (characters : Nat → Character) (text : List Char) (pos : Vec2)
    (textScale : Rat) : List TextObject :=
  layoutObjs characters pos textScale
    ((boxWidth characters textScale (layoutLines text)).getD 0)
    (boxHeight characters textScale (layoutLines text).length) (layoutLines text) padding

/-- Every box of the list starts its text run at the running sum of the
counts before it, the first one at `base`. -/
def offsetsOK : Int → List DialogueBox → Bool
  | _, [] => true
  | base, b :: bs =>
    decide (b.beginningTextIndex = base) && offsetsOK (base + b.numTextObjects) bs

/-- The consistency of the graph store: text runs are laid out back to back,
there is one anchor per node plus the cursor, the runs cover the text
object vector, no count is negative, and every node text fits the buffers. -/
def WellFormed (s : Editor) : Prop :=
  offsetsOK 0 s.dialogueBoxes = true ∧
  s.renderObjects.length = s.dialogueBoxes.length + 1 ∧
  numSum s.dialogueBoxes = (s.textObjects.length : Int) ∧
  (∀ b ∈ s.dialogueBoxes, 0 ≤ b.numTextObjects) ∧
  (∀ b ∈ s.dialogueBoxes, TextFits b.text)

instance (s : Editor) : Decidable (WellFormed s) :=
  inferInstanceAs (Decidable (_ ∧ _ ∧ _ ∧ _ ∧ _))

/-- The fields of a box the consistency of the store depends on. -/
def shape (b : DialogueBox) : List Char × Int × Int :=
  (b.text, b.numTextObjects, b.beginningTextIndex)

/-- One anchor per node plus the cursor. -/
def Sized (s : Editor) : Prop :=
  s.renderObjects.length = s.dialogueBoxes.length + 1

instance (s : Editor) : Decidable (Sized s) :=
  inferInstanceAs (Decidable (_ = _))

/-- A font table for closed examples: every glyph is a unit square. -/
def sampleFont : Nat → Character :=
  fun _ => ⟨1, 0, 1, 1, 0, 0, 0, 0⟩

/-- The state reached from the initial graph by a sequence of operations
(the empty editor when the sequence runs into undefined behaviour). -/
def runFromStart (characters : Nat → Character) (acts : List Action) : Editor :=
  ((mainInit characters).bind (run characters acts)).getD emptyEditor

/-- A two-line text for closed examples. -/
def sampleText : List Char :=
  "a".toList ++ newline :: "b".toList

/-- Operations building the graph of the closed examples: a two-line node
is inserted in front, a third node is created, node 0 is connected to node 2
and node 2 to node 1, and node 1 is selected. -/
def sampleActions : List Action :=
  [Action.createAt sampleText ⟨2, 2⟩ (1 / 100) 0, Action.middleDown ⟨1, 1⟩, Action.rightDown 1,
   Action.rightDown 3, Action.rightDown 3, Action.rightDown 2, Action.leftDown 2]

/-- The graph of the closed examples. -/
def sampleGraph : Editor :=
  runFromStart sampleFont sampleActions

/-- The third node of the graph of the closed examples. -/
def sampleNode : DialogueBox :=
  ⟨"Hello world".toList, [], [2], 1, 3⟩

/-- The document of Scenario C: node "A" at (0,0) without connections and
node "B" at (1,1) with the connection value 1. -/
def scenarioC : Document :=
  [⟨⟨0, 0⟩, "A".toList, none, []⟩, ⟨⟨1, 1⟩, "B".toList, none, [1]⟩]

/-- Seventeen connections from node 0 to itself, each made by two right
clicks on the node. -/
def seventeenSelfEdges : List Action :=
  (List.replicate 17 [Action.rightDown 1, Action.rightDown 1]).flatten

/-- The graph with one node carrying seventeen edges. -/
def crowdedGraph : Editor :=
  runFromStart sampleFont seventeenSelfEdges

/-- A second node is created, the connection protocol is started on node 0
and node 0 is selected. -/
def connectingActions : List Action :=
  [Action.middleDown ⟨1, 1⟩, Action.rightDown 1, Action.leftDown 1]

/-- The graph in which node 0 awaits the second click of a connection and is
selected. -/
def connectingGraph : Editor :=
  runFromStart sampleFont connectingActions

/-- The node update as the specification words it: the event and the edges
of the node are captured, `RemoveNodeAt(index)` (the cascade of the delete
handler, run on the node at `index`) is followed by
`InsertNodeAt(index, text, samePosition)`, and the captured event and edges
are put onto the new node. -/
def specUpdateNodeText (characters : Nat → Character) (index : Int) (s : Editor) :
    Option Editor :=
  (slb_Vector_Get s.dialogueBoxes index).bind (fun box =>
  (slb_Vector_Get s.renderObjects (index + 1)).bind (fun obj =>
  (deleteHandler { s with currentDialogueBox := index + 1 }).bind (fun s1 =>
  (CreateDialogueBoxAtIndex characters box.text obj.position (1 / 100) index s1).bind (fun s2 =>
  (slb_Vector_Get s2.dialogueBoxes index).bind (fun newBox =>
  (slb_Vector_Set s2.dialogueBoxes index
      { newBox with event := box.event, connections := box.connections }).bind (fun boxes =>
    some { s2 with dialogueBoxes := boxes }))))))

/-- The event of a box fits its 1024-byte buffer and every connection value
is the anchor index of one of `n` nodes. -/
def okBox (n : Int) (b : DialogueBox) : Prop :=
  b.event.length < 1024 ∧ ∀ c ∈ b.connections, 1 ≤ c ∧ c ≤ n

instance (n : Int) (b : DialogueBox) : Decidable (okBox n b) :=
  inferInstanceAs (Decidable (_ ∧ _))

/-- Every event fits its buffer and every edge names an existing node. -/
def Linked (s : Editor) : Prop :=
  ∀ b ∈ s.dialogueBoxes, okBox (s.dialogueBoxes.length : Int) b

instance (s : Editor) : Decidable (Linked s) :=
  inferInstanceAs (Decidable (∀ b ∈ s.dialogueBoxes, _))

/-- The document element Save writes for a box and its anchor. -/
def saveElement (box : DialogueBox) (obj : RenderObject) : DocElement :=
  { position := obj.position, text := box.text, event := some box.event,
    connections := if box.connections.length > 0 then box.connections else [] }

/-- The values of the connections buffer the second pass of the load accepts
when the graph has `n` nodes. -/
def keepConnections (n : Int) (connections : List Int) : List Int :=
  connections.filter (fun c => decide (c - 1 ≥ 0 ∧ c - 1 < n))

/-- The box of the second pass of the load after the connections of its
document element have been read. -/
def addConnections (n : Int) (b : DialogueBox) (e : DocElement) : DialogueBox :=
  { b with connections :=
      b.connections ++
        (keepConnections n (e.connections.map wrapInt)).map (fun c => c - 1 + 1) }

/-- The line objects the second pass of the load creates for the document
elements from index `i` on. -/
def loadLines (n : Int) : Int → List DocElement → List LineObject
  | _, [] => []
  | i, e :: rest =>
    (keepConnections n (e.connections.map wrapInt)).map
        (fun c => (⟨i, c - 1⟩ : LineObject)) ++
      loadLines n (i + 1) rest

/-- The texts and events of the document fit the 1024-byte buffers they are
read into, and every line fits a text object. -/
def DocFits (json : List DocElement) : Prop :=
  ∀ e ∈ json, TextFits e.text ∧ ∀ ev, e.event = some ev → ev.length < 1024

/-- Operations of Scenario B: a second node is created, then node 0 and
node 1 are clicked with the right button. -/
def scenarioBActions : List Action :=
  [Action.middleDown ⟨1, 1⟩, Action.rightDown 1, Action.rightDown 2]

/-- The fields of a node apart from the start of its text run. -/
def nodeData (b : DialogueBox) : List Char × List Char × List Int × Int :=
  (b.text, b.event, b.connections, b.numTextObjects)

/-- The selection is empty or names an existing node. -/
def Selected (s : Editor) : Prop :=
  s.currentDialogueBox = -1 ∨
    (1 ≤ s.currentDialogueBox ∧ s.currentDialogueBox ≤ (s.dialogueBoxes.length : Int))

instance (s : Editor) : Decidable (Selected s) :=
  inferInstanceAs (Decidable (_ ∨ _))

/-- Node 0 is clicked with the left button and a load is run on a file that
is missing. -/
def staleSelectionActions : List Action :=
  [Action.leftDown 1, Action.leftUp 1, Action.load none]

/-- The graph after the selection of node 0 and a failed load. -/
def staleSelectionGraph : Editor :=
  runFromStart sampleFont staleSelectionActions

/-- The lines of a text as the specification words them: the text split at
each newline character, so that a text with `k` newlines has `k + 1` lines,
some of them possibly empty. -/
def splitAtNewlines : List Char → List (List Char)
  | [] => [[]]
  | c :: cs =>
    if c = newline then [] :: splitAtNewlines cs
    else
      match splitAtNewlines cs with
      | [] => [[c]]
      | l :: ls => (c :: l) :: ls

/-- The non-empty lines of a text, in the order they are typed. -/
def nonEmptyLines (s : List Char) : List (List Char) :=
  (splitAtNewlines s).filter (fun l => decide (l ≠ []))

/-- A text with an empty line between "a" and "b". -/
def blankLineText : List Char :=
  "a".toList ++ newline :: newline :: "b".toList

/-- The fields of a box that determine its text run: the text and the
number of text objects. -/
def textKey (b : DialogueBox) : List Char × Int :=
  (b.text, b.numTextObjects)

/-- The lines of the text runs of a list of boxes, run after run. -/
def runLines (boxes : List DialogueBox) : List (List Char) :=
  (boxes.map (fun b => layoutLines b.text)).flatten

/-- The text objects `T` are, run after run, the lines the layout computes
from the texts of the boxes `B`, and every box counts its lines. -/
def LaidParts (T : List TextObject) (B : List DialogueBox) : Prop :=
  T.map (fun o => o.text) = runLines B ∧
  ∀ b ∈ B, b.numTextObjects = ((layoutLines b.text).length : Int)

instance (T : List TextObject) (B : List DialogueBox) : Decidable (LaidParts T B) :=
  inferInstanceAs (Decidable (_ ∧ _))

/-- The text object vector holds, node after node, the lines the layout
computes from the node's own text. -/
def Laid (s : Editor) : Prop :=
  LaidParts s.textObjects s.dialogueBoxes

instance (s : Editor) : Decidable (Laid s) :=
  inferInstanceAs (Decidable (LaidParts _ _))

/-- The first node of the graph of the closed examples: two lines. -/
def sampleFirstNode : DialogueBox :=
  ⟨sampleText, [], [3], 2, 0⟩

/-- The lines the connections derive, for the boxes from index `k` on: the
pair `(i, e - 1)` for every box index `i` and every value `e` of the
connections of box `i`. -/
def edgePairs : Int → List DialogueBox → List LineObject
  | _, [] => []
  | k, b :: bs =>
    b.connections.map (fun e => (⟨k, e - 1⟩ : LineObject)) ++ edgePairs (k + 1) bs

/-- The line objects are, up to their order, the lines the connections
derive. -/
def Drawn (s : Editor) : Prop :=
  List.Perm s.lineObjects (edgePairs 0 s.dialogueBoxes)

/-- The graph of Scenario B. -/
def scenarioBGraph : Editor :=
  runFromStart sampleFont scenarioBActions

/-- One element of the document the Export menu entry writes: text, event
and connections, no position. -/
structure ExportElement where
  text : List Char
  event : Option (List Char)
  connections : List Int
deriving DecidableEq

/-- Body of the Export loop: the element written for node `i`. The loop reads
the anchor `i + 1` like the Save loop does, without using it. -/
def exportBody (s : Editor) (i : Int) (json : List ExportElement) :
    Option (List ExportElement) :=
  (slb_Vector_Get s.dialogueBoxes i).bind (fun box =>
  (slb_Vector_Get s.renderObjects (i + 1)).bind (fun _ =>
    some (json ++ [{ text := box.text, event := some box.event,
                     connections :=
                       if box.connections.length > 0 then box.connections else [] }])))

/-- The document built by the Export menu entry. -/
def Export (s : Editor) : Option (List ExportElement) :=
  forUp (exportBody s) s.dialogueBoxes.length 0 []

/-- A document element with the position field removed. -/
def stripPosition (e : DocElement) : ExportElement :=
  { text := e.text, event := e.event, connections := e.connections }

/-- Body of the line update loop of the main loop: the reads it performs for
line `i`; the vertex buffer update that follows them is not represented. -/
def lineUpdateBody (s : Editor) (i : Int) (_ : Unit) : Option Unit :=
  (slb_Vector_Get s.lineObjects i).bind (fun line =>
    if line.firstBoxIndex ≠ -1 ∧ line.secondBoxIndex ≠ -1 then
      (slb_Vector_Get s.renderObjects (line.firstBoxIndex + 1)).bind (fun _ =>
      (slb_Vector_Get s.renderObjects (line.secondBoxIndex + 1)).bind (fun _ => some ()))
    else some ())

/-- The line update block of the main loop, run every frame. -/
def lineUpdate (s : Editor) : Option Unit :=
  forUp (lineUpdateBody s) s.lineObjects.length 0 ()

/-- A value of `nlohmann::json`, the library json.cpp wraps, as far as the
wrappers look at it; signed and unsigned integers are one case. The library
calls the wrappers make (`contains`, `operator[]`, the range-based `for`,
`get<int>`, the conversion to `float`) are the definitions that follow. -/
inductive JsonValue where
  | null
  | bool (b : Bool)
  | int (n : Int)
  | float (x : Rat)
  | string (s : List Char)
  | array (xs : List JsonValue)
  | object (members : List (List Char × JsonValue))

instance : Inhabited JsonValue :=
  ⟨JsonValue.null⟩

/-- The call `json.contains(key)`: true for an object that has the key. -/
def JsonValue.contains : JsonValue → List Char → Bool
  | JsonValue.object members, key => members.any (fun m => decide (m.1 = key))
  | _, _ => false

/-- The member an object holds under `key`. -/
def JsonValue.member : JsonValue → List Char → Option JsonValue
  | JsonValue.object members, key =>
    (members.find? (fun m => decide (m.1 = key))).map (fun m => m.2)
  | _, _ => none

/-- The assignment `json[key] = v`: a null value becomes an object, an object
gets the member replaced or added, any other value throws. -/
def JsonValue.assign : JsonValue → List Char → JsonValue → Option JsonValue
  | JsonValue.null, key, v => some (JsonValue.object [(key, v)])
  | JsonValue.object members, key, v =>
    if members.any (fun m => decide (m.1 = key)) then
      some (JsonValue.object
        (members.map (fun m => if m.1 = key then (m.1, v) else m)))
    else some (JsonValue.object (members ++ [(key, v)]))
  | _, _, _ => none

/-- The values a range-based `for` over a JSON value visits: the elements of
an array, the members of an object, nothing for null, the value itself
otherwise. -/
def JsonValue.elements : JsonValue → List JsonValue
  | JsonValue.array xs => xs
  | JsonValue.object members => members.map (fun m => m.2)
  | JsonValue.null => []
  | v => [v]

/-- A float converted to an integer: the fraction is dropped. -/
def truncate (x : Rat) : Int :=
  if 0 ≤ x then Rat.floor x else -Rat.floor (-x)

/-- The call `element.get<int>()`: numbers and booleans convert, any other
value throws; a float outside the range of `int` is undefined. -/
def JsonValue.getInt : JsonValue → Option Int
  | JsonValue.int n => some (wrapInt n)
  | JsonValue.bool b => some (if b then 1 else 0)
  | JsonValue.float x =>
    if -2147483648 ≤ truncate x ∧ truncate x < 2147483648 then some (truncate x) else none
  | _ => none

/-- The conversion of a JSON value to `float`: numbers and booleans convert,
any other value throws. -/
def JsonValue.getFloat : JsonValue → Option Rat
  | JsonValue.int n => some (n : Rat)
  | JsonValue.bool b => some (if b then 1 else 0)
  | JsonValue.float x => some x
  | _ => none

/-- The function `slb_Json_SaveIntArray` of json.cpp, for a handle `j`, a
name and a pointer `val` that are not null; `val` is the array the pointer
names. -/
def slb_Json_SaveIntArray (j : JsonValue) (name : List Char) (val : List Int) (size : Nat) :
    Option JsonValue :=
  if size > 0 then
    -- std::vector<int> values(val, val + size)
    if size ≤ val.length then
      j.assign name (JsonValue.array ((val.take size).map JsonValue.int))
    else none
  else some j

/-- The loop of `slb_Json_LoadIntArray`: `val[index] = element.get<int>()`
for each element, `index` counting up. -/
def loadIntLoop : List JsonValue → Nat → List Int → Option (Nat × List Int)
  | [], index, val => some (index, val)
  | element :: rest, index, val =>
    element.getInt.bind (fun n =>
      if index < val.length then loadIntLoop rest (index + 1) (val.set index n) else none)

/-- The function `slb_Json_LoadIntArray` of json.cpp, for a handle, a name
and a buffer that are not null: the value returned and the buffer
afterwards. -/
def slb_Json_LoadIntArray (j : JsonValue) (name : List Char) (val : List Int) :
    Option (Nat × List Int) :=
  if ¬ j.contains name then some (0, val)
  else (j.member name).bind (fun a => loadIntLoop a.elements 0 val)

/-- The function `slb_Json_GetIntArraySize` of json.cpp, for a handle and a
name that are not null. -/
def slb_Json_GetIntArraySize (j : JsonValue) (name : List Char) : Nat :=
  if j.contains name then
    match j.member name with
    | some (JsonValue.array xs) => xs.length
    | _ => 0
  else 0

/-- The access `j->json[name]` of `slb_Json_LoadFloatArray`, which is not
guarded by `contains`: a null value becomes an object, a missing member is
added as null, a value that is no object throws. The result is the JSON value
afterwards and the member. -/
def JsonValue.access : JsonValue → List Char → Option (JsonValue × JsonValue)
  | JsonValue.null, key => some (JsonValue.object [(key, JsonValue.null)], JsonValue.null)
  | JsonValue.object members, key =>
    match members.find? (fun m => decide (m.1 = key)) with
    | some m => some (JsonValue.object members, m.2)
    | none => some (JsonValue.object (members ++ [(key, JsonValue.null)]), JsonValue.null)
  | _, _ => none

/-- The loop of `slb_Json_LoadFloatArray`: `val[index] = point` for each
element, `index` counting up. -/
def loadFloatLoop : List JsonValue → Nat → List Rat → Option (Nat × List Rat)
  | [], index, val => some (index, val)
  | point :: rest, index, val =>
    point.getFloat.bind (fun x =>
      if index < val.length then loadFloatLoop rest (index + 1) (val.set index x) else none)

/-- The function `slb_Json_LoadFloatArray` of json.cpp: the JSON value
afterwards, the value returned (`index + 1`) and the buffer afterwards. -/
def slb_Json_LoadFloatArray (j : JsonValue) (name : List Char) (val : List Rat) :
    Option (JsonValue × Nat × List Rat) :=
  (j.access name).bind (fun p =>
    (loadFloatLoop p.2.elements 0 val).map (fun r => (p.1, r.1 + 1, r.2)))

/-- A JSON object holding the array `[1, 2]` under "a". -/
def sampleJson : JsonValue :=
  JsonValue.object [("a".toList, JsonValue.array [JsonValue.int 1, JsonValue.int 2])]

/-- A document that parses and whose only element carries seventeen
connection values. -/
def overflowingDocument : Document :=
  [⟨⟨0, 0⟩, "A".toList, none, List.replicate 17 1⟩]

/-- The JSON object of the element of `overflowingDocument`, as far as its
connections go. -/
def overflowingElement : JsonValue :=
  JsonValue.object
    [("connections".toList, JsonValue.array (List.replicate 17 (JsonValue.int 1)))]

/-- The width of a line as the specification words it, in `float`
arithmetic: the sum, taken character by character from 0, of the advance of
the character times the text scale. -/
def specLineWidth (characters : Nat → Character) (textScale : Rat) (line : List Char) : Rat :=
  (line.map (fun c => fmul (characters c.toNat).ax (roundFloat textScale))).foldl fadd 0

/-- The box width as the specification words it, in `float` arithmetic: the
maximum of the line widths, 0 when there is no line, plus `2 * 0.4f`. -/
def specBoxWidth (characters : Nat → Character) (textScale : Rat)
    (lines : List (List Char)) : Rat :=
  fadd (((lines.map (specLineWidth characters textScale)).max?).getD 0)
    (fmul 2 (roundFloat (4 / 10)))

/-- The box height as the specification words it, in `float` arithmetic: the
bitmap height of 'A' times the text scale times the number of lines, plus
`2 * 0.4f`. -/
def specBoxHeight (characters : Nat → Character) (textScale : Rat) (lineCount : Nat) : Rat :=
  fadd (fmul (fmul (characters 65).bh (roundFloat textScale)) (roundFloat lineCount))
    (fmul 2 (roundFloat (4 / 10)))

/-- A second node is created, a connection is started on it with the right
button, it is selected with the left button and deleted. -/
def danglingConnectionActions : List Action :=
  [Action.middleDown ⟨1, 1⟩, Action.rightDown 2, Action.leftDown 2, Action.delete]

/-- The graph in which the pending connection names the anchor of a deleted
node. -/
def danglingConnectionGraph : Editor :=
  runFromStart sampleFont danglingConnectionActions

/-! ## Theorems -/

/-! ### Vectors split at an index -/

theorem getElem?_mid {α : Type} (A B : List α) (x : α) :
    (A ++ x :: B)[A.length]? = some x := by
  induction A with
  | nil => simp
  | cons a A ih => simpa using ih

theorem set_mid {α : Type} (A B : List α) (x y : α) :
    (A ++ x :: B).set A.length y = A ++ y :: B := by
  induction A with
  | nil => rfl
  | cons a A ih => simp [ih]

theorem eraseIdx_mid {α : Type} (A B : List α) (x : α) :
    (A ++ x :: B).eraseIdx A.length = A ++ B := by
  induction A with
  | nil => rfl
  | cons a A ih => simp [ih]

theorem insertIdx_mid {α : Type} (A B : List α) (y : α) :
    (A ++ B).insertIdx A.length y = A ++ y :: B := by
  induction A with
  | nil => simp
  | cons a A ih => simp [ih]

theorem get_mid {α : Type} (A B : List α) (x : α) :
    slb_Vector_Get (A ++ x :: B) (A.length : Int) = some x := by
  simp only [slb_Vector_Get, Int.toNat_ofNat, Int.ofNat_zero_le, if_true]
  exact getElem?_mid A B x

theorem vset_mid {α : Type} (A B : List α) (x y : α) :
    slb_Vector_Set (A ++ x :: B) (A.length : Int) y = some (A ++ y :: B) := by
  have h : (0 : Int) ≤ (A.length : Int) ∧ (A.length : Int) < ((A ++ x :: B).length : Int) := by
    constructor
    · omega
    · simp
  simp only [slb_Vector_Set, h, and_self, if_true, Int.toNat_ofNat, set_mid]

theorem remove_mid {α : Type} (A B : List α) (x : α) :
    slb_Vector_Remove (A ++ x :: B) (A.length : Int) = some (A ++ B) := by
  have h : (0 : Int) ≤ (A.length : Int) ∧ (A.length : Int) < ((A ++ x :: B).length : Int) := by
    constructor
    · omega
    · simp
  simp only [slb_Vector_Remove, h, and_self, if_true, Int.toNat_ofNat, eraseIdx_mid]

theorem insert_mid {α : Type} (A B : List α) (y : α) :
    slb_Vector_Insert (A ++ B) (A.length : Int) y = some (A ++ y :: B) := by
  have h : (0 : Int) ≤ (A.length : Int) ∧ (A.length : Int) ≤ ((A ++ B).length : Int) := by
    constructor
    · omega
    · simp
  simp only [slb_Vector_Insert, h, and_self, if_true, Int.toNat_ofNat, insertIdx_mid]

/-- A successful `slb_Vector_Get` splits the vector at the index. -/
theorem get_split {α : Type} {v : List α} {i : Int} {x : α}
    (h : slb_Vector_Get v i = some x) :
    ∃ A B, v = A ++ x :: B ∧ i = (A.length : Int) := by
  unfold slb_Vector_Get at h
  split at h
  · rename_i h0
    have hlt : i.toNat < v.length := by
      rcases Nat.lt_or_ge i.toNat v.length with hl | hl
      · exact hl
      · rw [List.getElem?_eq_none hl] at h
        cases h
    rw [List.getElem?_eq_getElem hlt] at h
    injection h with hx
    refine ⟨v.take i.toNat, v.drop (i.toNat + 1), ?_, ?_⟩
    · rw [← hx, ← List.drop_eq_getElem_cons hlt, List.take_append_drop]
    · rw [List.length_take, Nat.min_eq_left (Nat.le_of_lt hlt)]
      omega
  · cases h

/-- Every index in range splits the vector. -/
theorem split_at {α : Type} (v : List α) (k : Nat) (h : k ≤ v.length) :
    ∃ A B, v = A ++ B ∧ A.length = k :=
  ⟨v.take k, v.drop k, (List.take_append_drop k v).symm, by
    rw [List.length_take, Nat.min_eq_left h]⟩

/-! ### Loops in closed form -/

/-- A loop whose body rewrites element `i` in place maps the visited
suffix. -/
theorem forUp_pointwise {α : Type} (f : Nat → α → α) (body : Int → List α → Option (List α))
    (hbody : ∀ (A B : List α) (x : α),
      body (A.length : Int) (A ++ x :: B) = some (A ++ f A.length x :: B)) :
    ∀ (B A : List α), forUp body B.length (A.length : Int) (A ++ B)
      = some (A ++ mapFrom f A.length B) := by
  intro B
  induction B with
  | nil => intro A; simp [forUp, mapFrom]
  | cons x B ih =>
    intro A
    simp only [List.length_cons, forUp, hbody, Option.some_bind, mapFrom]
    have h := ih (A ++ [f A.length x])
    simp only [List.length_append, List.length_singleton, List.append_assoc,
      List.singleton_append, Nat.cast_add, Nat.cast_one] at h
    exact h

theorem mapFrom_const {α : Type} (g : α → α) (l : List α) (k : Nat) :
    mapFrom (fun _ => g) k l = l.map g := by
  induction l generalizing k with
  | nil => rfl
  | cons x xs ih => simp [mapFrom, ih]

theorem numSum_append (A B : List DialogueBox) : numSum (A ++ B) = numSum A + numSum B := by
  simp [numSum]

theorem numSum_cons (x : DialogueBox) (B : List DialogueBox) :
    numSum (x :: B) = x.numTextObjects + numSum B := by
  simp [numSum]

theorem sumLoop_eq (B A C : List DialogueBox) (acc : Int) :
    forUp (sumBody (A ++ (B ++ C))) B.length (A.length : Int) acc = some (acc + numSum B) := by
  induction B generalizing A acc with
  | nil => simp [forUp, numSum]
  | cons x B ih =>
    have hget : slb_Vector_Get (A ++ x :: (B ++ C)) (A.length : Int) = some x :=
      get_mid A (B ++ C) x
    have h := ih (A ++ [x]) (acc + x.numTextObjects)
    simp only [List.length_append, List.length_singleton, List.append_assoc,
      List.singleton_append, Nat.cast_add, Nat.cast_one] at h
    simp only [List.length_cons, forUp, sumBody, List.cons_append, hget, Option.map_some',
      Option.some_bind]
    rw [h, numSum_cons, Int.add_assoc]

theorem shiftLoop_eq (delta : Int) (B A : List DialogueBox) :
    forUp (shiftBody delta) B.length (A.length : Int) (A ++ B)
      = some (A ++ B.map (bump delta)) := by
  have h := forUp_pointwise (fun _ => bump delta) (shiftBody delta)
    (by
      intro A B x
      simp only [shiftBody, get_mid, Option.some_bind, vset_mid, bump]) B A
  rw [h, mapFrom_const]

theorem lineShiftLoop_eq (dialogueIndex : Int) (B A : List LineObject) :
    forUp (lineShiftBody dialogueIndex) B.length (A.length : Int) (A ++ B)
      = some (A ++ B.map (lineShift dialogueIndex)) := by
  have h := forUp_pointwise (fun _ => lineShift dialogueIndex) (lineShiftBody dialogueIndex)
    (by
      intro A B x
      simp only [lineShiftBody, get_mid, Option.some_bind, vset_mid]) B A
  rw [h, mapFrom_const]

theorem insertTextLoop_eq (characters : Nat → Character) (pos : Vec2) (textScale bw bh : Rat)
    (t : Int) (lines : List (List Char)) :
    ∀ (i : Int) (yOffset : Rat) (A B : List TextObject),
      (∀ l ∈ lines, l.length < 256) → (∀ l ∈ lines, ∀ c ∈ l, c.toNat < 128) →
      t + i = (A.length : Int) →
      insertTextLoop characters pos textScale bw bh t lines i yOffset (A ++ B)
        = some (A ++ layoutObjs characters pos textScale bw bh lines yOffset ++ B) := by
  induction lines with
  | nil => intro i yOffset A B _ _ _; simp [insertTextLoop, layoutObjs]
  | cons line rest ih =>
    intro i yOffset A B hfit htab hi
    have hline : line.length < 256 ∧ ∀ c ∈ line, c.toNat < 128 :=
      ⟨hfit line (List.mem_cons_self _ _), htab line (List.mem_cons_self _ _)⟩
    have hrest : ∀ l ∈ rest, l.length < 256 := fun l hl => hfit l (List.mem_cons_of_mem _ hl)
    have htrest : ∀ l ∈ rest, ∀ c ∈ l, c.toNat < 128 :=
      fun l hl => htab l (List.mem_cons_of_mem _ hl)
    have h := ih (i + 1)
      (fadd yOffset
        (fmul (fmul (characters 65).bh (roundFloat textScale)) (roundFloat (12 / 10))))
      (A ++ [⟨line,
        ⟨fadd (fsub pos.x (fdiv bw 2)) padding, fadd (fsub pos.y (fdiv bh 2)) yOffset⟩,
        roundFloat textScale⟩]) B hrest htrest
      (by simp only [List.length_append, List.length_singleton, Nat.cast_add, Nat.cast_one]; omega)
    simp only [List.append_assoc, List.singleton_append] at h
    simp only [insertTextLoop, CreateTextObject, if_pos hline, Option.some_bind, hi,
      insert_mid, h, layoutObjs, List.cons_append, List.append_assoc]

theorem layoutObjs_length (characters : Nat → Character) (pos : Vec2) (textScale bw bh : Rat)
    (lines : List (List Char)) (yOffset : Rat) :
    (layoutObjs characters pos textScale bw bh lines yOffset).length = lines.length := by
  induction lines generalizing yOffset with
  | nil => rfl
  | cons l rest ih => simp [layoutObjs, ih]

theorem destroyLoop_eq (M A B : List TextObject) :
    forUp (destroyTextBody (A ++ (M ++ B))) M.length (A.length : Int) () = some () := by
  induction M generalizing A with
  | nil => simp [forUp]
  | cons x M ih =>
    have hget : slb_Vector_Get (A ++ x :: (M ++ B)) (A.length : Int) = some x :=
      get_mid A (M ++ B) x
    have h := ih (A ++ [x])
    simp only [List.length_append, List.length_singleton, List.append_assoc,
      List.singleton_append, Nat.cast_add, Nat.cast_one] at h
    simp only [List.length_cons, forUp, destroyTextBody, List.cons_append, hget,
      Option.map_some', Option.some_bind]
    exact h

theorem removeLoop_eq (M A B : List TextObject) :
    forDown removeTextBody M.length ((M.length : Int) + (A.length : Int) - 1) (A ++ (M ++ B))
      = some (A ++ B) := by
  induction M using List.reverseRecOn generalizing B with
  | nil => simp [forDown]
  | append_singleton M x ih =>
    have hidx : (((M ++ [x]).length : Int) + (A.length : Int) - 1) = ((A ++ M).length : Int) := by
      simp only [List.length_append, List.length_singleton, Nat.cast_add, Nat.cast_one]; omega
    have hrem : slb_Vector_Remove (A ++ (M ++ [x] ++ B)) ((A ++ M).length : Int)
        = some (A ++ (M ++ B)) := by
      have := remove_mid (A ++ M) B x
      simpa using this
    have hnext : ((A ++ M).length : Int) - 1 = (M.length : Int) + (A.length : Int) - 1 := by
      simp only [List.length_append, Nat.cast_add]; omega
    rw [hidx, List.length_append, List.length_singleton]
    simp only [forDown, removeTextBody]
    rw [hrem, Option.some_bind, hnext]
    exact ih B

theorem copyLoop_eq (B A C dst : List Int) :
    forUp (copyBody (A ++ (B ++ C))) B.length (A.length : Int) dst = some (dst ++ B) := by
  induction B generalizing A dst with
  | nil => simp [forUp]
  | cons x B ih =>
    have hget : slb_Vector_Get (A ++ x :: (B ++ C)) (A.length : Int) = some x :=
      get_mid A (B ++ C) x
    have h := ih (A ++ [x]) (dst ++ [x])
    simp only [List.length_append, List.length_singleton, List.append_assoc,
      List.singleton_append, Nat.cast_add, Nat.cast_one] at h
    simp only [List.length_cons, forUp, copyBody, List.cons_append, hget, Option.map_some',
      Option.some_bind, slb_Vector_PushBack]
    exact h

theorem copyLoop_whole (src dst : List Int) :
    forUp (copyBody src) src.length 0 dst = some (dst ++ src) := by
  have h := copyLoop_eq src [] [] dst
  simpa using h

theorem mapFrom_congr {α : Type} (f : Nat → α → α) (g : α → α) (l : List α) (k : Nat)
    (h : ∀ j, k ≤ j → ∀ x, f j x = g x) : mapFrom f k l = l.map g := by
  induction l generalizing k with
  | nil => rfl
  | cons x xs ih =>
    simp only [mapFrom, List.map_cons, h k (Nat.le_refl k)]
    rw [ih (k + 1) (fun j hj y => h j (by omega) y)]

theorem lineRemoveLoop_eq (dialogueIndex : Int) (A B : List LineObject) :
    forDown (lineRemoveBody dialogueIndex) A.length ((A.length : Int) - 1) (A ++ B)
      = some (A.filter (keepLine dialogueIndex) ++ B) := by
  induction A using List.reverseRecOn generalizing B with
  | nil => simp [forDown]
  | append_singleton A x ih =>
    have hidx : (((A ++ [x]).length : Int) - 1) = (A.length : Int) := by
      simp only [List.length_append, List.length_singleton, Nat.cast_add, Nat.cast_one]; omega
    rw [hidx, List.length_append, List.length_singleton, List.append_assoc,
      List.singleton_append]
    simp only [forDown, lineRemoveBody, get_mid, Option.some_bind, remove_mid]
    by_cases hc : x.firstBoxIndex = dialogueIndex ∨ x.secondBoxIndex = dialogueIndex
    · simp only [hc, if_true, Option.some_bind]
      rw [ih B]
      simp [List.filter_append, keepLine, hc]
    · simp only [hc, if_false, Option.some_bind]
      rw [ih (x :: B)]
      simp [List.filter_append, keepLine, hc]

theorem rebaseConnections_append (c : Int) (A B : List Int) :
    rebaseConnections c (A ++ B) = rebaseConnections c A ++ rebaseConnections c B := by
  simp [rebaseConnections]

theorem connLoop_eq (currentDialogueBox : Int) (A B : List Int) :
    forDown (connBody currentDialogueBox) A.length ((A.length : Int) - 1) (A ++ B)
      = some (rebaseConnections currentDialogueBox A ++ B) := by
  induction A using List.reverseRecOn generalizing B with
  | nil => simp [forDown, rebaseConnections]
  | append_singleton A x ih =>
    have hidx : (((A ++ [x]).length : Int) - 1) = (A.length : Int) := by
      simp only [List.length_append, List.length_singleton, Nat.cast_add, Nat.cast_one]; omega
    rw [hidx, List.length_append, List.length_singleton, List.append_assoc,
      List.singleton_append]
    simp only [forDown, connBody, get_mid, Option.some_bind, remove_mid, vset_mid]
    by_cases hc : x = currentDialogueBox
    · simp only [hc, if_true, Option.some_bind]
      rw [ih B, rebaseConnections_append]
      simp [rebaseConnections]
    · by_cases hg : x > currentDialogueBox
      · simp only [hc, hg, if_true, if_false, Option.some_bind]
        rw [ih ((x - 1) :: B), rebaseConnections_append]
        simp [rebaseConnections, hc, hg]
      · simp only [hc, hg, if_false, Option.some_bind]
        rw [ih (x :: B), rebaseConnections_append]
        simp [rebaseConnections, hc, hg]

theorem connLoop_whole (currentDialogueBox : Int) (A : List Int) :
    forDown (connBody currentDialogueBox) A.length ((A.length : Int) - 1) A
      = some (rebaseConnections currentDialogueBox A) := by
  have h := connLoop_eq currentDialogueBox A []
  simpa using h

theorem connOuterLoop_eq (currentDialogueBox : Int) (P Q : List DialogueBox) (x : DialogueBox) :
    forUp (connOuterBody currentDialogueBox (P.length : Int)) (P ++ x :: Q).length 0
        (P ++ x :: Q)
      = some (P.map (rebaseBox currentDialogueBox) ++ x :: Q.map (rebaseBox currentDialogueBox)) := by
  have h := forUp_pointwise
    (fun i b => if (i : Int) ≠ (P.length : Int) then rebaseBox currentDialogueBox b else b)
    (connOuterBody currentDialogueBox (P.length : Int))
    (by
      intro A B y
      by_cases hi : (A.length : Int) ≠ (P.length : Int)
      · simp only [connOuterBody, hi, ne_eq, not_false_eq_true, if_true, get_mid,
          Option.some_bind, connLoop_whole, vset_mid, rebaseBox]
      · simp only [connOuterBody, hi, if_false]) (P ++ x :: Q) []
  simp only [List.length_nil, Nat.cast_zero, List.nil_append] at h
  rw [h]
  congr 1
  have hsplit : ∀ (P2 : List DialogueBox) (k : Nat), k + P2.length = P.length →
      mapFrom (fun i b => if (i : Int) ≠ (P.length : Int) then rebaseBox currentDialogueBox b
        else b) k (P2 ++ x :: Q)
      = P2.map (rebaseBox currentDialogueBox) ++ x :: Q.map (rebaseBox currentDialogueBox) := by
    intro P2
    induction P2 with
    | nil =>
      intro k hk
      simp only [List.length_nil, Nat.add_zero] at hk
      simp only [List.nil_append, mapFrom, hk, ne_eq, not_true_eq_false, if_false, List.map_nil]
      congr 1
      apply mapFrom_congr
      intro j hj y
      have : (j : Int) ≠ (P.length : Int) := by omega
      simp only [this, ne_eq, not_false_eq_true, if_true]
    | cons p P2 ih =>
      intro k hk
      simp only [List.length_cons] at hk
      have hne : (k : Int) ≠ (P.length : Int) := by omega
      simp only [List.cons_append, mapFrom, hne, ne_eq, not_false_eq_true, if_true,
        List.map_cons]
      congr 1
      exact ih (k + 1) (by omega)
  exact hsplit P 0 (by simp)

theorem sumLoop_front (P Q : List DialogueBox) :
    forUp (sumBody (P ++ Q)) P.length 0 0 = some (numSum P) := by
  have h := sumLoop_eq P [] Q 0
  simpa using h

theorem lineWidthLoop_some (characters : Nat → Character) (textScale : Rat) :
    ∀ (line : List Char) (w : Rat), (∀ c ∈ line, c.toNat < 128) →
      ∃ r, lineWidthLoop characters textScale line w = some r := by
  intro line
  induction line with
  | nil => intro w _; exact ⟨w, rfl⟩
  | cons c rest ih =>
    intro w h
    have hc : c.toNat < 128 := h c (List.mem_cons_self _ _)
    simp only [lineWidthLoop, glyph, if_pos hc, Option.some_bind]
    exact ih _ (fun d hd => h d (List.mem_cons_of_mem _ hd))

theorem maxLineWidthLoop_some (characters : Nat → Character) (textScale : Rat) :
    ∀ (lines : List (List Char)) (m : Rat), (∀ l ∈ lines, ∀ c ∈ l, c.toNat < 128) →
      ∃ r, maxLineWidthLoop characters textScale lines m = some r := by
  intro lines
  induction lines with
  | nil => intro m _; exact ⟨m, rfl⟩
  | cons l rest ih =>
    intro m h
    obtain ⟨w, hw⟩ := lineWidthLoop_some characters textScale l 0 (h l (List.mem_cons_self _ _))
    simp only [maxLineWidthLoop, lineWidth, hw, Option.some_bind]
    exact ih _ (fun l2 hl2 => h l2 (List.mem_cons_of_mem _ hl2))

/-- The box width is defined when every character is in the glyph table. -/
theorem boxWidth_some (characters : Nat → Character) (textScale : Rat)
    (lines : List (List Char)) (h : ∀ l ∈ lines, ∀ c ∈ l, c.toNat < 128) :
    ∃ w, boxWidth characters textScale lines = some w := by
  obtain ⟨m, hm⟩ := maxLineWidthLoop_some characters textScale lines 0 h
  exact ⟨fadd m (fmul 2 padding), by simp only [boxWidth, maxLineWidth, hm, Option.map_some']⟩

theorem CreateDialogueBoxAtIndex_eq (characters : Nat → Character) (text : List Char)
    (pos : Vec2) (textScale : Rat) (s : Editor) (P Q : List DialogueBox)
    (R1 R2 : List RenderObject) (T1 T2 : List TextObject)
    (hb : s.dialogueBoxes = P ++ Q) (hr : s.renderObjects = R1 ++ R2)
    (hR1 : R1.length = P.length + 1) (ht : s.textObjects = T1 ++ T2)
    (hT1 : (T1.length : Int) = numSum P) (hfit : TextFits text) :
    CreateDialogueBoxAtIndex characters text pos textScale (P.length : Int) s
      = some { s with
          renderObjects := R1 ++ newAnchor characters text pos textScale :: R2,
          textObjects := T1 ++ (newTexts characters text pos textScale ++ T2),
          dialogueBoxes := P ++ newBox text (numSum P) ::
            Q.map (bump ((layoutLines text).length : Int)) } := by
  have h1 : ∀ a : RenderObject,
      slb_Vector_Insert (R1 ++ R2) ((P.length : Int) + 1) a = some (R1 ++ a :: R2) := by
    intro a
    have h := insert_mid R1 R2 a
    rw [hR1] at h
    push_cast at h
    exact h
  obtain ⟨w, hw⟩ := boxWidth_some characters textScale (layoutLines text) hfit.2.2
  have h3 := insertTextLoop_eq characters pos textScale w
    (boxHeight characters textScale (layoutLines text).length) (numSum P) (layoutLines text)
    0 padding T1 T2 hfit.2.1 hfit.2.2 (by omega)
  have h4 : (((P ++ Q).length : Int) - (P.length : Int)).toNat = Q.length := by
    simp only [List.length_append, Nat.cast_add]
    omega
  have h5 : ∀ (d : Int) (b : DialogueBox),
      slb_Vector_Insert (P ++ Q.map (bump d)) (P.length : Int) b
        = some (P ++ b :: Q.map (bump d)) := fun d b => insert_mid P _ b
  have hlen : ¬ ¬ text.length < 1024 := not_not.mpr hfit.1
  unfold layoutLines at h3 hw
  simp only [CreateDialogueBoxAtIndex, hlen, if_false, hb, hr, ht, h1, Option.some_bind,
    Int.toNat_ofNat, sumLoop_front, hw, h3, h4, shiftLoop_eq, h5, newAnchor, newTexts, newBox,
    layoutLines, Option.getD_some, List.append_assoc]

theorem lineRemoveLoop_whole (dialogueIndex : Int) (A : List LineObject) :
    forDown (lineRemoveBody dialogueIndex) A.length ((A.length : Int) - 1) A
      = some (A.filter (keepLine dialogueIndex)) := by
  have h := lineRemoveLoop_eq dialogueIndex A []
  simpa using h

theorem lineShiftLoop_whole (dialogueIndex : Int) (A : List LineObject) :
    forUp (lineShiftBody dialogueIndex) A.length 0 A
      = some (A.map (lineShift dialogueIndex)) := by
  have h := lineShiftLoop_eq dialogueIndex A []
  simpa using h

theorem deleteHandler_eq (s : Editor) (P Q : List DialogueBox) (x : DialogueBox)
    (R1 R2 : List RenderObject) (r : RenderObject) (T1 M T2 : List TextObject)
    (hb : s.dialogueBoxes = P ++ x :: Q)
    (hcur : s.currentDialogueBox = (P.length : Int) + 1)
    (hr : s.renderObjects = R1 ++ r :: R2) (hR1 : R1.length = P.length + 1)
    (ht : s.textObjects = T1 ++ (M ++ T2))
    (hT1 : (T1.length : Int) = x.beginningTextIndex)
    (hM : (M.length : Int) = x.numTextObjects) :
    deleteHandler s = some
      { renderObjects := R1 ++ R2,
        textObjects := T1 ++ T2,
        dialogueBoxes := P.map (rebaseBox ((P.length : Int) + 1)) ++
          (Q.map (rebaseBox ((P.length : Int) + 1))).map (bump (-x.numTextObjects)),
        lineObjects := pruneLines (P.length : Int) s.lineObjects,
        currentDialogueBox := -1,
        firstConnectionDialogueBox :=
          if (s.isConnecting && decide (s.firstConnectionDialogueBox = -1)) = true then -1
          else s.firstConnectionDialogueBox,
        secondConnectionDialogueBox := s.secondConnectionDialogueBox,
        isConnecting :=
          if (s.isConnecting && decide (s.firstConnectionDialogueBox = -1)) = true then false
          else s.isConnecting,
        isDragging := false } := by
  have hguard : (P.length : Int) + 1 ≠ -1 ∧ (P.length : Int) + 1 ≠ 0 := by
    constructor <;> omega
  have hdi : (P.length : Int) + 1 - 1 = (P.length : Int) := by omega
  have hgetr : slb_Vector_Get (R1 ++ r :: R2) ((P.length : Int) + 1) = some r := by
    have h := get_mid R1 R2 r
    rw [hR1] at h
    push_cast at h
    exact h
  have hdestroy := destroyLoop_eq M T1 T2
  have hremove := removeLoop_eq M T1 T2
  have hshift := shiftLoop_eq (-x.numTextObjects) (Q.map (rebaseBox ((P.length : Int) + 1)))
    (P.map (rebaseBox ((P.length : Int) + 1)) ++ [x])
  simp only [List.length_append, List.length_map, List.length_singleton, Nat.cast_add,
    Nat.cast_one, List.append_assoc, List.singleton_append] at hshift
  have hcount : (((P.map (rebaseBox ((P.length : Int) + 1)) ++
      x :: Q.map (rebaseBox ((P.length : Int) + 1))).length : Int)
      - ((P.length : Int) + 1)).toNat = Q.length := by
    simp only [List.length_append, List.length_map, List.length_cons, Nat.cast_add,
      Nat.cast_one]
    omega
  have hremr : slb_Vector_Remove (R1 ++ r :: R2) ((P.length : Int) + 1) = some (R1 ++ R2) := by
    have h := remove_mid R1 R2 r
    rw [hR1] at h
    push_cast at h
    exact h
  have hremb : ∀ (Q2 : List DialogueBox),
      slb_Vector_Remove (P.map (rebaseBox ((P.length : Int) + 1)) ++ x :: Q2) (P.length : Int)
        = some (P.map (rebaseBox ((P.length : Int) + 1)) ++ Q2) := by
    intro Q2
    have h := remove_mid (P.map (rebaseBox ((P.length : Int) + 1))) Q2 x
    rw [List.length_map] at h
    exact h
  have hbeg : x.beginningTextIndex = (T1.length : Int) := hT1.symm
  have hn : x.numTextObjects = (M.length : Int) := hM.symm
  rw [hn] at hshift
  simp only [deleteHandler, hcur, hguard, hb, hr, ht, hdi, ne_eq, not_false_eq_true, and_self,
    if_true, get_mid, hgetr, Option.some_bind, hbeg, hn, Int.toNat_ofNat, hdestroy,
    hremove, lineRemoveLoop_whole, lineShiftLoop_whole, connOuterLoop_eq, hcount, hshift,
    hremr, hremb, pruneLines]

theorem UpdateDialogueBox_eq (characters : Nat → Character) (s : Editor)
    (P Q : List DialogueBox) (x : DialogueBox)
    (R1 R2 : List RenderObject) (r : RenderObject) (T1 M T2 : List TextObject)
    (hb : s.dialogueBoxes = P ++ x :: Q)
    (hr : s.renderObjects = R1 ++ r :: R2) (hR1 : R1.length = P.length + 1)
    (ht : s.textObjects = T1 ++ (M ++ T2))
    (hT1 : (T1.length : Int) = x.beginningTextIndex)
    (hM : (M.length : Int) = x.numTextObjects)
    (hsum : numSum P = x.beginningTextIndex) (hfit : TextFits x.text) :
    UpdateDialogueBox characters (P.length : Int) s = some
      { s with
        renderObjects := R1 ++ newAnchor characters x.text r.position (1 / 100) :: R2,
        textObjects := T1 ++ (newTexts characters x.text r.position (1 / 100) ++ T2),
        dialogueBoxes := P ++
          { newBox x.text (numSum P) with event := x.event, connections := x.connections } ::
            (Q.map (bump (-x.numTextObjects))).map (bump ((layoutLines x.text).length : Int)),
        currentDialogueBox := (P.length : Int) + 1 } := by
  have hgetr : slb_Vector_Get (R1 ++ r :: R2) ((P.length : Int) + 1) = some r := by
    have h := get_mid R1 R2 r
    rw [hR1] at h
    push_cast at h
    exact h
  have hremr : slb_Vector_Remove (R1 ++ r :: R2) ((P.length : Int) + 1) = some (R1 ++ R2) := by
    have h := remove_mid R1 R2 r
    rw [hR1] at h
    push_cast at h
    exact h
  have hdestroy := destroyLoop_eq M T1 T2
  have hremove := removeLoop_eq M T1 T2
  have hcount : (((P ++ Q).length : Int) - (P.length : Int)).toNat = Q.length := by
    simp only [List.length_append, Nat.cast_add]
    omega
  have hbeg : x.beginningTextIndex = (T1.length : Int) := hT1.symm
  have hn : x.numTextObjects = (M.length : Int) := hM.symm
  have hcreate := CreateDialogueBoxAtIndex_eq characters x.text r.position (1 / 100)
    { s with renderObjects := R1 ++ R2, textObjects := T1 ++ T2,
             dialogueBoxes := P ++ Q.map (bump (-(M.length : Int))) }
    P (Q.map (bump (-(M.length : Int)))) R1 R2 T1 T2 rfl rfl hR1 rfl (by rw [hT1, hsum]) hfit
  simp only [UpdateDialogueBox, hb, hr, ht, get_mid, hgetr, Option.some_bind, copyLoop_whole,
    hbeg, hn, Int.toNat_ofNat, hdestroy, hremove, hremr, remove_mid, hcount, shiftLoop_eq,
    hcreate, vset_mid, newBox, List.nil_append]

theorem offsetsOK_append (A B : List DialogueBox) (base : Int) :
    offsetsOK base (A ++ B) = (offsetsOK base A && offsetsOK (base + numSum A) B) := by
  induction A generalizing base with
  | nil => simp [offsetsOK, numSum]
  | cons a A ih =>
    have h := ih (base + a.numTextObjects)
    rw [Int.add_assoc] at h
    rw [List.cons_append]
    simp only [offsetsOK, h, numSum_cons, Bool.and_assoc]

theorem offsetsOK_bump (d : Int) (B : List DialogueBox) (base : Int) :
    offsetsOK (base + d) (B.map (bump d)) = offsetsOK base B := by
  induction B generalizing base with
  | nil => rfl
  | cons b B ih =>
    have h := ih (base + b.numTextObjects)
    have e : base + d + b.numTextObjects = base + b.numTextObjects + d := by omega
    simp only [List.map_cons, offsetsOK, bump, e, h]
    congr 1
    simp only [decide_eq_decide]
    omega

theorem numSum_bump (d : Int) (B : List DialogueBox) : numSum (B.map (bump d)) = numSum B := by
  induction B with
  | nil => rfl
  | cons b B ih => simp only [List.map_cons, numSum_cons, ih, bump]

theorem numSum_nonneg (B : List DialogueBox) (h : ∀ b ∈ B, 0 ≤ b.numTextObjects) :
    0 ≤ numSum B := by
  induction B with
  | nil => simp [numSum]
  | cons b B ih =>
    rw [numSum_cons]
    have h1 := h b (List.mem_cons_self _ _)
    have h2 := ih (fun c hc => h c (List.mem_cons_of_mem _ hc))
    omega

theorem offsetsOK_shape (A B : List DialogueBox) (h : A.map shape = B.map shape) (base : Int) :
    offsetsOK base A = offsetsOK base B := by
  induction A generalizing B base with
  | nil =>
    cases B with
    | nil => rfl
    | cons b B => simp at h
  | cons a A ih =>
    cases B with
    | nil => simp at h
    | cons b B =>
      simp only [List.map_cons, List.cons.injEq, shape, Prod.mk.injEq] at h
      obtain ⟨⟨_, hn, hbeg⟩, hrest⟩ := h
      simp only [offsetsOK, hn, hbeg, ih B hrest]

theorem numSum_shape (A B : List DialogueBox) (h : A.map shape = B.map shape) :
    numSum A = numSum B := by
  have h2 : (A.map shape).map (fun t => t.2.1) = (B.map shape).map (fun t => t.2.1) := by
    rw [h]
  simp only [shape, List.map_map, Function.comp_def] at h2
  unfold numSum
  rw [h2]

theorem forall_shape (p : List Char × Int × Int → Prop) (A B : List DialogueBox)
    (h : A.map shape = B.map shape) (hA : ∀ b ∈ A, p (shape b)) : ∀ b ∈ B, p (shape b) := by
  intro b hb
  have hmem : shape b ∈ B.map shape := List.mem_map_of_mem shape hb
  rw [← h] at hmem
  obtain ⟨a, ha, hab⟩ := List.mem_map.mp hmem
  rw [← hab]
  exact hA a ha

/-- Consistency only depends on the shapes of the boxes and the sizes of the
other two vectors. -/
theorem WellFormed_of_shape (s s1 : Editor) (h : WellFormed s)
    (hb : s1.dialogueBoxes.map shape = s.dialogueBoxes.map shape)
    (hr : s1.renderObjects.length = s.renderObjects.length)
    (ht : s1.textObjects.length = s.textObjects.length) : WellFormed s1 := by
  obtain ⟨h1, h2, h3, h4, h5⟩ := h
  have hlen : s1.dialogueBoxes.length = s.dialogueBoxes.length := by
    have := congrArg List.length hb
    simpa using this
  refine ⟨?_, ?_, ?_, ?_, ?_⟩
  · rw [offsetsOK_shape _ _ hb]; exact h1
  · rw [hr, h2, hlen]
  · rw [numSum_shape _ _ hb, h3, ht]
  · exact forall_shape (fun t => 0 ≤ t.2.1) _ _ hb.symm h4
  · exact forall_shape (fun t => TextFits t.1) _ _ hb.symm h5

theorem split3 {α : Type} (v : List α) (a b : Nat) (h : a + b ≤ v.length) :
    ∃ T1 M T2, v = T1 ++ (M ++ T2) ∧ T1.length = a ∧ M.length = b := by
  refine ⟨v.take a, (v.drop a).take b, (v.drop a).drop b, ?_, ?_, ?_⟩
  · rw [List.take_append_drop, List.take_append_drop]
  · rw [List.length_take]; omega
  · rw [List.length_take, List.length_drop]; omega

theorem split_mid {α : Type} (v : List α) (k : Nat) (h : k < v.length) :
    ∃ A x B, v = A ++ x :: B ∧ A.length = k := by
  refine ⟨v.take k, v[k], v.drop (k + 1), ?_, ?_⟩
  · rw [← List.drop_eq_getElem_cons h, List.take_append_drop]
  · rw [List.length_take]; omega

/-- In a consistent store every node has its anchor and its text run. -/
theorem WellFormed.decompose {s : Editor} (h : WellFormed s) (P Q : List DialogueBox)
    (x : DialogueBox) (hb : s.dialogueBoxes = P ++ x :: Q) :
    ∃ R1 r R2 T1 M T2, s.renderObjects = R1 ++ r :: R2 ∧ R1.length = P.length + 1 ∧
      s.textObjects = T1 ++ (M ++ T2) ∧ (T1.length : Int) = x.beginningTextIndex ∧
      (M.length : Int) = x.numTextObjects ∧ numSum P = x.beginningTextIndex ∧
      (T2.length : Int) = numSum Q := by
  obtain ⟨h1, h2, h3, h4, h5⟩ := h
  rw [hb] at h1 h2 h3 h4
  rw [offsetsOK_append] at h1
  simp only [offsetsOK, Bool.and_eq_true, decide_eq_true_eq, Int.zero_add] at h1
  obtain ⟨_, hbeg, _⟩ := h1
  have hP : 0 ≤ numSum P := numSum_nonneg P (fun b hb => h4 b (by simp [hb]))
  have hQ : 0 ≤ numSum Q := numSum_nonneg Q (fun b hb => h4 b (by simp [hb]))
  have hx : 0 ≤ x.numTextObjects := h4 x (by simp)
  rw [numSum_append, numSum_cons] at h3
  simp only [List.length_append, List.length_cons] at h2
  obtain ⟨R1, r, R2, hR, hR1⟩ := split_mid s.renderObjects (P.length + 1) (by omega)
  obtain ⟨T1, M, T2, hT, hT1, hM⟩ := split3 s.textObjects (numSum P).toNat
    x.numTextObjects.toNat (by omega)
  refine ⟨R1, r, R2, T1, M, T2, hR, hR1, hT, ?_, ?_, hbeg.symm, ?_⟩
  · omega
  · omega
  · have hlen := congrArg List.length hT
    simp only [List.length_append] at hlen
    omega

/-! ### What a successful vector operation tells -/

theorem insert_some {α : Type} {v v1 : List α} {i : Int} {x : α}
    (h : slb_Vector_Insert v i x = some v1) :
    0 ≤ i ∧ i ≤ (v.length : Int) ∧ v1.length = v.length + 1 := by
  unfold slb_Vector_Insert at h
  split at h
  · rename_i hc
    injection h with h
    refine ⟨hc.1, hc.2, ?_⟩
    rw [← h, List.length_insertIdx]
    omega
  · cases h

theorem remove_some {α : Type} {v v1 : List α} {i : Int}
    (h : slb_Vector_Remove v i = some v1) :
    0 ≤ i ∧ i < (v.length : Int) ∧ v1.length + 1 = v.length := by
  unfold slb_Vector_Remove at h
  split at h
  · rename_i hc
    injection h with h
    refine ⟨hc.1, hc.2, ?_⟩
    rw [← h, List.length_eraseIdx]
    have : i.toNat < v.length := by omega
    simp only [this, if_true]
    omega
  · cases h

theorem set_some {α : Type} {v v1 : List α} {i : Int} {x : α}
    (h : slb_Vector_Set v i x = some v1) : v1.length = v.length := by
  unfold slb_Vector_Set at h
  split at h
  · injection h with h
    rw [← h, List.length_set]
  · cases h

/-- A successful read followed by a successful write at the same index
replaces one element. -/
theorem get_set_split {α : Type} {v v1 : List α} {i : Int} {x y : α}
    (hg : slb_Vector_Get v i = some x) (hs : slb_Vector_Set v i y = some v1) :
    ∃ A B, v = A ++ x :: B ∧ v1 = A ++ y :: B ∧ i = (A.length : Int) := by
  obtain ⟨A, B, hv, hi⟩ := get_split hg
  refine ⟨A, B, hv, ?_, hi⟩
  rw [hv, hi, vset_mid] at hs
  injection hs with hs
  exact hs.symm

/-- A property kept by every successful iteration is kept by the loop. -/
theorem forUp_invariant {σ : Type} (body : Int → σ → Option σ) (p : σ → Prop)
    (hbody : ∀ i s s1, body i s = some s1 → p s → p s1) :
    ∀ (n : Nat) (i : Int) (s s1 : σ), forUp body n i s = some s1 → p s → p s1 := by
  intro n
  induction n with
  | zero =>
    intro i s s1 h hp
    simp only [forUp, Option.some.injEq] at h
    rw [← h]
    exact hp
  | succ n ih =>
    intro i s s1 h hp
    simp only [forUp, Option.bind_eq_some] at h
    obtain ⟨s2, h2, h3⟩ := h
    exact ih (i + 1) s2 s1 h3 (hbody i s s2 h2 hp)

theorem forDown_invariant {σ : Type} (body : Int → σ → Option σ) (p : σ → Prop)
    (hbody : ∀ i s s1, body i s = some s1 → p s → p s1) :
    ∀ (n : Nat) (i : Int) (s s1 : σ), forDown body n i s = some s1 → p s → p s1 := by
  intro n
  induction n with
  | zero =>
    intro i s s1 h hp
    simp only [forDown, Option.some.injEq] at h
    rw [← h]
    exact hp
  | succ n ih =>
    intro i s s1 h hp
    simp only [forDown, Option.bind_eq_some] at h
    obtain ⟨s2, h2, h3⟩ := h
    exact ih (i - 1) s2 s1 h3 (hbody i s s2 h2 hp)

theorem shiftLoop_length (d : Int) (n : Nat) (i : Int) (v v1 : List DialogueBox)
    (h : forUp (shiftBody d) n i v = some v1) : v1.length = v.length := by
  refine forUp_invariant (shiftBody d) (fun w => w.length = v.length) ?_ n i v v1 h rfl
  intro j w w1 hw hp
  simp only [shiftBody, Option.bind_eq_some] at hw
  obtain ⟨b, _, hset⟩ := hw
  rw [set_some hset]
  exact hp

theorem insertTextLoop_fits (characters : Nat → Character) (pos : Vec2)
    (textScale bw bh : Rat) (t : Int) (lines : List (List Char)) :
    ∀ (i : Int) (yOffset : Rat) (v v1 : List TextObject),
      insertTextLoop characters pos textScale bw bh t lines i yOffset v = some v1 →
      ∀ l ∈ lines, l.length < 256 ∧ ∀ c ∈ l, c.toNat < 128 := by
  induction lines with
  | nil => intro i yOffset v v1 _ l hl; cases hl
  | cons line rest ih =>
    intro i yOffset v v1 h l hl
    simp only [insertTextLoop, Option.bind_eq_some] at h
    obtain ⟨obj, hobj, v2, _, hrest⟩ := h
    rcases List.mem_cons.mp hl with rfl | hl
    · unfold CreateTextObject at hobj
      split at hobj
      · assumption
      · cases hobj
    · exact ih _ _ _ _ hrest l hl

/-- What a successful `CreateDialogueBoxAtIndex` tells about its input. -/
theorem CreateDialogueBoxAtIndex_some (characters : Nat → Character) (text : List Char)
    (pos : Vec2) (textScale : Rat) (insertIndex : Int) (s s1 : Editor)
    (h : CreateDialogueBoxAtIndex characters text pos textScale insertIndex s = some s1) :
    0 ≤ insertIndex ∧ insertIndex + 1 ≤ (s.renderObjects.length : Int) ∧ TextFits text ∧
      s1.renderObjects.length = s.renderObjects.length + 1 ∧
      s1.dialogueBoxes.length = s.dialogueBoxes.length + 1 ∧
      s1.lineObjects = s.lineObjects := by
  unfold CreateDialogueBoxAtIndex at h
  split at h
  · cases h
  · rename_i hlen
    simp only [Option.bind_eq_some] at h
    obtain ⟨bw, _, ro, h1, t, _, tx, h3, sh, h4, db, h5, h6⟩ := h
    have hi := insert_some h1
    have hj := insert_some h5
    have hsh := shiftLoop_length _ _ _ _ _ h4
    have hfit := insertTextLoop_fits _ _ _ _ _ _ _ _ _ _ _ h3
    injection h6 with h6
    subst h6
    refine ⟨hj.1, hi.2.1,
      ⟨not_not.mp hlen, fun l hl => (hfit l hl).1, fun l hl => (hfit l hl).2⟩, hi.2.2, ?_, rfl⟩
    simp only [hj.2.2, hsh]

/-! ### Consistency is kept by the structural changes -/

theorem insert_wellFormed (s0 s1 : Editor) (P Q : List DialogueBox) (nb : DialogueBox)
    (h0 : WellFormed s0) (hb0 : s0.dialogueBoxes = P ++ Q)
    (hb1 : s1.dialogueBoxes = P ++ nb :: Q.map (bump nb.numTextObjects))
    (hr1 : s1.renderObjects.length = s0.renderObjects.length + 1)
    (ht1 : (s1.textObjects.length : Int) = (s0.textObjects.length : Int) + nb.numTextObjects)
    (hnb : nb.beginningTextIndex = numSum P) (hn : 0 ≤ nb.numTextObjects)
    (hfit : TextFits nb.text) : WellFormed s1 := by
  obtain ⟨h1, h2, h3, h4, h5⟩ := h0
  rw [hb0] at h1 h2 h3 h4 h5
  rw [offsetsOK_append, Bool.and_eq_true, Int.zero_add] at h1
  refine ⟨?_, ?_, ?_, ?_, ?_⟩
  · rw [hb1, offsetsOK_append, Bool.and_eq_true, Int.zero_add]
    refine ⟨h1.1, ?_⟩
    simp only [offsetsOK, Bool.and_eq_true, decide_eq_true_eq]
    exact ⟨hnb, by rw [offsetsOK_bump]; exact h1.2⟩
  · rw [hr1, h2, hb1]
    simp only [List.length_append, List.length_cons, List.length_map]
    omega
  · rw [hb1, numSum_append, numSum_cons, numSum_bump, ht1, ← h3, numSum_append]
    omega
  · rw [hb1]
    intro b hb
    simp only [List.mem_append, List.mem_cons, List.mem_map] at hb
    rcases hb with hb | rfl | ⟨c, hc, rfl⟩
    · exact h4 b (List.mem_append_left _ hb)
    · exact hn
    · exact h4 c (List.mem_append_right _ hc)
  · rw [hb1]
    intro b hb
    simp only [List.mem_append, List.mem_cons, List.mem_map] at hb
    rcases hb with hb | rfl | ⟨c, hc, rfl⟩
    · exact h5 b (List.mem_append_left _ hb)
    · exact hfit
    · exact h5 c (List.mem_append_right _ hc)

theorem remove_wellFormed (s s1 : Editor) (P Q : List DialogueBox) (x : DialogueBox)
    (h : WellFormed s) (hb : s.dialogueBoxes = P ++ x :: Q)
    (hb1 : s1.dialogueBoxes = P ++ Q.map (bump (-x.numTextObjects)))
    (hr1 : s1.renderObjects.length + 1 = s.renderObjects.length)
    (ht1 : (s1.textObjects.length : Int) + x.numTextObjects = (s.textObjects.length : Int)) :
    WellFormed s1 := by
  obtain ⟨h1, h2, h3, h4, h5⟩ := h
  rw [hb] at h1 h2 h3 h4 h5
  rw [offsetsOK_append, Bool.and_eq_true, Int.zero_add] at h1
  simp only [offsetsOK, Bool.and_eq_true, decide_eq_true_eq] at h1
  refine ⟨?_, ?_, ?_, ?_, ?_⟩
  · rw [hb1, offsetsOK_append, Bool.and_eq_true, Int.zero_add]
    refine ⟨h1.1, ?_⟩
    have e : numSum P = numSum P + x.numTextObjects + -x.numTextObjects := by omega
    rw [e, offsetsOK_bump]
    exact h1.2.2
  · simp only [List.length_append, List.length_cons] at h2
    rw [hb1]
    simp only [List.length_append, List.length_map]
    omega
  · rw [numSum_append, numSum_cons] at h3
    rw [hb1, numSum_append, numSum_bump]
    omega
  · rw [hb1]
    intro b hb
    simp only [List.mem_append, List.mem_map] at hb
    rcases hb with hb | ⟨c, hc, rfl⟩
    · exact h4 b (by simp [hb])
    · exact h4 c (by simp [hc])
  · rw [hb1]
    intro b hb
    simp only [List.mem_append, List.mem_map] at hb
    rcases hb with hb | ⟨c, hc, rfl⟩
    · exact h5 b (by simp [hb])
    · exact h5 c (by simp [hc])

theorem newTexts_length (characters : Nat → Character) (text : List Char) (pos : Vec2)
    (textScale : Rat) :
    (newTexts characters text pos textScale).length = (layoutLines text).length := by
  unfold newTexts
  rw [layoutObjs_length]

/-- A valid insertion index splits the three vectors of a consistent store. -/
theorem WellFormed.splitAt {s : Editor} (h : WellFormed s) (insertIndex : Int)
    (h0 : 0 ≤ insertIndex) (h1 : insertIndex ≤ (s.dialogueBoxes.length : Int)) :
    ∃ P Q R1 R2 T1 T2, insertIndex = (P.length : Int) ∧ s.dialogueBoxes = P ++ Q ∧
      s.renderObjects = R1 ++ R2 ∧ R1.length = P.length + 1 ∧ s.textObjects = T1 ++ T2 ∧
      (T1.length : Int) = numSum P := by
  obtain ⟨P, Q, hb, hP⟩ := split_at s.dialogueBoxes insertIndex.toNat (by omega)
  obtain ⟨_, h2, h3, h4, _⟩ := h
  rw [hb] at h2 h3 h4
  have hPn : 0 ≤ numSum P := numSum_nonneg P (fun b hb => h4 b (by simp [hb]))
  have hQn : 0 ≤ numSum Q := numSum_nonneg Q (fun b hb => h4 b (by simp [hb]))
  rw [numSum_append] at h3
  simp only [List.length_append] at h2
  obtain ⟨R1, R2, hr, hR1⟩ := split_at s.renderObjects (P.length + 1) (by omega)
  obtain ⟨T1, T2, ht, hT1⟩ := split_at s.textObjects (numSum P).toNat (by omega)
  exact ⟨P, Q, R1, R2, T1, T2, by omega, hb, hr, hR1, ht, by omega⟩

theorem CreateDialogueBoxAtIndex_wellFormed (characters : Nat → Character) (text : List Char)
    (pos : Vec2) (textScale : Rat) (insertIndex : Int) (s s1 : Editor) (hs : WellFormed s)
    (h : CreateDialogueBoxAtIndex characters text pos textScale insertIndex s = some s1) :
    WellFormed s1 := by
  obtain ⟨h0, h1, hfit, _, _, _⟩ := CreateDialogueBoxAtIndex_some _ _ _ _ _ _ _ h
  have hle : insertIndex ≤ (s.dialogueBoxes.length : Int) := by
    have := hs.2.1
    omega
  obtain ⟨P, Q, R1, R2, T1, T2, hi, hb, hr, hR1, ht, hT1⟩ := hs.splitAt insertIndex h0 hle
  rw [hi, CreateDialogueBoxAtIndex_eq characters text pos textScale s P Q R1 R2 T1 T2 hb hr hR1
    ht hT1 hfit] at h
  injection h with h
  subst h
  refine insert_wellFormed s _ P Q (newBox text (numSum P)) hs hb rfl ?_ ?_ rfl ?_ hfit
  · simp only [hr, List.length_append, List.length_cons]
    omega
  · simp only [ht, List.length_append, newTexts_length, newBox, Nat.cast_add]
    omega
  · simp only [newBox]
    omega

theorem deleteHandler_wellFormed (s s1 : Editor) (hs : WellFormed s)
    (h : deleteHandler s = some s1) : WellFormed s1 := by
  by_cases hg : s.currentDialogueBox ≠ -1 ∧ s.currentDialogueBox ≠ 0
  · have h2 := h
    unfold deleteHandler at h2
    rw [if_pos hg] at h2
    simp only [Option.bind_eq_some] at h2
    obtain ⟨x, hx, _⟩ := h2
    obtain ⟨P, Q, hb, hi⟩ := get_split hx
    obtain ⟨R1, r, R2, T1, M, T2, hr, hR1, ht, hT1, hM, _, _⟩ := hs.decompose P Q x hb
    rw [deleteHandler_eq s P Q x R1 R2 r T1 M T2 hb (by omega) hr hR1 ht hT1 hM] at h
    injection h with h
    subst h
    have hmid : WellFormed
        { s with renderObjects := R1 ++ R2, textObjects := T1 ++ T2,
                 dialogueBoxes := P ++ Q.map (bump (-x.numTextObjects)) } := by
      refine remove_wellFormed s _ P Q x hs hb rfl ?_ ?_
      · simp only [hr, List.length_append, List.length_cons]
        omega
      · simp only [ht, List.length_append, Nat.cast_add]
        omega
    refine WellFormed_of_shape _ _ hmid ?_ rfl rfl
    simp only [List.map_append, List.map_map]
    congr 1
  · unfold deleteHandler at h
    rw [if_neg hg] at h
    injection h with h
    rw [← h]
    exact hs

/-- What a successful `UpdateDialogueBox` tells about its input. -/
theorem UpdateDialogueBox_some (characters : Nat → Character) (dialogueIndex : Int)
    (s s1 : Editor) (h : UpdateDialogueBox characters dialogueIndex s = some s1) :
    ∃ x, slb_Vector_Get s.dialogueBoxes dialogueIndex = some x ∧ TextFits x.text := by
  unfold UpdateDialogueBox at h
  simp only [Option.bind_eq_some] at h
  obtain ⟨x, hx, r, _, tc, _, u, _, tx, _, ro, _, rm, _, db, _, s2, hc, _⟩ := h
  exact ⟨x, hx, (CreateDialogueBoxAtIndex_some _ _ _ _ _ _ _ hc).2.2.1⟩

theorem UpdateDialogueBox_wellFormed (characters : Nat → Character) (dialogueIndex : Int)
    (s s1 : Editor) (hs : WellFormed s)
    (h : UpdateDialogueBox characters dialogueIndex s = some s1) : WellFormed s1 := by
  obtain ⟨x, hx, hfit⟩ := UpdateDialogueBox_some _ _ _ _ h
  obtain ⟨P, Q, hb, hi⟩ := get_split hx
  obtain ⟨R1, r, R2, T1, M, T2, hr, hR1, ht, hT1, hM, hsum, _⟩ := hs.decompose P Q x hb
  rw [hi, UpdateDialogueBox_eq characters s P Q x R1 R2 r T1 M T2 hb hr hR1 ht hT1 hM hsum
    hfit] at h
  injection h with h
  subst h
  have hmid : WellFormed
      { s with renderObjects := R1 ++ R2, textObjects := T1 ++ T2,
               dialogueBoxes := P ++ Q.map (bump (-x.numTextObjects)) } := by
    refine remove_wellFormed s _ P Q x hs hb rfl ?_ ?_
    · simp only [hr, List.length_append, List.length_cons]
      omega
    · simp only [ht, List.length_append, Nat.cast_add]
      omega
  refine insert_wellFormed _ _ P (Q.map (bump (-x.numTextObjects)))
    { newBox x.text (numSum P) with event := x.event, connections := x.connections }
    hmid rfl rfl ?_ ?_ rfl ?_ hfit
  · simp only [List.length_append, List.length_cons]
    omega
  · simp only [List.length_append, newTexts_length, newBox, Nat.cast_add]
    omega
  · simp only [newBox]
    omega

/-- Replacing one box by a box with the same text run and a text that fits
keeps the store consistent. -/
theorem WellFormed_replace (s s1 : Editor) (P Q : List DialogueBox) (x y : DialogueBox)
    (hs : WellFormed s) (hb : s.dialogueBoxes = P ++ x :: Q)
    (hb1 : s1.dialogueBoxes = P ++ y :: Q)
    (hn : y.numTextObjects = x.numTextObjects)
    (hbeg : y.beginningTextIndex = x.beginningTextIndex) (hfit : TextFits y.text)
    (hr : s1.renderObjects.length = s.renderObjects.length)
    (ht : s1.textObjects.length = s.textObjects.length) : WellFormed s1 := by
  obtain ⟨h1, h2, h3, h4, h5⟩ := hs
  rw [hb] at h1 h2 h3 h4 h5
  rw [offsetsOK_append, Bool.and_eq_true, Int.zero_add] at h1
  simp only [offsetsOK, Bool.and_eq_true, decide_eq_true_eq] at h1
  refine ⟨?_, ?_, ?_, ?_, ?_⟩
  · rw [hb1, offsetsOK_append, Bool.and_eq_true, Int.zero_add]
    simp only [offsetsOK, Bool.and_eq_true, decide_eq_true_eq, hn, hbeg]
    exact h1
  · rw [hr, h2, hb1]
    simp only [List.length_append, List.length_cons]
  · rw [hb1, ht, ← h3]
    simp only [numSum_append, numSum_cons, hn]
  · rw [hb1]
    intro b hb
    simp only [List.mem_append, List.mem_cons] at hb
    rcases hb with hb | rfl | hb
    · exact h4 b (by simp [hb])
    · rw [hn]; exact h4 x (by simp)
    · exact h4 b (by simp [hb])
  · rw [hb1]
    intro b hb
    simp only [List.mem_append, List.mem_cons] at hb
    rcases hb with hb | rfl | hb
    · exact h5 b (by simp [hb])
    · exact hfit
    · exact h5 b (by simp [hb])

theorem editText_wellFormed (characters : Nat → Character) (newText : List Char)
    (s s1 : Editor) (hs : WellFormed s) (h : editText characters newText s = some s1) :
    WellFormed s1 := by
  unfold editText at h
  split at h
  · simp only [Option.bind_eq_some] at h
    obtain ⟨box, hbox, boxes, hset, hup⟩ := h
    obtain ⟨P, Q, hb, hb1, hi⟩ := get_set_split hbox hset
    obtain ⟨y, hy, hfit⟩ := UpdateDialogueBox_some _ _ _ _ hup
    simp only [hb1, hi, get_mid, Option.some.injEq] at hy
    rw [← hy] at hfit
    refine UpdateDialogueBox_wellFormed characters _ _ s1 ?_ hup
    exact WellFormed_replace s _ P Q box _ hs hb hb1 rfl rfl hfit rfl rfl
  · cases h

theorem editEvent_wellFormed (newEvent : List Char) (s s1 : Editor) (hs : WellFormed s)
    (h : editEvent newEvent s = some s1) : WellFormed s1 := by
  unfold editEvent at h
  split at h
  · simp only [Option.bind_eq_some] at h
    obtain ⟨box, hbox, boxes, hset, h⟩ := h
    injection h with h
    subst h
    obtain ⟨P, Q, hb, hb1, _⟩ := get_set_split hbox hset
    exact WellFormed_replace s _ P Q box _ hs hb hb1 rfl rfl
      (hs.2.2.2.2 box (by rw [hb]; simp)) rfl rfl
  · cases h

theorem rightDown_wellFormed (i : Int) (s s1 : Editor) (hs : WellFormed s)
    (h : rightDown i s = some s1) : WellFormed s1 := by
  unfold rightDown at h
  split at h
  · split at h
    · injection h with h
      subst h
      exact WellFormed_of_shape s _ hs rfl rfl rfl
    · simp only [Option.bind_eq_some] at h
      obtain ⟨_, _, box, hbox, boxes, hset, h⟩ := h
      injection h with h
      subst h
      obtain ⟨P, Q, hb, hb1, _⟩ := get_set_split hbox hset
      exact WellFormed_replace s _ P Q box _ hs hb hb1 rfl rfl
        (hs.2.2.2.2 box (by rw [hb]; simp)) rfl rfl
  · cases h

theorem leftDown_wellFormed (i : Int) (s s1 : Editor) (hs : WellFormed s)
    (h : leftDown i s = some s1) : WellFormed s1 := by
  unfold leftDown at h
  split at h
  · injection h with h
    subst h
    exact WellFormed_of_shape s _ hs rfl rfl rfl
  · cases h

theorem leftUp_wellFormed (i : Int) (s s1 : Editor) (hs : WellFormed s)
    (h : leftUp i s = some s1) : WellFormed s1 := by
  unfold leftUp at h
  split at h
  · injection h with h
    subst h
    exact WellFormed_of_shape s _ hs rfl rfl rfl
  · cases h

theorem dragTextLoop_length (dx dz : Rat) (n : Nat) (i : Int) (v v1 : List TextObject)
    (h : forUp (dragTextBody dx dz) n i v = some v1) : v1.length = v.length := by
  refine forUp_invariant (dragTextBody dx dz) (fun w => w.length = v.length) ?_ n i v v1 h rfl
  intro j w w1 hw hp
  simp only [dragTextBody, Option.bind_eq_some] at hw
  obtain ⟨b, _, hset⟩ := hw
  rw [set_some hset]
  exact hp

theorem dragStep_wellFormed (dx dz : Rat) (s s1 : Editor) (hs : WellFormed s)
    (h : dragStep dx dz s = some s1) : WellFormed s1 := by
  unfold dragStep at h
  split at h
  · simp only [Option.bind_eq_some] at h
    obtain ⟨obj, _, box, _, tx, htx, ro, hro, h⟩ := h
    injection h with h
    subst h
    exact WellFormed_of_shape s _ hs rfl (set_some hro) (dragTextLoop_length _ _ _ _ _ _ htx)
  · injection h with h
    subst h
    exact hs

/-! ### LoadDialogueBoxes -/

/-- With at least `size` iterations allowed, the clearing loop leaves exactly
the first element (the cursor). -/
theorem clearRenderObjects_eq (n : Nat) (v : List RenderObject) (h : v.length ≤ n) :
    clearRenderObjects n v = some (v.take 1) := by
  induction n generalizing v with
  | zero =>
    have hv : v = [] := List.eq_nil_of_length_eq_zero (by omega)
    subst hv
    rfl
  | succ n ih =>
    unfold clearRenderObjects
    split
    · rename_i hlen
      rcases List.eq_nil_or_concat v with hv | ⟨A, x, hv⟩
      · subst hv
        exact absurd hlen (by decide)
      · rw [List.concat_eq_append] at hv
        subst hv
        simp only [List.length_append, List.length_singleton] at hlen h
        have hidx : (((A ++ [x]).length : Int) - 1) = (A.length : Int) := by
          simp only [List.length_append, List.length_singleton, Nat.cast_add, Nat.cast_one]
          omega
        have hrem := remove_mid A [] x
        rw [List.append_nil] at hrem
        rw [hidx, hrem, Option.some_bind, ih A (by omega)]
        cases A with
        | nil => simp at hlen
        | cons a A => rfl
    · rename_i hlen
      have hle : v.length ≤ 1 := by omega
      rw [List.take_of_length_le hle]

theorem loadPass1_wellFormed (characters : Nat → Character) (json : List DocElement) :
    ∀ (s s1 : Editor), WellFormed s → loadPass1 characters json s = some s1 →
      WellFormed s1 := by
  induction json with
  | nil =>
    intro s s1 hs h
    simp only [loadPass1, Option.some.injEq] at h
    rw [← h]
    exact hs
  | cons e rest ih =>
    intro s s1 hs h
    unfold loadPass1 at h
    split at h
    · cases h
    · simp only [Option.bind_eq_some] at h
      obtain ⟨s2, hc, newBox, hget, h⟩ := h
      have hs2 : WellFormed s2 := CreateDialogueBoxAtIndex_wellFormed _ _ _ _ _ _ _ hs hc
      split at h
      · exact ih s2 s1 hs2 h
      · split at h
        · cases h
        · simp only [Option.bind_eq_some] at h
          obtain ⟨boxes, hset, h⟩ := h
          obtain ⟨P, Q, hb, hb1, _⟩ := get_set_split hget hset
          refine ih _ s1 ?_ h
          exact WellFormed_replace s2 _ P Q newBox _ hs2 hb hb1 rfl rfl
            (hs2.2.2.2.2 newBox (by rw [hb]; simp)) rfl rfl

theorem loadConnBody_wellFormed (connections : List Int) (i j : Int) (s s1 : Editor)
    (h : loadConnBody connections i j s = some s1) (hs : WellFormed s) : WellFormed s1 := by
  unfold loadConnBody at h
  simp only [Option.bind_eq_some] at h
  obtain ⟨c, _, h⟩ := h
  split at h
  · simp only [Option.bind_eq_some] at h
    obtain ⟨_, _, box, hbox, boxes, hset, h⟩ := h
    injection h with h
    subst h
    obtain ⟨P, Q, hb, hb1, _⟩ := get_set_split hbox hset
    exact WellFormed_replace s _ P Q box _ hs hb hb1 rfl rfl
      (hs.2.2.2.2 box (by rw [hb]; simp)) rfl rfl
  · injection h with h
    subst h
    exact hs

theorem loadPass2_wellFormed (json : List DocElement) :
    ∀ (i : Int) (s s1 : Editor), WellFormed s → loadPass2 json i s = some s1 →
      WellFormed s1 := by
  induction json with
  | nil =>
    intro i s s1 hs h
    simp only [loadPass2, Option.some.injEq] at h
    rw [← h]
    exact hs
  | cons e rest ih =>
    intro i s s1 hs h
    unfold loadPass2 at h
    simp only at h
    split at h
    · split at h
      · cases h
      · simp only [Option.bind_eq_some] at h
        obtain ⟨_, _, _, _, s2, hloop, h⟩ := h
        refine ih (i + 1) s2 s1 ?_ h
        exact forUp_invariant _ WellFormed (loadConnBody_wellFormed (e.connections.map wrapInt) i) _ _ _ _
          hloop hs
    · exact ih (i + 1) s s1 hs h

theorem LoadDialogueBoxes_wellFormed (characters : Nat → Character) (file : Option Document)
    (s s1 : Editor) (hs : WellFormed s)
    (h : LoadDialogueBoxes characters file s = some s1) : WellFormed s1 := by
  unfold LoadDialogueBoxes at h
  rw [clearRenderObjects_eq _ _ (Nat.le_refl _), Option.some_bind] at h
  have hclear : WellFormed
      { s with renderObjects := s.renderObjects.take 1, textObjects := [],
               dialogueBoxes := [], lineObjects := [] } := by
    refine ⟨rfl, ?_, rfl, ?_, ?_⟩
    · have := hs.2.1
      simp only [List.length_take, List.length_nil]
      omega
    · intro b hb; cases hb
    · intro b hb; cases hb
  cases file with
  | none =>
    injection h with h
    rw [← h]
    exact hclear
  | some json =>
    simp only [Option.bind_eq_some] at h
    obtain ⟨s2, h1, h2⟩ := h
    exact loadPass2_wellFormed json 0 s2 s1 (loadPass1_wellFormed characters json _ s2 hclear h1)
      h2

/-! ### Every reachable state is consistent -/

theorem step_wellFormed (characters : Nat → Character) (a : Action) (s s1 : Editor)
    (hs : WellFormed s) (h : step characters a s = some s1) : WellFormed s1 := by
  cases a with
  | createAt text pos textScale insertIndex =>
    exact CreateDialogueBoxAtIndex_wellFormed _ _ _ _ _ _ _ hs h
  | middleDown pos =>
    exact CreateDialogueBoxAtIndex_wellFormed characters "Hello world".toList pos (1 / 100)
      s.dialogueBoxes.length s s1 hs h
  | leftDown i => exact leftDown_wellFormed i s s1 hs h
  | leftUp i => exact leftUp_wellFormed i s s1 hs h
  | rightDown i => exact rightDown_wellFormed i s s1 hs h
  | delete => exact deleteHandler_wellFormed s s1 hs h
  | drag dx dz => exact dragStep_wellFormed dx dz s s1 hs h
  | editText newText => exact editText_wellFormed characters newText s s1 hs h
  | editEvent newEvent => exact editEvent_wellFormed newEvent s s1 hs h
  | load file => exact LoadDialogueBoxes_wellFormed characters file s s1 hs h
  | update dialogueIndex =>
    exact UpdateDialogueBox_wellFormed characters dialogueIndex s s1 hs h

theorem emptyEditor_wellFormed : WellFormed emptyEditor := by
  refine ⟨rfl, rfl, rfl, ?_, ?_⟩
  · intro b hb; cases hb
  · intro b hb; cases hb

theorem Reachable.wellFormed {characters : Nat → Character} {s : Editor}
    (h : Reachable characters s) : WellFormed s := by
  induction h with
  | init s h0 =>
    exact CreateDialogueBoxAtIndex_wellFormed characters "Hello, world!".toList ⟨0, 1⟩ (1 / 100)
      emptyEditor.dialogueBoxes.length emptyEditor s emptyEditor_wellFormed h0
  | step a s s1 _ hstep ih => exact step_wellFormed characters a s s1 ih hstep

/-! ### Sizes of the node and anchor lists -/

theorem connOuterLoop_length (c d : Int) (n : Nat) (i : Int) (v v1 : List DialogueBox)
    (h : forUp (connOuterBody c d) n i v = some v1) : v1.length = v.length := by
  refine forUp_invariant (connOuterBody c d) (fun w => w.length = v.length) ?_ n i v v1 h rfl
  intro j w w1 hw hp
  unfold connOuterBody at hw
  split at hw
  · simp only [Option.bind_eq_some] at hw
    obtain ⟨b, _, cs, _, hset⟩ := hw
    rw [set_some hset]
    exact hp
  · injection hw with hw
    rw [← hw]
    exact hp

theorem deleteHandler_sized (s s1 : Editor) (h : deleteHandler s = some s1) (hs : Sized s) :
    Sized s1 := by
  by_cases hg : s.currentDialogueBox ≠ -1 ∧ s.currentDialogueBox ≠ 0
  · unfold deleteHandler at h
    rw [if_pos hg] at h
    simp only [Option.bind_eq_some] at h
    obtain ⟨x, _, r, _, u, _, kept, _, ls, _, reb, hreb, tx, _, sh, hsh, ro, hro, db, hdb, h⟩ := h
    injection h with h
    subst h
    have h1 := connOuterLoop_length _ _ _ _ _ _ hreb
    have h2 := shiftLoop_length _ _ _ _ _ hsh
    have h3 := (remove_some hro).2.2
    have h4 := (remove_some hdb).2.2
    unfold Sized at hs ⊢
    simp only
    omega
  · unfold deleteHandler at h
    rw [if_neg hg] at h
    injection h with h
    rw [← h]
    exact hs

theorem UpdateDialogueBox_sized (characters : Nat → Character) (dialogueIndex : Int)
    (s s1 : Editor) (h : UpdateDialogueBox characters dialogueIndex s = some s1)
    (hs : Sized s) : Sized s1 := by
  unfold UpdateDialogueBox at h
  simp only [Option.bind_eq_some] at h
  obtain ⟨x, _, r, _, tc, _, u, _, tx, _, ro, hro, rm, hrm, db, hdb, s2, hc, nb, _, cs, _,
    boxes, hset, h⟩ := h
  injection h with h
  subst h
  have h1 := (remove_some hro).2.2
  have h2 := (remove_some hrm).2.2
  have h3 := shiftLoop_length _ _ _ _ _ hdb
  obtain ⟨_, _, _, h4, h5, _⟩ := CreateDialogueBoxAtIndex_some _ _ _ _ _ _ _ hc
  have h6 := set_some hset
  unfold Sized at hs ⊢
  simp only at h4 h5 ⊢
  omega

theorem CreateDialogueBoxAtIndex_sized (characters : Nat → Character) (text : List Char)
    (pos : Vec2) (textScale : Rat) (insertIndex : Int) (s s1 : Editor)
    (h : CreateDialogueBoxAtIndex characters text pos textScale insertIndex s = some s1)
    (hs : Sized s) : Sized s1 := by
  obtain ⟨_, _, _, h4, h5, _⟩ := CreateDialogueBoxAtIndex_some _ _ _ _ _ _ _ h
  unfold Sized at hs ⊢
  omega

theorem loadPass1_sized (characters : Nat → Character) (json : List DocElement) :
    ∀ (s s1 : Editor), Sized s → loadPass1 characters json s = some s1 → Sized s1 := by
  induction json with
  | nil =>
    intro s s1 hs h
    simp only [loadPass1, Option.some.injEq] at h
    rw [← h]
    exact hs
  | cons e rest ih =>
    intro s s1 hs h
    unfold loadPass1 at h
    split at h
    · cases h
    · simp only [Option.bind_eq_some] at h
      obtain ⟨s2, hc, newBox, hget, h⟩ := h
      have hs2 : Sized s2 := CreateDialogueBoxAtIndex_sized _ _ _ _ _ _ _ hc hs
      split at h
      · exact ih s2 s1 hs2 h
      · split at h
        · cases h
        · simp only [Option.bind_eq_some] at h
          obtain ⟨boxes, hset, h⟩ := h
          refine ih _ s1 ?_ h
          have := set_some hset
          unfold Sized at hs2 ⊢
          simp only
          omega

theorem loadConnBody_sized (connections : List Int) (i j : Int) (s s1 : Editor)
    (h : loadConnBody connections i j s = some s1) (hs : Sized s) : Sized s1 := by
  unfold loadConnBody at h
  simp only [Option.bind_eq_some] at h
  obtain ⟨c, _, h⟩ := h
  split at h
  · simp only [Option.bind_eq_some] at h
    obtain ⟨_, _, box, hbox, boxes, hset, h⟩ := h
    injection h with h
    subst h
    have := set_some hset
    unfold Sized at hs ⊢
    simp only
    omega
  · injection h with h
    subst h
    exact hs

theorem loadPass2_sized (json : List DocElement) :
    ∀ (i : Int) (s s1 : Editor), Sized s → loadPass2 json i s = some s1 → Sized s1 := by
  induction json with
  | nil =>
    intro i s s1 hs h
    simp only [loadPass2, Option.some.injEq] at h
    rw [← h]
    exact hs
  | cons e rest ih =>
    intro i s s1 hs h
    unfold loadPass2 at h
    simp only at h
    split at h
    · split at h
      · cases h
      · simp only [Option.bind_eq_some] at h
        obtain ⟨_, _, _, _, s2, hloop, h⟩ := h
        refine ih (i + 1) s2 s1 ?_ h
        exact forUp_invariant _ Sized (loadConnBody_sized (e.connections.map wrapInt) i) _ _ _ _ hloop hs
    · exact ih (i + 1) s s1 hs h

theorem LoadDialogueBoxes_sized (characters : Nat → Character) (file : Option Document)
    (s s1 : Editor) (h : LoadDialogueBoxes characters file s = some s1) (hs : Sized s) :
    Sized s1 := by
  unfold LoadDialogueBoxes at h
  rw [clearRenderObjects_eq _ _ (Nat.le_refl _), Option.some_bind] at h
  have hclear : Sized
      { s with renderObjects := s.renderObjects.take 1, textObjects := [],
               dialogueBoxes := [], lineObjects := [] } := by
    unfold Sized at hs ⊢
    simp only [List.length_take, List.length_nil]
    omega
  cases file with
  | none =>
    injection h with h
    rw [← h]
    exact hclear
  | some json =>
    simp only [Option.bind_eq_some] at h
    obtain ⟨s2, h1, h2⟩ := h
    exact loadPass2_sized json 0 s2 s1 (loadPass1_sized characters json _ s2 hclear h1) h2

/-! ### Reachability of the states of closed examples -/

theorem run_reachable (characters : Nat → Character) (acts : List Action) :
    ∀ (s s1 : Editor), Reachable characters s → run characters acts s = some s1 →
      Reachable characters s1 := by
  induction acts with
  | nil =>
    intro s s1 hs h
    simp only [run, Option.some.injEq] at h
    rw [← h]
    exact hs
  | cons a rest ih =>
    intro s s1 hs h
    simp only [run, Option.bind_eq_some] at h
    obtain ⟨s2, h1, h2⟩ := h
    exact ih s2 s1 (Reachable.step a s s2 hs h1) h2

theorem run_publicReachable (characters : Nat → Character) (acts : List Action)
    (hp : ∀ a ∈ acts, a.isPublic = true) :
    ∀ (s s1 : Editor), PublicReachable characters s → run characters acts s = some s1 →
      PublicReachable characters s1 := by
  induction acts with
  | nil =>
    intro s s1 hs h
    simp only [run, Option.some.injEq] at h
    rw [← h]
    exact hs
  | cons a rest ih =>
    intro s s1 hs h
    simp only [run, Option.bind_eq_some] at h
    obtain ⟨s2, h1, h2⟩ := h
    exact ih (fun b hb => hp b (List.mem_cons_of_mem _ hb)) s2 s1
      (PublicReachable.step a s s2 hs (hp a (List.mem_cons_self _ _)) h1) h2

theorem runFromStart_spec (characters : Nat → Character) (acts : List Action)
    (h : ((mainInit characters).bind (run characters acts)).isSome = true) :
    ∃ s0, mainInit characters = some s0 ∧
      run characters acts s0 = some (runFromStart characters acts) := by
  unfold runFromStart
  cases h0 : mainInit characters with
  | none =>
    simp only [h0, Option.none_bind, Option.isSome_none] at h
    cases h
  | some s0 =>
    cases h1 : run characters acts s0 with
    | none =>
      simp only [h0, Option.some_bind, h1, Option.isSome_none] at h
      cases h
    | some s1 =>
      refine ⟨s0, rfl, ?_⟩
      simp only [Option.some_bind, h1, Option.getD_some]

theorem runFromStart_reachable (characters : Nat → Character) (acts : List Action)
    (h : ((mainInit characters).bind (run characters acts)).isSome = true) :
    Reachable characters (runFromStart characters acts) := by
  obtain ⟨s0, h0, h1⟩ := runFromStart_spec characters acts h
  exact run_reachable characters acts s0 _ (Reachable.init s0 h0) h1

theorem runFromStart_publicReachable (characters : Nat → Character) (acts : List Action)
    (hp : ∀ a ∈ acts, a.isPublic = true)
    (h : ((mainInit characters).bind (run characters acts)).isSome = true) :
    PublicReachable characters (runFromStart characters acts) := by
  obtain ⟨s0, h0, h1⟩ := runFromStart_spec characters acts h
  exact run_publicReachable characters acts hp s0 _ (PublicReachable.init s0 h0) h1

theorem offsetsOK_getElem (l : List DialogueBox) (base : Int) (h : offsetsOK base l = true)
    (k : Nat) (b : DialogueBox) (hk : l[k]? = some b) :
    b.beginningTextIndex = base + ((l.take k).map (fun j => j.numTextObjects)).sum := by
  induction l generalizing base k with
  | nil => simp at hk
  | cons a l ih =>
    simp only [offsetsOK, Bool.and_eq_true, decide_eq_true_eq] at h
    cases k with
    | zero =>
      simp only [List.getElem?_cons_zero, Option.some.injEq] at hk
      rw [← hk, h.1]
      simp
    | succ k =>
      simp only [List.getElem?_cons_succ] at hk
      rw [ih _ h.2 k hk]
      simp only [List.take_succ_cons, List.map_cons, List.sum_cons]
      omega

theorem getD_spec {α : Type} (o : Option α) (d : α) (h : o.isSome = true) :
    o = some (o.getD d) := by
  cases o with
  | none => cases h
  | some x => rfl

/-! ### Edges stay in range -/

theorem okBox_mono {n m : Int} {b : DialogueBox} (h : n ≤ m) (hb : okBox n b) : okBox m b :=
  ⟨hb.1, fun c hc => ⟨(hb.2 c hc).1, Int.le_trans (hb.2 c hc).2 h⟩⟩

theorem okBox_bump (n d : Int) (b : DialogueBox) : okBox n (bump d b) ↔ okBox n b :=
  Iff.rfl

theorem mem_rebaseConnections {d c : Int} {l : List Int} (h : c ∈ rebaseConnections d l) :
    ∃ c0 ∈ l, c0 ≠ d ∧ c = if c0 > d then c0 - 1 else c0 := by
  unfold rebaseConnections at h
  obtain ⟨c0, hc0, rfl⟩ := List.mem_map.mp h
  rw [List.mem_filter] at hc0
  exact ⟨c0, hc0.1, of_decide_eq_true hc0.2, rfl⟩

theorem okBox_rebase {n d : Int} {b : DialogueBox} (hb : okBox n b) (h1 : 1 ≤ d)
    (h2 : d ≤ n) : okBox (n - 1) (rebaseBox d b) := by
  refine ⟨hb.1, ?_⟩
  intro c hc
  obtain ⟨c0, hc0, hne, rfl⟩ := mem_rebaseConnections hc
  have h := hb.2 c0 hc0
  by_cases hg : c0 > d
  · simp only [hg, if_true]
    omega
  · simp only [hg, if_false]
    omega

theorem Linked_replace (s s1 : Editor) (P Q : List DialogueBox) (x y : DialogueBox)
    (hl : Linked s) (hb : s.dialogueBoxes = P ++ x :: Q)
    (hb1 : s1.dialogueBoxes = P ++ y :: Q)
    (hy : okBox (s.dialogueBoxes.length : Int) y) : Linked s1 := by
  have hlen : s1.dialogueBoxes.length = s.dialogueBoxes.length := by
    rw [hb, hb1]
    simp only [List.length_append, List.length_cons]
  intro b hmem
  rw [hlen]
  rw [hb1] at hmem
  simp only [List.mem_append, List.mem_cons] at hmem
  rcases hmem with h | rfl | h
  · exact hl b (by rw [hb]; simp [h])
  · exact hy
  · exact hl b (by rw [hb]; simp [h])

theorem CreateDialogueBoxAtIndex_linked (characters : Nat → Character) (text : List Char)
    (pos : Vec2) (textScale : Rat) (insertIndex : Int) (s s1 : Editor) (hs : WellFormed s)
    (hl : Linked s)
    (h : CreateDialogueBoxAtIndex characters text pos textScale insertIndex s = some s1) :
    Linked s1 := by
  obtain ⟨h0, h1, hfit, _, hlen, _⟩ := CreateDialogueBoxAtIndex_some _ _ _ _ _ _ _ h
  have hle : insertIndex ≤ (s.dialogueBoxes.length : Int) := by
    have := hs.2.1
    omega
  obtain ⟨P, Q, R1, R2, T1, T2, hi, hb, hr, hR1, ht, hT1⟩ := hs.splitAt insertIndex h0 hle
  rw [hi, CreateDialogueBoxAtIndex_eq characters text pos textScale s P Q R1 R2 T1 T2 hb hr hR1
    ht hT1 hfit] at h
  injection h with h
  intro b hmem
  rw [hlen]
  rw [← h] at hmem
  simp only [List.mem_append, List.mem_cons, List.mem_map] at hmem
  have hmono : (s.dialogueBoxes.length : Int) ≤ ((s.dialogueBoxes.length + 1 : Nat) : Int) := by
    omega
  rcases hmem with hm | rfl | ⟨c, hc, rfl⟩
  · exact okBox_mono hmono (hl b (by rw [hb]; simp [hm]))
  · refine ⟨by simp [newBox], ?_⟩
    intro c hc
    simp [newBox] at hc
  · exact okBox_mono hmono (hl c (by rw [hb]; simp [hc]))

theorem deleteHandler_linked (s s1 : Editor) (hs : WellFormed s) (hl : Linked s)
    (h : deleteHandler s = some s1) : Linked s1 := by
  by_cases hg : s.currentDialogueBox ≠ -1 ∧ s.currentDialogueBox ≠ 0
  · have h2 := h
    unfold deleteHandler at h2
    rw [if_pos hg] at h2
    simp only [Option.bind_eq_some] at h2
    obtain ⟨x, hx, _⟩ := h2
    obtain ⟨P, Q, hb, hi⟩ := get_split hx
    obtain ⟨R1, r, R2, T1, M, T2, hr, hR1, ht, hT1, hM, _, _⟩ := hs.decompose P Q x hb
    have hcur : s.currentDialogueBox = (P.length : Int) + 1 := by omega
    rw [deleteHandler_eq s P Q x R1 R2 r T1 M T2 hb hcur hr hR1 ht hT1 hM] at h
    injection h with h
    have hn : (s.dialogueBoxes.length : Int) = ((P.length + Q.length : Nat) : Int) + 1 := by
      rw [hb]
      simp only [List.length_append, List.length_cons, Nat.cast_add, Nat.cast_one]
      omega
    intro b hmem
    rw [← h] at hmem ⊢
    simp only [List.length_append, List.length_map]
    simp only [List.mem_append, List.mem_map] at hmem
    have key : ∀ c ∈ s.dialogueBoxes,
        okBox ((P.length + Q.length : Nat) : Int) (rebaseBox ((P.length : Int) + 1) c) := by
      intro c hc
      have h3 := okBox_rebase (hl c hc) (d := (P.length : Int) + 1) (by omega) (by omega)
      rw [hn] at h3
      simpa using h3
    rcases hmem with ⟨c, hc, rfl⟩ | ⟨c, ⟨c2, hc2, rfl⟩, rfl⟩
    · exact key c (by rw [hb]; simp [hc])
    · exact key c2 (by rw [hb]; simp [hc2])
  · unfold deleteHandler at h
    rw [if_neg hg] at h
    injection h with h
    rw [← h]
    exact hl

theorem UpdateDialogueBox_linked (characters : Nat → Character) (dialogueIndex : Int)
    (s s1 : Editor) (hs : WellFormed s) (hl : Linked s)
    (h : UpdateDialogueBox characters dialogueIndex s = some s1) : Linked s1 := by
  obtain ⟨x, hx, hfit⟩ := UpdateDialogueBox_some _ _ _ _ h
  obtain ⟨P, Q, hb, hi⟩ := get_split hx
  obtain ⟨R1, r, R2, T1, M, T2, hr, hR1, ht, hT1, hM, hsum, _⟩ := hs.decompose P Q x hb
  rw [hi, UpdateDialogueBox_eq characters s P Q x R1 R2 r T1 M T2 hb hr hR1 ht hT1 hM hsum
    hfit] at h
  injection h with h
  have hlen : s1.dialogueBoxes.length = s.dialogueBoxes.length := by
    rw [← h, hb]
    simp only [List.length_append, List.length_cons, List.length_map]
  intro b hmem
  rw [hlen]
  rw [← h] at hmem
  simp only [List.mem_append, List.mem_cons, List.mem_map] at hmem
  rcases hmem with hm | rfl | ⟨c, ⟨c2, hc2, rfl⟩, rfl⟩
  · exact hl b (by rw [hb]; simp [hm])
  · exact hl x (by rw [hb]; simp)
  · exact hl c2 (by rw [hb]; simp [hc2])

theorem editText_linked (characters : Nat → Character) (newText : List Char)
    (s s1 : Editor) (hs : WellFormed s) (hl : Linked s)
    (h : editText characters newText s = some s1) : Linked s1 := by
  unfold editText at h
  split at h
  · simp only [Option.bind_eq_some] at h
    obtain ⟨box, hbox, boxes, hset, hup⟩ := h
    obtain ⟨P, Q, hb, hb1, hi⟩ := get_set_split hbox hset
    obtain ⟨y, hy, hfit⟩ := UpdateDialogueBox_some _ _ _ _ hup
    simp only [hb1, hi, get_mid, Option.some.injEq] at hy
    rw [← hy] at hfit
    refine UpdateDialogueBox_linked characters _ _ s1 ?_ ?_ hup
    · exact WellFormed_replace s _ P Q box _ hs hb hb1 rfl rfl hfit rfl rfl
    · exact Linked_replace s _ P Q box _ hl hb hb1 (hl box (by rw [hb]; simp))
  · cases h

theorem editEvent_linked (newEvent : List Char) (s s1 : Editor) (hl : Linked s)
    (h : editEvent newEvent s = some s1) : Linked s1 := by
  unfold editEvent at h
  split at h
  · rename_i hg
    simp only [Option.bind_eq_some] at h
    obtain ⟨box, hbox, boxes, hset, h⟩ := h
    injection h with h
    subst h
    obtain ⟨P, Q, hb, hb1, _⟩ := get_set_split hbox hset
    exact Linked_replace s _ P Q box _ hl hb hb1 ⟨hg.2, (hl box (by rw [hb]; simp)).2⟩
  · cases h

theorem rightDown_linked (i : Int) (s s1 : Editor) (hs : WellFormed s) (hl : Linked s)
    (h : rightDown i s = some s1) : Linked s1 := by
  unfold rightDown at h
  split at h
  · rename_i hg
    split at h
    · injection h with h
      subst h
      exact hl
    · simp only [Option.bind_eq_some] at h
      obtain ⟨_, _, box, hbox, boxes, hset, h⟩ := h
      injection h with h
      subst h
      obtain ⟨P, Q, hb, hb1, _⟩ := get_set_split hbox hset
      have hbox := hl box (by rw [hb]; simp)
      refine Linked_replace s _ P Q box _ hl hb hb1 ⟨hbox.1, ?_⟩
      intro c hc
      simp only [slb_Vector_PushBack, List.mem_append, List.mem_singleton] at hc
      rcases hc with hc | rfl
      · exact hbox.2 c hc
      · have := hs.2.1
        omega
  · cases h

theorem leftDown_linked (i : Int) (s s1 : Editor) (hl : Linked s)
    (h : leftDown i s = some s1) : Linked s1 := by
  unfold leftDown at h
  split at h
  · injection h with h
    subst h
    exact hl
  · cases h

theorem leftUp_linked (i : Int) (s s1 : Editor) (hl : Linked s)
    (h : leftUp i s = some s1) : Linked s1 := by
  unfold leftUp at h
  split at h
  · injection h with h
    subst h
    exact hl
  · cases h

theorem dragStep_linked (dx dz : Rat) (s s1 : Editor) (hl : Linked s)
    (h : dragStep dx dz s = some s1) : Linked s1 := by
  unfold dragStep at h
  split at h
  · simp only [Option.bind_eq_some] at h
    obtain ⟨obj, _, box, _, tx, _, ro, _, h⟩ := h
    injection h with h
    subst h
    exact hl
  · injection h with h
    subst h
    exact hl

theorem loadPass1_linked (characters : Nat → Character) (json : List DocElement) :
    ∀ (s s1 : Editor), WellFormed s → Linked s → loadPass1 characters json s = some s1 →
      Linked s1 := by
  induction json with
  | nil =>
    intro s s1 _ hl h
    simp only [loadPass1, Option.some.injEq] at h
    rw [← h]
    exact hl
  | cons e rest ih =>
    intro s s1 hs hl h
    unfold loadPass1 at h
    split at h
    · cases h
    · simp only [Option.bind_eq_some] at h
      obtain ⟨s2, hc, newBox, hget, h⟩ := h
      have hs2 : WellFormed s2 := CreateDialogueBoxAtIndex_wellFormed _ _ _ _ _ _ _ hs hc
      have hl2 : Linked s2 := CreateDialogueBoxAtIndex_linked _ _ _ _ _ _ _ hs hl hc
      split at h
      · exact ih s2 s1 hs2 hl2 h
      · split at h
        · cases h
        · rename_i ev _ hev
          simp only [Option.bind_eq_some] at h
          obtain ⟨boxes, hset, h⟩ := h
          obtain ⟨P, Q, hb, hb1, _⟩ := get_set_split hget hset
          refine ih _ s1 ?_ ?_ h
          · exact WellFormed_replace s2 _ P Q newBox _ hs2 hb hb1 rfl rfl
              (hs2.2.2.2.2 newBox (by rw [hb]; simp)) rfl rfl
          · exact Linked_replace s2 _ P Q newBox _ hl2 hb hb1
              ⟨not_not.mp hev, (hl2 newBox (by rw [hb]; simp)).2⟩

theorem loadConnBody_linked (connections : List Int) (i j : Int) (s s1 : Editor)
    (h : loadConnBody connections i j s = some s1) (hs : WellFormed s ∧ Linked s) :
    WellFormed s1 ∧ Linked s1 := by
  refine ⟨loadConnBody_wellFormed connections i j s s1 h hs.1, ?_⟩
  unfold loadConnBody at h
  simp only [Option.bind_eq_some] at h
  obtain ⟨c, _, h⟩ := h
  split at h
  · rename_i hg
    simp only [Option.bind_eq_some] at h
    obtain ⟨_, _, box, hbox, boxes, hset, h⟩ := h
    injection h with h
    subst h
    obtain ⟨P, Q, hb, hb1, _⟩ := get_set_split hbox hset
    have hbox := hs.2 box (by rw [hb]; simp)
    refine Linked_replace s _ P Q box _ hs.2 hb hb1 ⟨hbox.1, ?_⟩
    intro d hd
    simp only [slb_Vector_PushBack, List.mem_append, List.mem_singleton] at hd
    rcases hd with hd | rfl
    · exact hbox.2 d hd
    · have := hs.1.2.1
      omega
  · injection h with h
    subst h
    exact hs.2

theorem loadPass2_linked (json : List DocElement) :
    ∀ (i : Int) (s s1 : Editor), WellFormed s → Linked s → loadPass2 json i s = some s1 →
      Linked s1 := by
  induction json with
  | nil =>
    intro i s s1 _ hl h
    simp only [loadPass2, Option.some.injEq] at h
    rw [← h]
    exact hl
  | cons e rest ih =>
    intro i s s1 hs hl h
    unfold loadPass2 at h
    simp only at h
    split at h
    · split at h
      · cases h
      · simp only [Option.bind_eq_some] at h
        obtain ⟨_, _, _, _, s2, hloop, h⟩ := h
        have h2 := forUp_invariant _ (fun t => WellFormed t ∧ Linked t)
          (loadConnBody_linked (e.connections.map wrapInt) i) _ _ _ _ hloop ⟨hs, hl⟩
        exact ih (i + 1) s2 s1 h2.1 h2.2 h
    · exact ih (i + 1) s s1 hs hl h

theorem LoadDialogueBoxes_linked (characters : Nat → Character) (file : Option Document)
    (s s1 : Editor) (hs : WellFormed s)
    (h : LoadDialogueBoxes characters file s = some s1) : Linked s1 := by
  unfold LoadDialogueBoxes at h
  rw [clearRenderObjects_eq _ _ (Nat.le_refl _), Option.some_bind] at h
  have hclear : WellFormed
      { s with renderObjects := s.renderObjects.take 1, textObjects := [],
               dialogueBoxes := [], lineObjects := [] } := by
    refine ⟨rfl, ?_, rfl, ?_, ?_⟩
    · have := hs.2.1
      simp only [List.length_take, List.length_nil]
      omega
    · intro b hb; cases hb
    · intro b hb; cases hb
  have hlclear : Linked
      { s with renderObjects := s.renderObjects.take 1, textObjects := [],
               dialogueBoxes := [], lineObjects := [] } := by
    intro b hb
    cases hb
  cases file with
  | none =>
    injection h with h
    rw [← h]
    exact hlclear
  | some json =>
    simp only [Option.bind_eq_some] at h
    obtain ⟨s2, h1, h2⟩ := h
    exact loadPass2_linked json 0 s2 s1
      (loadPass1_wellFormed characters json _ s2 hclear h1)
      (loadPass1_linked characters json _ s2 hclear hlclear h1) h2

theorem step_linked (characters : Nat → Character) (a : Action) (s s1 : Editor)
    (hs : WellFormed s) (hl : Linked s) (h : step characters a s = some s1) : Linked s1 := by
  cases a with
  | createAt text pos textScale insertIndex =>
    exact CreateDialogueBoxAtIndex_linked _ _ _ _ _ _ _ hs hl h
  | middleDown pos =>
    exact CreateDialogueBoxAtIndex_linked characters "Hello world".toList pos (1 / 100)
      s.dialogueBoxes.length s s1 hs hl h
  | leftDown i => exact leftDown_linked i s s1 hl h
  | leftUp i => exact leftUp_linked i s s1 hl h
  | rightDown i => exact rightDown_linked i s s1 hs hl h
  | delete => exact deleteHandler_linked s s1 hs hl h
  | drag dx dz => exact dragStep_linked dx dz s s1 hl h
  | editText newText => exact editText_linked characters newText s s1 hs hl h
  | editEvent newEvent => exact editEvent_linked newEvent s s1 hl h
  | load file => exact LoadDialogueBoxes_linked characters file s s1 hs h
  | update dialogueIndex =>
    exact UpdateDialogueBox_linked characters dialogueIndex s s1 hs hl h

theorem Reachable.linked {characters : Nat → Character} {s : Editor}
    (h : Reachable characters s) : Linked s := by
  induction h with
  | init s h0 =>
    exact CreateDialogueBoxAtIndex_linked characters "Hello, world!".toList ⟨0, 1⟩ (1 / 100)
      emptyEditor.dialogueBoxes.length emptyEditor s emptyEditor_wellFormed
      (fun b hb => by cases hb) h0
  | step a s s1 hr hstep ih => exact step_linked characters a s s1 hr.wellFormed ih hstep

theorem PublicReachable.reachable {characters : Nat → Character} {s : Editor}
    (h : PublicReachable characters s) : Reachable characters s := by
  induction h with
  | init s h0 => exact Reachable.init s h0
  | step a s s1 _ _ hstep ih => exact Reachable.step a s s1 ih hstep

/-! ### Save and load in closed form -/

theorem saveLoop_eq (s : Editor) :
    ∀ (B A : List DialogueBox) (RB RA : List RenderObject) (json : Document),
      s.dialogueBoxes = A ++ B → s.renderObjects = RA ++ RB → RA.length = A.length + 1 →
      RB.length = B.length →
      forUp (saveBody s) B.length (A.length : Int) json
        = some (json ++ List.zipWith saveElement B RB) := by
  intro B
  induction B with
  | nil =>
    intro A RB RA json _ _ _ _
    simp [forUp]
  | cons x B ih =>
    intro A RB RA json hb hr hRA hRB
    cases RB with
    | nil => simp at hRB
    | cons r RB =>
      have hgb : slb_Vector_Get s.dialogueBoxes (A.length : Int) = some x := by
        rw [hb]
        exact get_mid A B x
      have hgr : slb_Vector_Get s.renderObjects ((A.length : Int) + 1) = some r := by
        have h := get_mid RA RB r
        rw [hRA] at h
        push_cast at h
        rw [hr]
        exact h
      have h := ih (A ++ [x]) RB (RA ++ [r]) (json ++ [saveElement x r])
        (by rw [hb]; simp) (by rw [hr]; simp) (by simp [hRA]) (by simpa using hRB)
      simp only [List.length_append, List.length_singleton, Nat.cast_add, Nat.cast_one,
        List.append_assoc, List.singleton_append] at h
      simp only [List.length_cons, forUp, saveBody, hgb, hgr, Option.some_bind,
        List.zipWith_cons_cons]
      exact h

theorem Save_eq (s : Editor) (hs : s.renderObjects.length = s.dialogueBoxes.length + 1) :
    Save s = some (List.zipWith saveElement s.dialogueBoxes (s.renderObjects.drop 1)) := by
  have h := saveLoop_eq s s.dialogueBoxes [] (s.renderObjects.drop 1) (s.renderObjects.take 1)
    [] rfl (List.take_append_drop 1 s.renderObjects).symm
    (by rw [List.length_take]; simp only [List.length_nil]; omega)
    (by rw [List.length_drop]; omega)
  simpa [Save] using h

theorem get_some_of_lt {α : Type} (v : List α) (i : Int) (h0 : 0 ≤ i)
    (h1 : i < (v.length : Int)) : ∃ x, slb_Vector_Get v i = some x := by
  have hlt : i.toNat < v.length := by omega
  refine ⟨v[i.toNat], ?_⟩
  simp only [slb_Vector_Get, h0, if_true, List.getElem?_eq_getElem hlt]

theorem loadConnLoop_eq (i : Int) (P Q : List DialogueBox) :
    ∀ (B A : List Int) (s : Editor) (x : DialogueBox),
      s.dialogueBoxes = P ++ x :: Q → (P.length : Int) = i →
      forUp (loadConnBody (A ++ B) i) B.length (A.length : Int) s = some
        { s with
          lineObjects := s.lineObjects ++
            (keepConnections ((s.renderObjects.length : Int) - 1) B).map
              (fun c => (⟨i, c - 1⟩ : LineObject)),
          dialogueBoxes := P ++
            { x with
              connections := x.connections ++
                (keepConnections ((s.renderObjects.length : Int) - 1) B).map
                  (fun c => c - 1 + 1) } :: Q } := by
  intro B
  induction B with
  | nil =>
    intro A s x hb _
    simp only [List.length_nil, forUp, keepConnections, List.filter_nil, List.map_nil,
      List.append_nil, ← hb]
  | cons c B ih =>
    intro A s x hb hi
    have hgc : slb_Vector_Get (A ++ c :: B) (A.length : Int) = some c := get_mid A B c
    have hgb : slb_Vector_Get s.dialogueBoxes i = some x := by
      rw [hb, ← hi]
      exact get_mid P Q x
    have hsb : ∀ y, slb_Vector_Set s.dialogueBoxes i y = some (P ++ y :: Q) := by
      intro y
      rw [hb, ← hi]
      exact vset_mid P Q x y
    by_cases hg : c - 1 ≥ 0 ∧ c - 1 < (s.renderObjects.length : Int) - 1
    · obtain ⟨y, hy⟩ := get_some_of_lt s.renderObjects (c - 1 + 1) (by omega) (by omega)
      have h := ih (A ++ [c])
        { s with
          lineObjects := s.lineObjects ++ [⟨i, c - 1⟩],
          dialogueBoxes := P ++ { x with connections := x.connections ++ [c - 1 + 1] } :: Q }
        { x with connections := x.connections ++ [c - 1 + 1] } rfl hi
      simp only [List.length_append, List.length_singleton, Nat.cast_add, Nat.cast_one,
        List.append_assoc, List.singleton_append] at h
      simp only [List.length_cons, forUp, loadConnBody, hgc, Option.some_bind, hg, and_self,
        if_true, hy, hgb, hsb, slb_Vector_PushBack]
      rw [h]
      simp only [keepConnections, List.filter_cons, hg, and_self, decide_True, if_true,
        List.map_cons]
    · have h := ih (A ++ [c]) s x hb hi
      simp only [List.length_append, List.length_singleton, Nat.cast_add, Nat.cast_one,
        List.append_assoc, List.singleton_append] at h
      simp only [List.length_cons, forUp, loadConnBody, hgc, Option.some_bind, hg, if_false,
        h, keepConnections, List.filter_cons, decide_False, Bool.false_eq_true]

theorem addConnections_nil (n : Int) (x : DialogueBox) (e : DocElement)
    (h : e.connections = []) : addConnections n x e = x := by
  cases x
  simp [addConnections, keepConnections, h]

theorem loadPass2_eq :
    ∀ (json : List DocElement) (B P : List DialogueBox) (s : Editor),
      s.dialogueBoxes = P ++ B → json.length = B.length →
      s.renderObjects.length = s.dialogueBoxes.length + 1 →
      (∀ e ∈ json, e.connections.length ≤ 16) →
      loadPass2 json (P.length : Int) s = some
        { s with
          dialogueBoxes := P ++
            List.zipWith (addConnections ((s.renderObjects.length : Int) - 1)) B json,
          lineObjects := s.lineObjects ++
            loadLines ((s.renderObjects.length : Int) - 1) (P.length : Int) json } := by
  intro json
  induction json with
  | nil =>
    intro B P s hb hlen _ _
    have hB : B = [] := List.eq_nil_of_length_eq_zero hlen.symm
    subst hB
    simp only [loadPass2, List.zipWith_nil_right, loadLines, List.append_nil, ← hb]
  | cons e rest ih =>
    intro B P s hb hlen hsz h16
    cases B with
    | nil => simp at hlen
    | cons x B =>
      have hrest : ∀ e2 ∈ rest, e2.connections.length ≤ 16 :=
        fun e2 he2 => h16 e2 (List.mem_cons_of_mem _ he2)
      have hlen2 : rest.length = B.length := by simpa using hlen
      have hcast : ((P ++ [x]).length : Int) = (P.length : Int) + 1 := by simp
      by_cases hc : e.connections.length > 0
      · have h16e : ¬ e.connections.length > 16 := by
          have := h16 e (List.mem_cons_self _ _)
          omega
        have hgb : slb_Vector_Get s.dialogueBoxes (P.length : Int) = some x := by
          rw [hb]
          exact get_mid P B x
        obtain ⟨y, hy⟩ := get_some_of_lt s.renderObjects ((P.length : Int) + 1) (by omega)
          (by rw [hsz, hb]; simp only [List.length_append, List.length_cons]; omega)
        have hloop := loadConnLoop_eq (P.length : Int) P B (e.connections.map wrapInt) [] s x
          hb rfl
        simp only [List.nil_append, List.length_nil, Nat.cast_zero, List.length_map] at hloop
        have h := ih B (P ++ [addConnections ((s.renderObjects.length : Int) - 1) x e])
          { s with
            lineObjects := s.lineObjects ++
              (keepConnections ((s.renderObjects.length : Int) - 1)
                (e.connections.map wrapInt)).map
                  (fun c => (⟨(P.length : Int), c - 1⟩ : LineObject)),
            dialogueBoxes := P ++
              addConnections ((s.renderObjects.length : Int) - 1) x e :: B }
          (by simp) hlen2 (by rw [hsz, hb]; simp) hrest
        simp only [List.length_append, List.length_singleton, Nat.cast_add, Nat.cast_one,
          List.append_assoc, List.singleton_append] at h
        unfold loadPass2
        simp only [hc, h16e, if_true, if_false, hgb, hy, Option.some_bind, hloop]
        unfold addConnections at h
        rw [h]
        simp only [List.zipWith_cons_cons, loadLines, addConnections, List.append_assoc]
        rfl
      · have hnil : e.connections = [] := List.eq_nil_of_length_eq_zero (by omega)
        have h := ih B (P ++ [x]) s (by rw [hb]; simp) hlen2 hsz hrest
        simp only [List.length_append, List.length_singleton, Nat.cast_add, Nat.cast_one,
          List.append_assoc, List.singleton_append] at h
        unfold loadPass2
        simp only [hc, if_false]
        rw [h]
        simp only [List.zipWith_cons_cons, loadLines, addConnections_nil _ _ _ hnil, hnil,
          keepConnections, List.filter_nil, List.map_nil, List.nil_append]

theorem CreateDialogueBox_eq (characters : Nat → Character) (text : List Char) (pos : Vec2)
    (textScale : Rat) (s : Editor) (hs : WellFormed s) (hfit : TextFits text) :
    CreateDialogueBox characters text pos textScale s = some
      { s with
        renderObjects := s.renderObjects ++ [newAnchor characters text pos textScale],
        textObjects := s.textObjects ++ newTexts characters text pos textScale,
        dialogueBoxes := s.dialogueBoxes ++ [newBox text (numSum s.dialogueBoxes)] } := by
  have h := CreateDialogueBoxAtIndex_eq characters text pos textScale s s.dialogueBoxes []
    s.renderObjects [] s.textObjects [] (List.append_nil _).symm (List.append_nil _).symm
    hs.2.1 (List.append_nil _).symm hs.2.2.1.symm hfit
  simp only [List.map_nil, List.append_nil] at h
  exact h

/-- The first pass of the load on a consistent store and a document that
fits: one new box and one new anchor per element, in order, behind the
existing ones. -/
theorem loadPass1_eq (characters : Nat → Character) (json : List DocElement) :
    ∀ (s : Editor), WellFormed s → DocFits json →
      ∃ s1 B R, loadPass1 characters json s = some s1 ∧ WellFormed s1 ∧
        s1.dialogueBoxes = s.dialogueBoxes ++ B ∧
        B.map (fun b => (b.text, b.event, b.connections))
          = json.map (fun e => (e.text, e.event.getD [], [])) ∧
        s1.renderObjects = s.renderObjects ++ R ∧
        R.map (fun o => o.position) = json.map (fun e => e.position) ∧
        s1.lineObjects = s.lineObjects := by
  induction json with
  | nil =>
    intro s hs _
    exact ⟨s, [], [], rfl, hs, by simp, rfl, by simp, rfl, rfl⟩
  | cons e rest ih =>
    intro s hs hd
    have hfit := (hd e (List.mem_cons_self _ _)).1
    have hev := (hd e (List.mem_cons_self _ _)).2
    have hrest : DocFits rest := fun e2 he2 => hd e2 (List.mem_cons_of_mem _ he2)
    have hc := CreateDialogueBox_eq characters e.text e.position (1 / 100) s hs hfit
    have hs2 := CreateDialogueBoxAtIndex_wellFormed characters e.text e.position (1 / 100)
      s.dialogueBoxes.length s _ hs hc
    have hlast : ((s.dialogueBoxes ++ [newBox e.text (numSum s.dialogueBoxes)]).length : Int) - 1
        = (s.dialogueBoxes.length : Int) := by
      simp only [List.length_append, List.length_singleton, Nat.cast_add, Nat.cast_one]
      omega
    have hget := get_mid s.dialogueBoxes [] (newBox e.text (numSum s.dialogueBoxes))
    have hlen : ¬ ¬ e.text.length < 1024 := not_not.mpr hfit.1
    cases hevent : e.event with
    | none =>
      obtain ⟨s1, B, R, h1, hw, hb, hB, hr, hR, hl⟩ := ih _ hs2 hrest
      refine ⟨s1, newBox e.text (numSum s.dialogueBoxes) :: B,
        newAnchor characters e.text e.position (1 / 100) :: R, ?_, hw, ?_, ?_, ?_, ?_, hl⟩
      · unfold loadPass1
        simp only [hlen, if_false, hc, Option.some_bind, hlast, hget, hevent]
        exact h1
      · rw [hb]
        simp only [List.append_assoc, List.singleton_append]
      · simp only [List.map_cons, hB, hevent, Option.getD_none, newBox]
      · rw [hr]
        simp only [List.append_assoc, List.singleton_append]
      · simp only [List.map_cons, hR, newAnchor, CreateRenderObject]
    | some ev =>
      have hevl : ¬ ¬ ev.length < 1024 := not_not.mpr (hev ev hevent)
      have hset := vset_mid s.dialogueBoxes [] (newBox e.text (numSum s.dialogueBoxes))
        { newBox e.text (numSum s.dialogueBoxes) with event := ev }
      have hs3 : WellFormed
          { s with
            renderObjects := s.renderObjects ++ [newAnchor characters e.text e.position (1 / 100)],
            textObjects := s.textObjects ++ newTexts characters e.text e.position (1 / 100),
            dialogueBoxes := s.dialogueBoxes ++
              [{ newBox e.text (numSum s.dialogueBoxes) with event := ev }] } :=
        WellFormed_replace _ _ s.dialogueBoxes [] (newBox e.text (numSum s.dialogueBoxes)) _
          hs2 rfl rfl rfl rfl hfit rfl rfl
      obtain ⟨s1, B, R, h1, hw, hb, hB, hr, hR, hl⟩ := ih _ hs3 hrest
      refine ⟨s1, { newBox e.text (numSum s.dialogueBoxes) with event := ev } :: B,
        newAnchor characters e.text e.position (1 / 100) :: R, ?_, hw, ?_, ?_, ?_, ?_, hl⟩
      · unfold loadPass1
        simp only [hlen, if_false, hc, Option.some_bind, hlast, hget, hevent, hevl, hset]
        exact h1
      · rw [hb]
        simp only [List.append_assoc, List.singleton_append]
      · simp only [List.map_cons, hB, hevent, Option.getD_some, newBox]
      · rw [hr]
        simp only [List.append_assoc, List.singleton_append]
      · simp only [List.map_cons, hR, newAnchor, CreateRenderObject]

theorem wrapInt_of_int (n : Int) (h : -2147483648 ≤ n ∧ n < 2147483648) : wrapInt n = n := by
  unfold wrapInt
  omega

theorem map_wrapInt_of_int (l : List Int)
    (h : ∀ c ∈ l, -2147483648 ≤ c ∧ c < 2147483648) : l.map wrapInt = l := by
  induction l with
  | nil => rfl
  | cons c l ih =>
    rw [List.map_cons, wrapInt_of_int c (h c (List.mem_cons_self _ _)),
      ih (fun d hd => h d (List.mem_cons_of_mem _ hd))]

theorem keepConnections_of_inRange (n : Int) (l : List Int)
    (h : ∀ c ∈ l, 1 ≤ c ∧ c ≤ n) :
    (keepConnections n l).map (fun c => c - 1 + 1) = l := by
  induction l with
  | nil => rfl
  | cons c l ih =>
    have hc := h c (List.mem_cons_self _ _)
    have hg : c - 1 ≥ 0 ∧ c - 1 < n := by omega
    have hrest := ih (fun d hd => h d (List.mem_cons_of_mem _ hd))
    unfold keepConnections at hrest ⊢
    simp only [List.filter_cons, hg, and_self, decide_True, if_true, List.map_cons, hrest]
    congr 1
    omega

theorem saveElement_connections (b : DialogueBox) (r : RenderObject) :
    (saveElement b r).connections = b.connections := by
  unfold saveElement
  by_cases h : b.connections.length > 0
  · simp only [h, if_true]
  · simp only [h, if_false]
    exact (List.eq_nil_of_length_eq_zero (by omega)).symm

/-- Reading back what Save wrote: the boxes of the first pass get their
connections back in the second pass. -/
theorem zipWith_addConnections_save (n : Int) (hn : n < 2147483648) :
    ∀ (boxes B : List DialogueBox) (R : List RenderObject),
      R.length = boxes.length →
      B.map (fun b => (b.text, b.event, b.connections))
        = (List.zipWith saveElement boxes R).map (fun e => (e.text, e.event.getD [], [])) →
      (∀ b ∈ boxes, ∀ c ∈ b.connections, 1 ≤ c ∧ c ≤ n) →
      (List.zipWith (addConnections n) B (List.zipWith saveElement boxes R)).map
          (fun b => (b.text, b.event, b.connections))
        = boxes.map (fun b => (b.text, b.event, b.connections)) := by
  intro boxes
  induction boxes with
  | nil =>
    intro B R _ hB _
    simp only [List.zipWith_nil_left, List.map_nil, List.map_eq_nil_iff] at hB
    subst hB
    rfl
  | cons x boxes ih =>
    intro B R hR hB hin
    cases R with
    | nil => simp at hR
    | cons r R =>
      cases B with
      | nil => simp at hB
      | cons y B =>
        simp only [List.zipWith_cons_cons, List.map_cons, List.cons.injEq, Prod.mk.injEq] at hB
        obtain ⟨⟨ht, he, hc⟩, hB⟩ := hB
        have hx := keepConnections_of_inRange n x.connections (hin x (List.mem_cons_self _ _))
        have hw : x.connections.map wrapInt = x.connections :=
          map_wrapInt_of_int x.connections (fun c hc => by
            have := hin x (List.mem_cons_self _ _) c hc
            omega)
        have hrest := ih B R (by simpa using hR) hB
          (fun b hb => hin b (List.mem_cons_of_mem _ hb))
        simp only [List.zipWith_cons_cons, List.map_cons, hrest, addConnections,
          saveElement_connections, hw, hx, hc, List.nil_append, ht, he]
        simp only [saveElement, Option.getD_some]

theorem zipWith_saveElement_facts (boxes : List DialogueBox) :
    ∀ (R : List RenderObject), R.length = boxes.length →
      (List.zipWith saveElement boxes R).length = boxes.length ∧
      (List.zipWith saveElement boxes R).map (fun e => e.position)
        = R.map (fun o => o.position) ∧
      ∀ e ∈ List.zipWith saveElement boxes R, ∃ b ∈ boxes, ∃ r, e = saveElement b r := by
  induction boxes with
  | nil =>
    intro R hR
    have hRn : R = [] := List.eq_nil_of_length_eq_zero hR
    subst hRn
    exact ⟨rfl, rfl, fun e he => by cases he⟩
  | cons x boxes ih =>
    intro R hR
    cases R with
    | nil => simp at hR
    | cons r R =>
      obtain ⟨h1, h2, h3⟩ := ih R (by simpa using hR)
      refine ⟨by simp [h1], by simp [h2, saveElement], ?_⟩
      intro e he
      simp only [List.zipWith_cons_cons, List.mem_cons] at he
      rcases he with rfl | he
      · exact ⟨x, List.mem_cons_self _ _, r, rfl⟩
      · obtain ⟨b, hb, r2, hr2⟩ := h3 e he
        exact ⟨b, List.mem_cons_of_mem _ hb, r2, hr2⟩

/-- Loading what Save wrote gives back every node's text, event and EdgeSet
and every anchor position, when no node has more than 16 edges and the node
count is one an `int` holds. -/
theorem roundtrip_of_consistent (characters : Nat → Character) (s : Editor)
    (hs : WellFormed s) (hl : Linked s)
    (h16 : ∀ b ∈ s.dialogueBoxes, b.connections.length ≤ 16)
    (hcount : s.dialogueBoxes.length < 2147483648) :
    ∃ doc s1, Save s = some doc ∧ LoadDialogueBoxes characters (some doc) s = some s1 ∧
      s1.dialogueBoxes.map (fun b => (b.text, b.event, b.connections))
        = s.dialogueBoxes.map (fun b => (b.text, b.event, b.connections)) ∧
      s1.renderObjects.map (fun o => o.position)
        = s.renderObjects.map (fun o => o.position) := by
  have hdrop : (s.renderObjects.drop 1).length = s.dialogueBoxes.length := by
    rw [List.length_drop, hs.2.1]
    omega
  obtain ⟨f1, f5, f6⟩ := zipWith_saveElement_facts s.dialogueBoxes (s.renderObjects.drop 1) hdrop
  have hfits : DocFits (List.zipWith saveElement s.dialogueBoxes (s.renderObjects.drop 1)) := by
    intro e he
    obtain ⟨b, hb, r, rfl⟩ := f6 e he
    refine ⟨hs.2.2.2.2 b hb, ?_⟩
    intro ev hev
    simp only [saveElement, Option.some.injEq] at hev
    rw [← hev]
    exact (hl b hb).1
  have h16d : ∀ e ∈ List.zipWith saveElement s.dialogueBoxes (s.renderObjects.drop 1),
      e.connections.length ≤ 16 := by
    intro e he
    obtain ⟨b, hb, r, rfl⟩ := f6 e he
    rw [saveElement_connections]
    exact h16 b hb
  have hclear : WellFormed
      { s with renderObjects := s.renderObjects.take 1, textObjects := [],
               dialogueBoxes := [], lineObjects := [] } := by
    refine ⟨rfl, ?_, rfl, ?_, ?_⟩
    · have := hs.2.1
      simp only [List.length_take, List.length_nil]
      omega
    · intro b hb; cases hb
    · intro b hb; cases hb
  obtain ⟨s2, B, R, hp1, hw2, hb2, hB, hr2, hR, _⟩ :=
    loadPass1_eq characters _ _ hclear hfits
  simp only [List.nil_append] at hb2
  have hBlen : (List.zipWith saveElement s.dialogueBoxes (s.renderObjects.drop 1)).length
      = B.length := by
    have := congrArg List.length hB
    simpa using this.symm
  have hp2 := loadPass2_eq _ B [] s2 (by rw [hb2]; rfl) hBlen hw2.2.1 h16d
  simp only [List.length_nil, Nat.cast_zero, List.nil_append] at hp2
  have hn : (s2.renderObjects.length : Int) - 1 = (s.dialogueBoxes.length : Int) := by
    rw [hw2.2.1, hb2, ← hBlen, f1]
    simp
  refine ⟨List.zipWith saveElement s.dialogueBoxes (s.renderObjects.drop 1),
    { s2 with
      dialogueBoxes := List.zipWith (addConnections ((s2.renderObjects.length : Int) - 1)) B
        (List.zipWith saveElement s.dialogueBoxes (s.renderObjects.drop 1)),
      lineObjects := s2.lineObjects ++ loadLines ((s2.renderObjects.length : Int) - 1) 0
        (List.zipWith saveElement s.dialogueBoxes (s.renderObjects.drop 1)) },
    Save_eq s hs.2.1, ?_, ?_, ?_⟩
  · unfold LoadDialogueBoxes
    rw [clearRenderObjects_eq _ _ (Nat.le_refl _), Option.some_bind]
    simp only [hp1, Option.some_bind]
    exact hp2
  · simp only [hn]
    exact zipWith_addConnections_save _ (by omega) s.dialogueBoxes B (s.renderObjects.drop 1)
      hdrop hB (fun b hb => (hl b hb).2)
  · simp only [hr2]
    rw [List.map_append, hR, f5, ← List.map_append, List.take_append_drop]

/-- The round trip holds in every reachable state in which no node has more
than 16 edges and the node count is one an `int` holds. -/
theorem roundtrip_of_reachable (characters : Nat → Character) (s : Editor)
    (h : Reachable characters s)
    (h16 : ∀ b ∈ s.dialogueBoxes, b.connections.length ≤ 16)
    (hcount : s.dialogueBoxes.length < 2147483648) :
    ∃ doc s1, Save s = some doc ∧ LoadDialogueBoxes characters (some doc) s = some s1 ∧
      s1.dialogueBoxes.map (fun b => (b.text, b.event, b.connections))
        = s.dialogueBoxes.map (fun b => (b.text, b.event, b.connections)) ∧
      s1.renderObjects.map (fun o => o.position)
        = s.renderObjects.map (fun o => o.position) :=
  roundtrip_of_consistent characters s h.wellFormed h.linked h16 hcount

/-! ## The claims -/

/-- C1: in every state reachable from the initial graph through
`CreateDialogueBoxAtIndex`, the delete handler, `UpdateDialogueBox` and
`LoadDialogueBoxes` (and the other operations of the editor), every node `k`
has `beginningTextIndex` equal to the sum of `numTextObjects` over the nodes
that precede it in `dialogueBoxes`. -/
theorem beginningTextIndex_eq_sum_before (characters : Nat → Character) (s : Editor)
    (h : Reachable characters s) (k : Nat) (b : DialogueBox)
    (hk : s.dialogueBoxes[k]? = some b) :
    b.beginningTextIndex = ((s.dialogueBoxes.take k).map (fun j => j.numTextObjects)).sum := by
  have h1 := offsetsOK_getElem s.dialogueBoxes 0 h.wellFormed.1 k b hk
  rw [Int.zero_add] at h1
  exact h1

theorem beginningTextIndex_eq_sum_before_witness :
    Reachable sampleFont sampleGraph ∧
    sampleGraph.dialogueBoxes[2]? = some sampleNode ∧
    sampleNode.beginningTextIndex
      = ((sampleGraph.dialogueBoxes.take 2).map (fun j => j.numTextObjects)).sum :=
  ⟨runFromStart_reachable sampleFont sampleActions (by decide), by decide,
   beginningTextIndex_eq_sum_before sampleFont sampleGraph
     (runFromStart_reachable sampleFont sampleActions (by decide)) 2 sampleNode (by decide)⟩

/-- C2: each of `CreateDialogueBoxAtIndex`, the delete handler,
`UpdateDialogueBox` and `LoadDialogueBoxes` (whether the file loads or not)
keeps `renderObjects.size = dialogueBoxes.size + 1`; and from the cursor plus
the node "Hello, world!" at (0,1), appending a node "Second" gives 2 nodes
and 3 anchors. -/
theorem anchors_eq_nodes_succ (characters : Nat → Character) (s s1 : Editor)
    (hs : s.renderObjects.length = s.dialogueBoxes.length + 1) :
    (∀ text pos textScale insertIndex,
      CreateDialogueBoxAtIndex characters text pos textScale insertIndex s = some s1 →
      s1.renderObjects.length = s1.dialogueBoxes.length + 1) ∧
    (deleteHandler s = some s1 → s1.renderObjects.length = s1.dialogueBoxes.length + 1) ∧
    (∀ dialogueIndex, UpdateDialogueBox characters dialogueIndex s = some s1 →
      s1.renderObjects.length = s1.dialogueBoxes.length + 1) ∧
    (∀ file, LoadDialogueBoxes characters file s = some s1 →
      s1.renderObjects.length = s1.dialogueBoxes.length + 1) ∧
    (∀ pos, ((mainInit characters).bind
        (CreateDialogueBox characters "Second".toList pos (1 / 100))).map
        (fun t => (t.dialogueBoxes.length, t.renderObjects.length)) = some (2, 3)) :=
  ⟨fun _ _ _ _ h => CreateDialogueBoxAtIndex_sized _ _ _ _ _ _ _ h hs,
   fun h => deleteHandler_sized _ _ h hs,
   fun _ h => UpdateDialogueBox_sized _ _ _ _ h hs,
   fun _ h => LoadDialogueBoxes_sized _ _ _ _ h hs,
   fun _ => rfl⟩

theorem anchors_eq_nodes_succ_witness :
    sampleGraph.renderObjects.length = sampleGraph.dialogueBoxes.length + 1 ∧
    deleteHandler sampleGraph = some ((deleteHandler sampleGraph).getD emptyEditor) ∧
    ((deleteHandler sampleGraph).getD emptyEditor).renderObjects.length
      = ((deleteHandler sampleGraph).getD emptyEditor).dialogueBoxes.length + 1 :=
  ⟨by decide, getD_spec _ _ (by decide),
   (anchors_eq_nodes_succ sampleFont sampleGraph ((deleteHandler sampleGraph).getD emptyEditor)
     (by decide)).2.1 (getD_spec _ _ (by decide))⟩

/-- C3: in every state reachable through insert, delete, update and load
(and the other operations of the editor), the sum of `numTextObjects` over
all nodes equals `textObjects.size`. -/
theorem sum_numTextObjects_eq_size (characters : Nat → Character) (s : Editor)
    (h : Reachable characters s) :
    (s.dialogueBoxes.map (fun b => b.numTextObjects)).sum = (s.textObjects.length : Int) :=
  h.wellFormed.2.2.1

theorem sum_numTextObjects_eq_size_witness :
    Reachable sampleFont sampleGraph ∧
    (sampleGraph.dialogueBoxes.map (fun b => b.numTextObjects)).sum
      = (sampleGraph.textObjects.length : Int) :=
  ⟨runFromStart_reachable sampleFont sampleActions (by decide),
   sum_numTextObjects_eq_size sampleFont sampleGraph
     (runFromStart_reachable sampleFont sampleActions (by decide))⟩

theorem lineShift_eq (d : Int) (l : LineObject) :
    lineShift d l =
      ⟨if l.firstBoxIndex > d then l.firstBoxIndex - 1 else l.firstBoxIndex,
       if l.secondBoxIndex > d then l.secondBoxIndex - 1 else l.secondBoxIndex⟩ := by
  unfold lineShift
  by_cases h1 : l.firstBoxIndex > d <;> by_cases h2 : l.secondBoxIndex > d <;>
    simp only [h1, h2, if_true, if_false]

theorem keepLine_eq (d : Int) (l : LineObject) :
    keepLine d l = decide (l.firstBoxIndex ≠ d ∧ l.secondBoxIndex ≠ d) := by
  unfold keepLine
  simp only [not_or, ne_eq]

/-- The delete handler on a consistent store with a valid selection, in
closed form. -/
theorem deleteHandler_valid (s : Editor) (i : Nat) (hs : WellFormed s)
    (hi : i < s.dialogueBoxes.length) (hcur : s.currentDialogueBox = (i : Int) + 1) :
    ∃ s1, deleteHandler s = some s1 ∧
      s1.dialogueBoxes.map (fun b => b.connections) =
        (s.dialogueBoxes.eraseIdx i).map
          (fun b => rebaseConnections ((i : Int) + 1) b.connections) ∧
      s1.lineObjects = pruneLines (i : Int) s.lineObjects ∧
      s1.dialogueBoxes.map (fun b => (b.text, b.event, b.numTextObjects)) =
        (s.dialogueBoxes.eraseIdx i).map (fun b => (b.text, b.event, b.numTextObjects)) ∧
      s1.renderObjects = s.renderObjects.eraseIdx (i + 1) := by
  obtain ⟨P, x, Q, hb, hP⟩ := split_mid s.dialogueBoxes i hi
  obtain ⟨R1, r, R2, T1, M, T2, hr, hR1, ht, hT1, hM, _, _⟩ := hs.decompose P Q x hb
  subst hP
  refine ⟨_, deleteHandler_eq s P Q x R1 R2 r T1 M T2 hb hcur hr hR1 ht hT1 hM, ?_, rfl, ?_, ?_⟩
  · simp only [hb, eraseIdx_mid, List.map_append, List.map_map, Function.comp_def, rebaseBox,
      bump]
  · simp only [hb, eraseIdx_mid, List.map_append, List.map_map, Function.comp_def, rebaseBox,
      bump]
  · rw [hr, ← hR1, eraseIdx_mid]

/-- C4: on a consistent store, deleting the node at 0-based index `i` (anchor
index `i + 1`) gives every surviving node, in order, its old EdgeSet with the
values equal to `i + 1` removed, the values greater than `i + 1` decreased by
one, the smaller ones unchanged and the order kept; in the graph loaded from
Scenario C, deleting node 0 leaves node "B" with an empty EdgeSet. -/
theorem delete_rebases_edgeSets (characters : Nat → Character) (s : Editor) (i : Nat)
    (hs : WellFormed s) (hi : i < s.dialogueBoxes.length)
    (hcur : s.currentDialogueBox = (i : Int) + 1) :
    (∃ s1, deleteHandler s = some s1 ∧
      s1.dialogueBoxes.map (fun b => b.connections) =
        (s.dialogueBoxes.eraseIdx i).map (fun b =>
          (b.connections.filter (fun c => decide (c ≠ (i : Int) + 1))).map
            (fun c => if c > (i : Int) + 1 then c - 1 else c))) ∧
    ((mainInit characters).bind (run characters [Action.load (some scenarioC)])).map
        (fun t => t.dialogueBoxes.map (fun b => (b.text, b.connections)))
      = some [("A".toList, []), ("B".toList, [1])] ∧
    ((mainInit characters).bind
        (run characters [Action.load (some scenarioC), Action.leftDown 1, Action.delete])).map
        (fun t => t.dialogueBoxes.map (fun b => (b.text, b.connections)))
      = some [("B".toList, [])] := by
  obtain ⟨s1, h1, h2, _⟩ := deleteHandler_valid s i hs hi hcur
  exact ⟨⟨s1, h1, h2⟩, rfl, rfl⟩

theorem delete_rebases_edgeSets_witness :
    WellFormed sampleGraph ∧ 1 < sampleGraph.dialogueBoxes.length ∧
    sampleGraph.currentDialogueBox = ((1 : Nat) : Int) + 1 ∧
    ∃ s1, deleteHandler sampleGraph = some s1 ∧
      s1.dialogueBoxes.map (fun b => b.connections) =
        (sampleGraph.dialogueBoxes.eraseIdx 1).map (fun b =>
          (b.connections.filter (fun c => decide (c ≠ ((1 : Nat) : Int) + 1))).map
            (fun c => if c > ((1 : Nat) : Int) + 1 then c - 1 else c)) :=
  ⟨by decide, by decide, by decide,
   (delete_rebases_edgeSets sampleFont sampleGraph 1 (by decide) (by decide) (by decide)).1⟩

/-- C5: on a consistent store, deleting the node at 0-based index `i` turns
the LineOverlay list into the old list without the entries whose
`firstBoxIndex` or `secondBoxIndex` equals `i`, each index greater than `i`
in the remaining entries decreased by one, the smaller ones unchanged and
the order kept. -/
theorem delete_prunes_lineObjects (s : Editor) (i : Nat)
    (hs : WellFormed s) (hi : i < s.dialogueBoxes.length)
    (hcur : s.currentDialogueBox = (i : Int) + 1) :
    ∃ s1, deleteHandler s = some s1 ∧
      s1.lineObjects =
        (s.lineObjects.filter
            (fun l => decide (l.firstBoxIndex ≠ (i : Int) ∧ l.secondBoxIndex ≠ (i : Int)))).map
          (fun l =>
            ⟨if l.firstBoxIndex > (i : Int) then l.firstBoxIndex - 1 else l.firstBoxIndex,
             if l.secondBoxIndex > (i : Int) then l.secondBoxIndex - 1
             else l.secondBoxIndex⟩) := by
  obtain ⟨s1, h1, _, h3, _⟩ := deleteHandler_valid s i hs hi hcur
  refine ⟨s1, h1, ?_⟩
  rw [h3, pruneLines]
  have e1 : keepLine (i : Int)
      = fun l => decide (l.firstBoxIndex ≠ (i : Int) ∧ l.secondBoxIndex ≠ (i : Int)) :=
    funext (keepLine_eq (i : Int))
  have e2 : lineShift (i : Int) = fun l =>
      (⟨if l.firstBoxIndex > (i : Int) then l.firstBoxIndex - 1 else l.firstBoxIndex,
        if l.secondBoxIndex > (i : Int) then l.secondBoxIndex - 1
        else l.secondBoxIndex⟩ : LineObject) :=
    funext (lineShift_eq (i : Int))
  rw [e1, e2]

theorem delete_prunes_lineObjects_witness :
    WellFormed sampleGraph ∧ 1 < sampleGraph.dialogueBoxes.length ∧
    sampleGraph.currentDialogueBox = ((1 : Nat) : Int) + 1 ∧
    ∃ s1, deleteHandler sampleGraph = some s1 ∧
      s1.lineObjects =
        (sampleGraph.lineObjects.filter
            (fun l => decide (l.firstBoxIndex ≠ ((1 : Nat) : Int) ∧
              l.secondBoxIndex ≠ ((1 : Nat) : Int)))).map
          (fun l =>
            ⟨if l.firstBoxIndex > ((1 : Nat) : Int) then l.firstBoxIndex - 1
             else l.firstBoxIndex,
             if l.secondBoxIndex > ((1 : Nat) : Int) then l.secondBoxIndex - 1
             else l.secondBoxIndex⟩) :=
  ⟨by decide, by decide, by decide,
   delete_prunes_lineObjects sampleGraph 1 (by decide) (by decide) (by decide)⟩

/-- C6, evaluated where it fails: the graph with seventeen self-edges on its
only node is built by public operations; Save writes all seventeen values;
loading that document overflows the 16-entry buffer of the second pass, so
the load has no defined result. -/
theorem roundtrip_overflows_connections_buffer :
    PublicReachable sampleFont crowdedGraph ∧
    (Save crowdedGraph).map (fun doc => doc.map (fun e => e.connections.length)) = some [17] ∧
    (Save crowdedGraph).bind
        (fun doc => some (LoadDialogueBoxes sampleFont (some doc) crowdedGraph))
      = some none :=
  ⟨runFromStart_publicReachable sampleFont seventeenSelfEdges (by decide) (by decide),
   by decide, by decide⟩

/-- A failed load, in closed form: the vectors are cleared before the file is
opened, so only the cursor anchor is left. -/
theorem LoadDialogueBoxes_none (characters : Nat → Character) (s : Editor) :
    LoadDialogueBoxes characters none s
      = some { s with renderObjects := s.renderObjects.take 1, textObjects := [],
                      dialogueBoxes := [], lineObjects := [] } := by
  unfold LoadDialogueBoxes
  rw [clearRenderObjects_eq _ _ (Nat.le_refl _), Option.some_bind]

/-- C7 refuted: a failed load of the three-node example graph does not
return it unmodified. -/
theorem failed_load_modifies_graph :
    ¬ ∃ s1, LoadDialogueBoxes sampleFont none sampleGraph = some s1 ∧
      s1.dialogueBoxes = sampleGraph.dialogueBoxes ∧
      s1.renderObjects = sampleGraph.renderObjects ∧
      s1.textObjects = sampleGraph.textObjects ∧
      s1.lineObjects = sampleGraph.lineObjects := by
  rintro ⟨s1, h, hb, _⟩
  rw [LoadDialogueBoxes_none] at h
  injection h with h
  rw [← h] at hb
  exact absurd hb (by decide)

/-- C7 as amended: when the document cannot be loaded, `LoadDialogueBoxes`
returns with the graph cleared: no nodes, no text fragments, no LineOverlay
entries, and of the anchors only the first one (the cursor). -/
theorem failed_load_clears_graph (characters : Nat → Character) (s : Editor) :
    ∃ s1, LoadDialogueBoxes characters none s = some s1 ∧
      s1.dialogueBoxes = [] ∧ s1.textObjects = [] ∧ s1.lineObjects = [] ∧
      s1.renderObjects = s.renderObjects.take 1 :=
  ⟨_, LoadDialogueBoxes_none characters s, rfl, rfl, rfl, rfl⟩

/-- The delete handler never leaves the connection protocol: the selection
is reset to -1 before it is compared with `firstConnectionDialogueBox`. -/
theorem deleteHandler_isConnecting (s s1 : Editor) (hc : s.isConnecting = true)
    (hf : s.firstConnectionDialogueBox ≠ -1) (h : deleteHandler s = some s1) :
    s1.isConnecting = true ∧ s1.firstConnectionDialogueBox = s.firstConnectionDialogueBox := by
  by_cases hg : s.currentDialogueBox ≠ -1 ∧ s.currentDialogueBox ≠ 0
  · unfold deleteHandler at h
    rw [if_pos hg] at h
    simp only [Option.bind_eq_some] at h
    obtain ⟨x, _, r, _, u, _, kept, _, ls, _, reb, _, tx, _, sh, _, ro, _, db, _, h⟩ := h
    injection h with h
    subst h
    simp only [hc, hf, decide_False, Bool.and_false, Bool.false_eq_true, if_false, and_self]
  · unfold deleteHandler at h
    rw [if_neg hg] at h
    injection h with h
    rw [← h]
    exact ⟨hc, rfl⟩

/-- C8, evaluated where it fails: node 0 awaits the second click of a
connection (`isConnecting`, `firstConnectionDialogueBox = 1`) and is
selected; the delete handler removes it and the protocol is still in
AwaitingSecondNode with the dangling index 1. -/
theorem delete_first_node_keeps_connecting :
    PublicReachable sampleFont connectingGraph ∧
    (connectingGraph.isConnecting, connectingGraph.firstConnectionDialogueBox,
      connectingGraph.currentDialogueBox, connectingGraph.dialogueBoxes.length)
      = (true, 1, 1, 2) ∧
    (deleteHandler connectingGraph).map
        (fun t => (t.isConnecting, t.firstConnectionDialogueBox, t.dialogueBoxes.length))
      = some (true, 1, 1) :=
  ⟨runFromStart_publicReachable sampleFont connectingActions (by decide) (by decide),
   by decide, by decide⟩

theorem numSum_rebaseBox (c : Int) (P : List DialogueBox) :
    numSum (P.map (rebaseBox c)) = numSum P := by
  induction P with
  | nil => rfl
  | cons b P ih => simp only [List.map_cons, numSum_cons, ih, rebaseBox]

/-- The specification's update on a consistent store, in closed form. -/
theorem specUpdateNodeText_eq (characters : Nat → Character) (s : Editor)
    (P Q : List DialogueBox) (x : DialogueBox)
    (R1 R2 : List RenderObject) (r : RenderObject) (T1 M T2 : List TextObject)
    (hb : s.dialogueBoxes = P ++ x :: Q)
    (hr : s.renderObjects = R1 ++ r :: R2) (hR1 : R1.length = P.length + 1)
    (ht : s.textObjects = T1 ++ (M ++ T2))
    (hT1 : (T1.length : Int) = x.beginningTextIndex)
    (hM : (M.length : Int) = x.numTextObjects)
    (hsum : numSum P = x.beginningTextIndex) (hfit : TextFits x.text) :
    ∃ r1, specUpdateNodeText characters (P.length : Int) s = some r1 ∧
      r1.renderObjects = R1 ++ newAnchor characters x.text r.position (1 / 100) :: R2 ∧
      r1.textObjects = T1 ++ (newTexts characters x.text r.position (1 / 100) ++ T2) ∧
      r1.dialogueBoxes = P.map (rebaseBox ((P.length : Int) + 1)) ++
        { newBox x.text (numSum P) with event := x.event, connections := x.connections } ::
          ((Q.map (rebaseBox ((P.length : Int) + 1))).map (bump (-x.numTextObjects))).map
            (bump ((layoutLines x.text).length : Int)) ∧
      r1.lineObjects = pruneLines (P.length : Int) s.lineObjects := by
  have hgetr : slb_Vector_Get s.renderObjects ((P.length : Int) + 1) = some r := by
    have h := get_mid R1 R2 r
    rw [hR1] at h
    push_cast at h
    rw [hr]
    exact h
  have hgetb : slb_Vector_Get s.dialogueBoxes (P.length : Int) = some x := by
    rw [hb]
    exact get_mid P Q x
  have hdel := deleteHandler_eq { s with currentDialogueBox := (P.length : Int) + 1 }
    P Q x R1 R2 r T1 M T2 hb rfl hr hR1 ht hT1 hM
  have hcreate := fun (s0 : Editor) h1 h2 h3 h4 =>
    CreateDialogueBoxAtIndex_eq characters x.text r.position (1 / 100) s0
      (P.map (rebaseBox ((P.length : Int) + 1)))
      ((Q.map (rebaseBox ((P.length : Int) + 1))).map (bump (-x.numTextObjects)))
      R1 R2 T1 T2 h1 h2 h3 h4 (by rw [numSum_rebaseBox, hT1, hsum]) hfit
  rw [List.length_map, numSum_rebaseBox] at hcreate
  unfold specUpdateNodeText
  simp only [hgetb, hgetr, Option.some_bind, hdel]
  rw [hcreate _ rfl rfl hR1 rfl]
  have hget2 := get_mid (P.map (rebaseBox ((P.length : Int) + 1)))
    (((Q.map (rebaseBox ((P.length : Int) + 1))).map (bump (-x.numTextObjects))).map
      (bump ((layoutLines x.text).length : Int)))
    (newBox x.text (numSum P))
  have hset2 := fun y => vset_mid (P.map (rebaseBox ((P.length : Int) + 1)))
    (((Q.map (rebaseBox ((P.length : Int) + 1))).map (bump (-x.numTextObjects))).map
      (bump ((layoutLines x.text).length : Int)))
    (newBox x.text (numSum P)) y
  rw [List.length_map] at hget2 hset2
  simp only [Option.some_bind, hget2, hset2]
  exact ⟨_, rfl, rfl, rfl, rfl, rfl⟩

theorem map_rebaseBox_strip (c : Int) (P : List DialogueBox) :
    (P.map (rebaseBox c)).map
        (fun b => (b.text, b.event, b.numTextObjects, b.beginningTextIndex))
      = P.map (fun b => (b.text, b.event, b.numTextObjects, b.beginningTextIndex)) := by
  simp only [List.map_map, Function.comp_def, rebaseBox]

/-- C9 refuted: on the three-node example graph (node 0 points to node 2,
node 2 to node 1) the update of node 1 keeps both lines and all edges, while
the removal cascade followed by the insertion drops the line and the edge
that ended at node 1 and renumbers the others. -/
theorem update_differs_from_remove_insert :
    (UpdateDialogueBox sampleFont 1 sampleGraph).map
        (fun t => (t.lineObjects, t.dialogueBoxes.map (fun b => b.connections)))
      = some ([⟨0, 2⟩, ⟨2, 1⟩], [[3], [], [2]]) ∧
    (specUpdateNodeText sampleFont 1 sampleGraph).map
        (fun t => (t.lineObjects, t.dialogueBoxes.map (fun b => b.connections)))
      = some ([⟨0, 1⟩], [[2], [], []]) ∧
    ¬ ∃ u r, UpdateDialogueBox sampleFont 1 sampleGraph = some u ∧
      specUpdateNodeText sampleFont 1 sampleGraph = some r ∧
      u.dialogueBoxes = r.dialogueBoxes ∧ u.renderObjects = r.renderObjects ∧
      u.textObjects = r.textObjects ∧ u.lineObjects = r.lineObjects := by
  have h1 : (UpdateDialogueBox sampleFont 1 sampleGraph).map
        (fun t => (t.lineObjects, t.dialogueBoxes.map (fun b => b.connections)))
      = some ([⟨0, 2⟩, ⟨2, 1⟩], [[3], [], [2]]) := by decide
  have h2 : (specUpdateNodeText sampleFont 1 sampleGraph).map
        (fun t => (t.lineObjects, t.dialogueBoxes.map (fun b => b.connections)))
      = some ([⟨0, 1⟩], [[2], [], []]) := by decide
  refine ⟨h1, h2, ?_⟩
  rintro ⟨u, r, hu, hr, hb, _, _, hl⟩
  rw [hu] at h1
  rw [hr] at h2
  simp only [Option.map_some', Option.some.injEq, Prod.mk.injEq] at h1 h2
  rw [hl, h2.1] at h1
  exact absurd h1.1 (by decide)

/-- C9 as amended: on a consistent store and for every valid node index,
`UpdateDialogueBox` returns, and its result agrees with
`RemoveNodeAt(index)`, `InsertNodeAt(index, text, samePosition)` and the
restore of event and edges on the anchors, on the text fragments, on the
text, event and text run of every node and on the EdgeSet of the node at
`index`; the EdgeSets of all nodes and the LineOverlay list are those on
entry, because `UpdateDialogueBox` runs no edge or LineOverlay cascade. -/
theorem update_agrees_with_remove_insert_up_to_cascade (characters : Nat → Character)
    (s : Editor) (i : Nat) (hs : WellFormed s) (hi : i < s.dialogueBoxes.length) :
    ∃ u r, UpdateDialogueBox characters (i : Int) s = some u ∧
      specUpdateNodeText characters (i : Int) s = some r ∧
      u.renderObjects = r.renderObjects ∧ u.textObjects = r.textObjects ∧
      u.dialogueBoxes.map
          (fun b => (b.text, b.event, b.numTextObjects, b.beginningTextIndex))
        = r.dialogueBoxes.map
          (fun b => (b.text, b.event, b.numTextObjects, b.beginningTextIndex)) ∧
      (u.dialogueBoxes[i]?).map (fun b => b.connections)
        = (r.dialogueBoxes[i]?).map (fun b => b.connections) ∧
      u.dialogueBoxes.map (fun b => b.connections)
        = s.dialogueBoxes.map (fun b => b.connections) ∧
      u.lineObjects = s.lineObjects := by
  obtain ⟨P, x, Q, hb, hP⟩ := split_mid s.dialogueBoxes i hi
  obtain ⟨R1, r, R2, T1, M, T2, hr, hR1, ht, hT1, hM, hsum, _⟩ := hs.decompose P Q x hb
  have hfit : TextFits x.text := hs.2.2.2.2 x (by rw [hb]; simp)
  subst hP
  obtain ⟨r1, hspec, e1, e2, e3, _⟩ := specUpdateNodeText_eq characters s P Q x R1 R2 r T1 M T2
    hb hr hR1 ht hT1 hM hsum hfit
  refine ⟨_, r1, UpdateDialogueBox_eq characters s P Q x R1 R2 r T1 M T2 hb hr hR1 ht hT1 hM
    hsum hfit, hspec, ?_, ?_, ?_, ?_, ?_, rfl⟩
  · rw [e1]
  · rw [e2]
  · rw [e3]
    simp only [List.map_append, List.map_cons, List.map_map, Function.comp_def, rebaseBox, bump]
  · rw [e3]
    have h1 := getElem?_mid P
      ((Q.map (bump (-x.numTextObjects))).map (bump ((layoutLines x.text).length : Int)))
      { newBox x.text (numSum P) with event := x.event, connections := x.connections }
    have h2 := getElem?_mid (P.map (rebaseBox ((P.length : Int) + 1)))
      (((Q.map (rebaseBox ((P.length : Int) + 1))).map (bump (-x.numTextObjects))).map
        (bump ((layoutLines x.text).length : Int)))
      { newBox x.text (numSum P) with event := x.event, connections := x.connections }
    rw [List.length_map] at h2
    simp only [h1, h2]
  · rw [hb]
    simp only [List.map_append, List.map_cons, List.map_map, Function.comp_def, bump]

theorem update_agrees_with_remove_insert_up_to_cascade_witness :
    WellFormed sampleGraph ∧ 1 < sampleGraph.dialogueBoxes.length ∧
    ∃ u r, UpdateDialogueBox sampleFont ((1 : Nat) : Int) sampleGraph = some u ∧
      specUpdateNodeText sampleFont ((1 : Nat) : Int) sampleGraph = some r ∧
      u.renderObjects = r.renderObjects ∧ u.textObjects = r.textObjects ∧
      u.dialogueBoxes.map
          (fun b => (b.text, b.event, b.numTextObjects, b.beginningTextIndex))
        = r.dialogueBoxes.map
          (fun b => (b.text, b.event, b.numTextObjects, b.beginningTextIndex)) ∧
      (u.dialogueBoxes[1]?).map (fun b => b.connections)
        = (r.dialogueBoxes[1]?).map (fun b => b.connections) ∧
      u.dialogueBoxes.map (fun b => b.connections)
        = sampleGraph.dialogueBoxes.map (fun b => b.connections) ∧
      u.lineObjects = sampleGraph.lineObjects :=
  ⟨by decide, by decide,
   update_agrees_with_remove_insert_up_to_cascade sampleFont sampleGraph 1 (by decide)
     (by decide)⟩

/-- C10: on a consistent store and for every valid node index,
`UpdateDialogueBox` returns; the node count is unchanged; the node at the
index and every other node have the text, the event and the EdgeSet (same
values, same order) they had on entry; and every anchor, the one of the
updated node included, keeps its position. -/
theorem update_keeps_node_data (characters : Nat → Character) (s : Editor) (i : Nat)
    (hs : WellFormed s) (hi : i < s.dialogueBoxes.length) :
    ∃ s1, UpdateDialogueBox characters (i : Int) s = some s1 ∧
      s1.dialogueBoxes.length = s.dialogueBoxes.length ∧
      s1.dialogueBoxes.map (fun b => (b.text, b.event, b.connections))
        = s.dialogueBoxes.map (fun b => (b.text, b.event, b.connections)) ∧
      s1.renderObjects.map (fun o => o.position)
        = s.renderObjects.map (fun o => o.position) := by
  obtain ⟨P, x, Q, hb, hP⟩ := split_mid s.dialogueBoxes i hi
  obtain ⟨R1, r, R2, T1, M, T2, hr, hR1, ht, hT1, hM, hsum, _⟩ := hs.decompose P Q x hb
  have hfit : TextFits x.text := hs.2.2.2.2 x (by rw [hb]; simp)
  subst hP
  refine ⟨_, UpdateDialogueBox_eq characters s P Q x R1 R2 r T1 M T2 hb hr hR1 ht hT1 hM
    hsum hfit, ?_, ?_, ?_⟩
  · rw [hb]
    simp only [List.length_append, List.length_cons, List.length_map]
  · rw [hb]
    simp only [List.map_append, List.map_cons, List.map_map, Function.comp_def, bump, newBox]
  · rw [hr]
    simp only [List.map_append, List.map_cons, newAnchor, CreateRenderObject]

theorem update_keeps_node_data_witness :
    WellFormed sampleGraph ∧ 1 < sampleGraph.dialogueBoxes.length ∧
    ∃ s1, UpdateDialogueBox sampleFont ((1 : Nat) : Int) sampleGraph = some s1 ∧
      s1.dialogueBoxes.length = sampleGraph.dialogueBoxes.length ∧
      s1.dialogueBoxes.map (fun b => (b.text, b.event, b.connections))
        = sampleGraph.dialogueBoxes.map (fun b => (b.text, b.event, b.connections)) ∧
      s1.renderObjects.map (fun o => o.position)
        = sampleGraph.renderObjects.map (fun o => o.position) :=
  ⟨by decide, by decide,
   update_keeps_node_data sampleFont sampleGraph 1 (by decide) (by decide)⟩

/-- C18: in every reachable state every value stored in the connections of a
node is the anchor index of an existing node: it is at least 1 (never the
cursor slot 0), at most the node count, and a valid index of
`renderObjects`. -/
theorem edge_values_name_existing_nodes (characters : Nat → Character) (s : Editor)
    (h : Reachable characters s) :
    ∀ b ∈ s.dialogueBoxes, ∀ e ∈ b.connections,
      1 ≤ e ∧ e ≤ (s.dialogueBoxes.length : Int) ∧ e < (s.renderObjects.length : Int) := by
  intro b hb e he
  have h1 := (h.linked b hb).2 e he
  have h2 := h.wellFormed.2.1
  omega

theorem edge_values_name_existing_nodes_witness :
    Reachable sampleFont sampleGraph ∧
    ∀ b ∈ sampleGraph.dialogueBoxes, ∀ e ∈ b.connections,
      1 ≤ e ∧ e ≤ (sampleGraph.dialogueBoxes.length : Int) ∧
        e < (sampleGraph.renderObjects.length : Int) :=
  ⟨runFromStart_reachable sampleFont sampleActions (by decide),
   edge_values_name_existing_nodes sampleFont sampleGraph
     (runFromStart_reachable sampleFont sampleActions (by decide))⟩

/-- C14: for every graph with one anchor per node plus the cursor, Save
returns a document with one element per node in node order, and element `i`
holds the position of anchor `i + 1`, the text and the event of node `i`, and
a connections array equal to the connections of node `i` (empty when the node
has none). -/
theorem save_writes_every_node (s : Editor)
    (hs : s.renderObjects.length = s.dialogueBoxes.length + 1) :
    ∃ doc, Save s = some doc ∧ doc.length = s.dialogueBoxes.length ∧
      ∀ (i : Nat) (b : DialogueBox), s.dialogueBoxes[i]? = some b →
        ∃ r, s.renderObjects[i + 1]? = some r ∧
          doc[i]? = some { position := r.position, text := b.text, event := some b.event,
                           connections := b.connections } := by
  refine ⟨_, Save_eq s hs, ?_, ?_⟩
  · simp only [List.length_zipWith, List.length_drop]
    omega
  · intro i b hb
    have hi : i < s.dialogueBoxes.length := by
      by_contra hc
      rw [List.getElem?_eq_none (by omega)] at hb
      cases hb
    have hr : i + 1 < s.renderObjects.length := by omega
    refine ⟨s.renderObjects[i + 1], List.getElem?_eq_getElem hr, ?_⟩
    rw [List.getElem?_eq_getElem hi] at hb
    injection hb with hb
    subst hb
    rw [List.getElem?_eq_getElem (by simp only [List.length_zipWith, List.length_drop]; omega)]
    simp only [List.getElem_zipWith, List.getElem_drop, Option.some.injEq]
    have e := saveElement_connections s.dialogueBoxes[i] s.renderObjects[1 + i]
    unfold saveElement at e ⊢
    simp only at e
    simp only [e, Nat.add_comm]

theorem save_writes_every_node_witness :
    sampleGraph.renderObjects.length = sampleGraph.dialogueBoxes.length + 1 ∧
    ∃ doc, Save sampleGraph = some doc ∧ doc.length = sampleGraph.dialogueBoxes.length ∧
      ∀ (i : Nat) (b : DialogueBox), sampleGraph.dialogueBoxes[i]? = some b →
        ∃ r, sampleGraph.renderObjects[i + 1]? = some r ∧
          doc[i]? = some { position := r.position, text := b.text, event := some b.event,
                           connections := b.connections } :=
  ⟨by decide, save_writes_every_node sampleGraph (by decide)⟩

theorem take_left_length {α : Type} (A B : List α) : (A ++ B).take A.length = A := by
  simp

theorem drop_left_length {α : Type} (A B : List α) : (A ++ B).drop A.length = B := by
  simp

theorem nodeData_bump (delta : Int) (Q : List DialogueBox) :
    (Q.map (bump delta)).map nodeData = Q.map nodeData := by
  rw [List.map_map]
  rfl

/-- C20: for every insertion index between 0 and the node count,
`CreateDialogueBoxAtIndex` on a consistent store returns; the anchor list is
the old one with the new anchor, at the given position, inserted at
`insertIndex + 1`; the node list is the old one with the new node inserted at
`insertIndex` (the nodes after it have `beginningTextIndex` moved by the
number of lines of the new node and are otherwise unchanged); the cursor
anchor stays in slot 0. -/
theorem create_inserts_node_and_anchor (characters : Nat → Character) (text : List Char)
    (pos : Vec2) (textScale : Rat) (insertIndex : Int) (s : Editor)
    (hs : WellFormed s) (hfit : TextFits text) (h0 : 0 ≤ insertIndex)
    (h1 : insertIndex ≤ (s.dialogueBoxes.length : Int)) :
    ∃ s1, CreateDialogueBoxAtIndex characters text pos textScale insertIndex s = some s1 ∧
      s1.renderObjects = s.renderObjects.insertIdx (insertIndex.toNat + 1)
        (newAnchor characters text pos textScale) ∧
      (newAnchor characters text pos textScale).position = pos ∧
      s1.dialogueBoxes = s.dialogueBoxes.take insertIndex.toNat ++
        newBox text (numSum (s.dialogueBoxes.take insertIndex.toNat)) ::
          (s.dialogueBoxes.drop insertIndex.toNat).map
            (bump ((layoutLines text).length : Int)) ∧
      s1.dialogueBoxes.map nodeData = (s.dialogueBoxes.insertIdx insertIndex.toNat
        (newBox text (numSum (s.dialogueBoxes.take insertIndex.toNat)))).map nodeData ∧
      s1.renderObjects[0]? = s.renderObjects[0]? := by
  obtain ⟨P, Q, R1, R2, T1, T2, hi, hb, hr, hR1, ht, hT1⟩ := hs.splitAt insertIndex h0 h1
  subst hi
  refine ⟨_, CreateDialogueBoxAtIndex_eq characters text pos textScale s P Q
    R1 R2 T1 T2 hb hr hR1 ht hT1 hfit, ?_, rfl, ?_, ?_, ?_⟩
  · rw [Int.toNat_ofNat, hr, ← hR1, insertIdx_mid]
  · rw [Int.toNat_ofNat, hb, take_left_length, drop_left_length]
  · rw [Int.toNat_ofNat, hb, take_left_length, insertIdx_mid]
    simp only [List.map_append, List.map_cons, nodeData_bump]
  · rw [hr]
    cases R1 with
    | nil => simp at hR1
    | cons a R1 => simp

theorem create_inserts_node_and_anchor_witness :
    WellFormed sampleGraph ∧ TextFits sampleText ∧
    ∃ s1, CreateDialogueBoxAtIndex sampleFont sampleText ⟨5, 5⟩ (1 / 100) 1 sampleGraph
        = some s1 ∧
      s1.renderObjects = sampleGraph.renderObjects.insertIdx ((1 : Int).toNat + 1)
        (newAnchor sampleFont sampleText ⟨5, 5⟩ (1 / 100)) ∧
      (newAnchor sampleFont sampleText ⟨5, 5⟩ (1 / 100)).position = ⟨5, 5⟩ ∧
      s1.dialogueBoxes = sampleGraph.dialogueBoxes.take (1 : Int).toNat ++
        newBox sampleText (numSum (sampleGraph.dialogueBoxes.take (1 : Int).toNat)) ::
          (sampleGraph.dialogueBoxes.drop (1 : Int).toNat).map
            (bump ((layoutLines sampleText).length : Int)) ∧
      s1.dialogueBoxes.map nodeData = (sampleGraph.dialogueBoxes.insertIdx (1 : Int).toNat
        (newBox sampleText (numSum (sampleGraph.dialogueBoxes.take (1 : Int).toNat)))).map
          nodeData ∧
      s1.renderObjects[0]? = sampleGraph.renderObjects[0]? :=
  ⟨by decide, by decide,
   create_inserts_node_and_anchor sampleFont sampleText ⟨5, 5⟩ (1 / 100) 1 sampleGraph
     (by decide) (by decide) (by decide) (by decide)⟩

/-- C15: a right click on node `i` (anchor index) while no connection is
pending stores `i` as the first node and changes nothing else, in particular
no connections; while a connection from the node at anchor index
`firstConnectionDialogueBox = P.length + 1` is pending, it appends `i` to the
connections of that node, whatever they already hold, appends the line
`(firstConnectionDialogueBox - 1, i - 1)`, leaves every other node as it is
and ends the pending connection; from the initial graph with a second node,
right clicks on node 0 and node 1 leave node 0 with connections `[2]` and the
single line `(0, 1)`. -/
theorem rightDown_connects (characters : Nat → Character) (s : Editor) (i : Int)
    (hi : 1 ≤ i ∧ i < (s.renderObjects.length : Int))
    (hs : s.renderObjects.length = s.dialogueBoxes.length + 1) :
    (s.isConnecting = false →
      rightDown i s = some { s with firstConnectionDialogueBox := i, isConnecting := true }) ∧
    (s.isConnecting = true → ∀ (P Q : List DialogueBox) (x : DialogueBox),
      s.dialogueBoxes = P ++ x :: Q → s.firstConnectionDialogueBox = (P.length : Int) + 1 →
      rightDown i s = some
        { s with
          lineObjects := s.lineObjects ++ [⟨s.firstConnectionDialogueBox - 1, i - 1⟩],
          dialogueBoxes := P ++ { x with connections := x.connections ++ [i] } :: Q,
          secondConnectionDialogueBox := i, isConnecting := false }) ∧
    ((mainInit characters).bind (run characters scenarioBActions)).map
        (fun t => (t.dialogueBoxes.map (fun b => b.connections), t.lineObjects,
          t.isConnecting))
      = some ([[2], []], [⟨0, 1⟩], false) := by
  refine ⟨?_, ?_, rfl⟩
  · intro hc
    unfold rightDown
    rw [if_pos hi]
    simp only [hc, Bool.false_eq_true, not_false_eq_true, if_true]
  · intro hc P Q x hb hf
    have hlen : P.length + 1 < s.renderObjects.length := by
      rw [hs, hb]
      simp only [List.length_append, List.length_cons]
      omega
    have hget : slb_Vector_Get s.renderObjects ((P.length : Int) + 1)
        = some (s.renderObjects[P.length + 1]) := by
      unfold slb_Vector_Get
      rw [if_pos (by omega)]
      have e : ((P.length : Int) + 1).toNat = P.length + 1 := by omega
      rw [e]
      exact List.getElem?_eq_getElem hlen
    unfold rightDown
    rw [if_pos hi]
    simp only [hc, not_true_eq_false, if_false, hf, hget, Option.some_bind,
      Int.add_sub_cancel, hb, get_mid, vset_mid, slb_Vector_PushBack]

theorem rightDown_connects_witness :
    (1 ≤ (2 : Int) ∧ (2 : Int) < (connectingGraph.renderObjects.length : Int)) ∧
    connectingGraph.renderObjects.length = connectingGraph.dialogueBoxes.length + 1 ∧
    connectingGraph.isConnecting = true ∧
    rightDown 2 connectingGraph = some
      { connectingGraph with
        lineObjects := connectingGraph.lineObjects ++
          [⟨connectingGraph.firstConnectionDialogueBox - 1, 2 - 1⟩],
        dialogueBoxes := [] ++
          { (⟨"Hello, world!".toList, [], [], 1, 0⟩ : DialogueBox) with
            connections := (⟨"Hello, world!".toList, [], [], 1, 0⟩ : DialogueBox).connections
              ++ [2] } :: [⟨"Hello world".toList, [], [], 1, 1⟩],
        secondConnectionDialogueBox := 2, isConnecting := false } :=
  ⟨by decide, by decide, by decide,
   (rightDown_connects sampleFont connectingGraph 2 (by decide) (by decide)).2.1 (by decide)
     [] [⟨"Hello world".toList, [], [], 1, 1⟩] ⟨"Hello, world!".toList, [], [], 1, 0⟩
     (by decide) (by decide)⟩

/-! ### The load in closed form -/

theorem loadLines_eq_enumFrom (n : Int) :
    ∀ (json : List DocElement) (k : Nat),
      loadLines n (k : Int) json = ((json.enumFrom k).map (fun p =>
        (keepConnections n (p.2.connections.map wrapInt)).map
          (fun c => (⟨(p.1 : Int), c - 1⟩ : LineObject)))).flatten := by
  intro json
  induction json with
  | nil => intro k; rfl
  | cons e rest ih =>
    intro k
    have h := ih (k + 1)
    simp only [Nat.cast_add, Nat.cast_one] at h
    simp only [loadLines, List.enumFrom_cons, List.map_cons, List.flatten_cons, h]

/-- A connection value outside the range of `int` is narrowed before it is
tested: the value 4294967297 = 2^32 + 1 of the only element is stored as the
connection 1, with the line `(0, 0)`. -/
theorem load_narrows_large_value (characters : Nat → Character) :
    (LoadDialogueBoxes characters (some [⟨⟨0, 0⟩, "A".toList, none, [4294967297]⟩])
        emptyEditor).map
        (fun t => (t.dialogueBoxes.map (fun b => b.connections), t.lineObjects))
      = some ([[1]], [⟨0, 0⟩]) :=
  rfl

theorem CreateDialogueBoxAtIndex_currentDialogueBox (characters : Nat → Character)
    (text : List Char) (pos : Vec2) (textScale : Rat) (insertIndex : Int) (s s1 : Editor)
    (h : CreateDialogueBoxAtIndex characters text pos textScale insertIndex s = some s1) :
    s1.currentDialogueBox = s.currentDialogueBox := by
  unfold CreateDialogueBoxAtIndex at h
  split at h
  · cases h
  · simp only [Option.bind_eq_some] at h
    obtain ⟨_, _, _, _, _, _, _, _, _, _, _, _, h⟩ := h
    injection h with h
    subst h
    rfl

theorem UpdateDialogueBox_selected (characters : Nat → Character) (dialogueIndex : Int)
    (s s1 : Editor) (hs : WellFormed s)
    (h : UpdateDialogueBox characters dialogueIndex s = some s1) : Selected s1 := by
  obtain ⟨x, hx, hfit⟩ := UpdateDialogueBox_some _ _ _ _ h
  obtain ⟨P, Q, hb, hi⟩ := get_split hx
  obtain ⟨R1, r, R2, T1, M, T2, hr, hR1, ht, hT1, hM, hsum, _⟩ := hs.decompose P Q x hb
  rw [hi, UpdateDialogueBox_eq characters s P Q x R1 R2 r T1 M T2 hb hr hR1 ht hT1 hM hsum
    hfit] at h
  injection h with h
  subst h
  right
  simp only [List.length_append, List.length_cons, List.length_map, Nat.cast_add,
    Nat.cast_one]
  omega

/-- Every operation but the load keeps the selection empty or on an existing
node. -/
theorem step_selected (characters : Nat → Character) (a : Action) (s s1 : Editor)
    (hs : WellFormed s) (hsel : Selected s) (hload : ∀ file, a ≠ Action.load file)
    (h : step characters a s = some s1) : Selected s1 := by
  have grow : ∀ (t : Editor), t.currentDialogueBox = s.currentDialogueBox →
      t.dialogueBoxes.length = s.dialogueBoxes.length + 1 → Selected t := by
    intro t h1 h2
    unfold Selected at hsel ⊢
    rw [h1, h2]
    rcases hsel with hsel | hsel
    · exact Or.inl hsel
    · right
      simp only [Nat.cast_add, Nat.cast_one]
      omega
  have same : ∀ (t : Editor), t.currentDialogueBox = s.currentDialogueBox →
      t.dialogueBoxes.length = s.dialogueBoxes.length → Selected t := by
    intro t h1 h2
    unfold Selected at hsel ⊢
    rw [h1, h2]
    exact hsel
  cases a with
  | createAt text pos textScale insertIndex =>
    exact grow s1 (CreateDialogueBoxAtIndex_currentDialogueBox _ _ _ _ _ _ _ h)
      (CreateDialogueBoxAtIndex_some _ _ _ _ _ _ _ h).2.2.2.2.1
  | middleDown pos =>
    simp only [step, middleDown, CreateDialogueBox] at h
    exact grow s1 (CreateDialogueBoxAtIndex_currentDialogueBox _ _ _ _ _ _ _ h)
      (CreateDialogueBoxAtIndex_some _ _ _ _ _ _ _ h).2.2.2.2.1
  | leftDown i =>
    simp only [step, leftDown] at h
    split at h
    · rename_i hi
      injection h with h
      subst h
      right
      have := hs.2.1
      simp only at hi ⊢
      omega
    · cases h
  | leftUp i =>
    simp only [step, leftUp] at h
    split at h
    · injection h with h
      subst h
      exact hsel
    · cases h
  | rightDown i =>
    simp only [step, rightDown] at h
    split at h
    · split at h
      · injection h with h
        subst h
        exact hsel
      · simp only [Option.bind_eq_some] at h
        obtain ⟨_, _, box, hbox, boxes, hset, h⟩ := h
        injection h with h
        subst h
        exact same _ rfl (set_some hset)
    · cases h
  | delete =>
    simp only [step] at h
    by_cases hg : s.currentDialogueBox ≠ -1 ∧ s.currentDialogueBox ≠ 0
    · unfold deleteHandler at h
      rw [if_pos hg] at h
      simp only [Option.bind_eq_some] at h
      obtain ⟨_, _, _, _, _, _, _, _, _, _, _, _, _, _, _, _, _, _, _, _, h⟩ := h
      injection h with h
      subst h
      exact Or.inl rfl
    · unfold deleteHandler at h
      rw [if_neg hg] at h
      injection h with h
      subst h
      exact hsel
  | drag dx dz =>
    simp only [step, dragStep] at h
    split at h
    · simp only [Option.bind_eq_some] at h
      obtain ⟨_, _, _, _, _, _, _, _, h⟩ := h
      injection h with h
      subst h
      exact hsel
    · injection h with h
      subst h
      exact hsel
  | editText newText =>
    simp only [step] at h
    unfold editText at h
    split at h
    · simp only [Option.bind_eq_some] at h
      obtain ⟨box, hbox, boxes, hset, hup⟩ := h
      obtain ⟨P, Q, hb, hb1, hi⟩ := get_set_split hbox hset
      obtain ⟨y, hy, hfit⟩ := UpdateDialogueBox_some _ _ _ _ hup
      simp only [hb1, hi, get_mid, Option.some.injEq] at hy
      rw [← hy] at hfit
      refine UpdateDialogueBox_selected characters _ _ s1 ?_ hup
      exact WellFormed_replace s _ P Q box _ hs hb hb1 rfl rfl hfit rfl rfl
    · cases h
  | editEvent newEvent =>
    simp only [step, editEvent] at h
    split at h
    · simp only [Option.bind_eq_some] at h
      obtain ⟨box, hbox, boxes, hset, h⟩ := h
      injection h with h
      subst h
      exact same _ rfl (set_some hset)
    · cases h
  | load file => exact absurd rfl (hload file)
  | update dialogueIndex => exact UpdateDialogueBox_selected _ _ _ _ hs h

theorem loadPass1_currentDialogueBox (characters : Nat → Character) (json : List DocElement) :
    ∀ (s s1 : Editor), loadPass1 characters json s = some s1 →
      s1.currentDialogueBox = s.currentDialogueBox := by
  induction json with
  | nil =>
    intro s s1 h
    simp only [loadPass1, Option.some.injEq] at h
    rw [← h]
  | cons e rest ih =>
    intro s s1 h
    unfold loadPass1 at h
    split at h
    · cases h
    · simp only [Option.bind_eq_some] at h
      obtain ⟨s2, hc, nb, _, h⟩ := h
      have h2 := CreateDialogueBoxAtIndex_currentDialogueBox _ _ _ _ _ _ _ hc
      split at h
      · rw [ih _ _ h, h2]
      · split at h
        · cases h
        · simp only [Option.bind_eq_some] at h
          obtain ⟨boxes, _, h⟩ := h
          rw [ih _ _ h, h2]

theorem loadPass2_currentDialogueBox (json : List DocElement) :
    ∀ (i : Int) (s s1 : Editor), loadPass2 json i s = some s1 →
      s1.currentDialogueBox = s.currentDialogueBox := by
  induction json with
  | nil =>
    intro i s s1 h
    simp only [loadPass2, Option.some.injEq] at h
    rw [← h]
  | cons e rest ih =>
    intro i s s1 h
    unfold loadPass2 at h
    simp only at h
    split at h
    · split at h
      · cases h
      · simp only [Option.bind_eq_some] at h
        obtain ⟨_, _, _, _, s2, hloop, h⟩ := h
        rw [ih _ _ _ h]
        refine forUp_invariant (loadConnBody (e.connections.map wrapInt) i)
          (fun t => t.currentDialogueBox = s.currentDialogueBox) ?_ _ _ s s2 hloop rfl
        intro j t t1 ht hp
        unfold loadConnBody at ht
        simp only [Option.bind_eq_some] at ht
        obtain ⟨c, _, ht⟩ := ht
        split at ht
        · simp only [Option.bind_eq_some] at ht
          obtain ⟨_, _, _, _, _, _, ht⟩ := ht
          injection ht with ht
          subst ht
          exact hp
        · injection ht with ht
          subst ht
          exact hp
    · exact ih _ _ _ h

/-- The load never writes `currentDialogueBox`: the selection made before
the load is the selection after it, whatever the document holds. -/
theorem LoadDialogueBoxes_currentDialogueBox (characters : Nat → Character)
    (file : Option Document) (s s1 : Editor)
    (h : LoadDialogueBoxes characters file s = some s1) :
    s1.currentDialogueBox = s.currentDialogueBox := by
  unfold LoadDialogueBoxes at h
  simp only [Option.bind_eq_some] at h
  obtain ⟨ro, _, h⟩ := h
  cases file with
  | none =>
    injection h with h
    subst h
    rfl
  | some json =>
    simp only [Option.bind_eq_some] at h
    obtain ⟨s2, h1, h2⟩ := h
    rw [loadPass2_currentDialogueBox _ _ _ _ h2, loadPass1_currentDialogueBox _ _ _ _ h1]

/-- C16: the selection can outlive the node it names. From the initial graph,
a left click on node 0 followed by a load (here of a missing file) is a run
of public operations that ends with `currentDialogueBox = 1` and no node at
all, so the selection is neither -1 nor at most the node count; the
inspector's `slb_Vector_Get(dialogueBoxes, currentDialogueBox - 1)` is then
out of range, and the inspector and the delete handler run into undefined
behaviour. -/
theorem load_leaves_stale_selection :
    PublicReachable sampleFont staleSelectionGraph ∧
    staleSelectionGraph.currentDialogueBox = 1 ∧
    staleSelectionGraph.dialogueBoxes.length = 0 ∧
    ¬ Selected staleSelectionGraph ∧
    slb_Vector_Get staleSelectionGraph.dialogueBoxes
      (staleSelectionGraph.currentDialogueBox - 1) = none ∧
    editEvent [] staleSelectionGraph = none ∧
    deleteHandler staleSelectionGraph = none :=
  ⟨runFromStart_publicReachable sampleFont staleSelectionActions (by decide) (by decide),
   by decide, by decide, by decide, by decide, by decide, by decide⟩

/-! ### The lines of a text -/

theorem splitAtNewlines_ne_nil (s : List Char) : splitAtNewlines s ≠ [] := by
  cases s with
  | nil => simp [splitAtNewlines]
  | cons c cs =>
    unfold splitAtNewlines
    split
    · simp
    · split <;> simp

theorem splitAtNewlines_cons_of_ne (c : Char) (cs : List Char) (hc : c ≠ newline) :
    ∃ l ls, splitAtNewlines cs = l :: ls ∧ splitAtNewlines (c :: cs) = (c :: l) :: ls := by
  cases h : splitAtNewlines cs with
  | nil => exact absurd h (splitAtNewlines_ne_nil cs)
  | cons l ls =>
    refine ⟨l, ls, rfl, ?_⟩
    rw [splitAtNewlines, if_neg hc, h]

theorem splitAtNewlines_cons_newline (cs : List Char) :
    splitAtNewlines (newline :: cs) = [] :: splitAtNewlines cs := by
  rw [splitAtNewlines, if_pos rfl]

/-- Splitting at the first newline: the first line is what precedes it, the
other lines are those of the text behind it. -/
theorem splitAtNewlines_eq (s : List Char) :
    splitAtNewlines s = s.takeWhile (fun d => d != newline) ::
      (match s.dropWhile (fun d => d != newline) with
       | [] => []
       | _ :: r => splitAtNewlines r) := by
  induction s with
  | nil => rfl
  | cons c cs ih =>
    by_cases hc : c = newline
    · subst hc
      rw [splitAtNewlines_cons_newline]
      simp
    · obtain ⟨l, ls, h1, h2⟩ := splitAtNewlines_cons_of_ne c cs hc
      rw [h2]
      rw [h1] at ih
      injection ih with ih1 ih2
      have hb : (c != newline) = true := by simpa using hc
      simp only [List.takeWhile_cons, List.dropWhile_cons, hb, if_true]
      rw [← ih1, ← ih2]

theorem nonEmptyLines_nil : nonEmptyLines [] = [] := by
  rfl

theorem strtok_newline_cons (cs : List Char) : strtok (newline :: cs) = strtok cs := by
  unfold strtok
  simp

theorem nonEmptyLines_newline_cons (cs : List Char) :
    nonEmptyLines (newline :: cs) = nonEmptyLines cs := by
  unfold nonEmptyLines
  rw [splitAtNewlines_cons_newline]
  simp

theorem strtok_cons_of_ne (c : Char) (cs : List Char) (hc : c ≠ newline) :
    strtok (c :: cs) = some ((c :: cs).takeWhile (fun d => d != newline),
      ((c :: cs).dropWhile (fun d => d != newline)).drop 1) := by
  have hb : (c == newline) = false := by simpa using hc
  unfold strtok
  simp only [List.dropWhile_cons, hb, Bool.false_eq_true, if_false]

theorem nonEmptyLines_cons_of_ne (c : Char) (cs : List Char) (hc : c ≠ newline) :
    nonEmptyLines (c :: cs) = (c :: cs).takeWhile (fun d => d != newline) ::
      nonEmptyLines (((c :: cs).dropWhile (fun d => d != newline)).drop 1) := by
  have hb : (c != newline) = true := by simpa using hc
  unfold nonEmptyLines
  rw [splitAtNewlines_eq (c :: cs)]
  have hne : (c :: cs).takeWhile (fun d => d != newline) ≠ [] := by
    simp only [List.takeWhile_cons, hb, if_true]
    exact List.cons_ne_nil _ _
  rw [List.filter_cons_of_pos (by simpa using hne)]
  cases hd : (c :: cs).dropWhile (fun d => d != newline) with
  | nil => rfl
  | cons d r => rfl

/-- One call of `strtok` takes the first non-empty line off the text. -/
theorem nonEmptyLines_strtok (s : List Char) :
    nonEmptyLines s =
      match strtok s with
      | none => []
      | some (tok, rest) => tok :: nonEmptyLines rest := by
  induction s with
  | nil => rfl
  | cons c cs ih =>
    by_cases hc : c = newline
    · subst hc
      rw [strtok_newline_cons, nonEmptyLines_newline_cons]
      exact ih
    · rw [strtok_cons_of_ne c cs hc, nonEmptyLines_cons_of_ne c cs hc]

theorem strtok_rest_length (s tok rest : List Char) (h : strtok s = some (tok, rest)) :
    rest.length < s.length := by
  induction s with
  | nil => simp [strtok] at h
  | cons c cs ih =>
    by_cases hc : c = newline
    · subst hc
      rw [strtok_newline_cons] at h
      have := ih h
      simp only [List.length_cons]
      omega
    · rw [strtok_cons_of_ne c cs hc] at h
      injection h with h
      injection h with _ h2
      have hb : (c != newline) = true := by simpa using hc
      rw [← h2]
      simp only [List.dropWhile_cons, hb, if_true, List.length_drop, List.length_cons]
      have := (List.dropWhile_suffix (l := cs) (fun d => d != newline)).length_le
      omega

/-- The bounded token loop collects the first `n` non-empty lines. -/
theorem strtokLoop_eq (n : Nat) :
    ∀ (s : List Char), strtokLoop n s = (nonEmptyLines s).take n := by
  induction n with
  | zero => intro s; rfl
  | succ n ih =>
    intro s
    rw [nonEmptyLines_strtok s]
    unfold strtokLoop
    cases h : strtok s with
    | none => rfl
    | some p =>
      obtain ⟨tok, rest⟩ := p
      simp only [List.take_succ_cons, ih]

theorem strtokLoop_all (n : Nat) :
    ∀ (s : List Char), s.length ≤ n → strtokLoop n s = nonEmptyLines s := by
  induction n with
  | zero =>
    intro s hs
    have : s = [] := List.length_eq_zero.mp (by omega)
    subst this
    rfl
  | succ n ih =>
    intro s hs
    rw [nonEmptyLines_strtok s]
    unfold strtokLoop
    cases h : strtok s with
    | none => rfl
    | some p =>
      obtain ⟨tok, rest⟩ := p
      have := strtok_rest_length s tok rest h
      simp only [ih rest (by omega)]

/-- The unbounded token loop collects every non-empty line. -/
theorem strtokAll_eq (s : List Char) : strtokAll s = nonEmptyLines s :=
  strtokLoop_all s.length s (Nat.le_refl _)

theorem splitAtNewlines_append (a b : List Char) :
    splitAtNewlines (a ++ newline :: b) = splitAtNewlines a ++ splitAtNewlines b := by
  induction a with
  | nil =>
    rw [List.nil_append, splitAtNewlines_cons_newline]
    rfl
  | cons c cs ih =>
    by_cases hc : c = newline
    · subst hc
      rw [List.cons_append, splitAtNewlines_cons_newline, splitAtNewlines_cons_newline, ih]
      rfl
    · obtain ⟨l, ls, h1, h2⟩ := splitAtNewlines_cons_of_ne c cs hc
      obtain ⟨l2, ls2, h3, h4⟩ := splitAtNewlines_cons_of_ne c (cs ++ newline :: b) hc
      rw [List.cons_append, h4, h2]
      rw [ih, h1] at h3
      injection h3 with h5 h6
      rw [← h5, ← h6]
      rfl

theorem splitAtNewlines_of_not_mem (l : List Char) (h : newline ∉ l) :
    splitAtNewlines l = [l] := by
  induction l with
  | nil => rfl
  | cons c cs ih =>
    have hc : c ≠ newline := fun e => h (by rw [e]; exact List.mem_cons_self _ _)
    obtain ⟨l, ls, h1, h2⟩ := splitAtNewlines_cons_of_ne c cs hc
    rw [ih (fun hm => h (List.mem_cons_of_mem _ hm))] at h1
    injection h1 with h3 h4
    rw [h2, ← h3, ← h4]

theorem not_mem_of_mem_splitAtNewlines (s : List Char) :
    ∀ l ∈ splitAtNewlines s, newline ∉ l := by
  induction s with
  | nil =>
    intro l hl
    simp only [splitAtNewlines, List.mem_singleton] at hl
    subst hl
    exact List.not_mem_nil _
  | cons c cs ih =>
    intro l hl
    by_cases hc : c = newline
    · subst hc
      rw [splitAtNewlines_cons_newline, List.mem_cons] at hl
      rcases hl with rfl | hl
      · exact List.not_mem_nil _
      · exact ih l hl
    · obtain ⟨l1, ls, h1, h2⟩ := splitAtNewlines_cons_of_ne c cs hc
      rw [h2, List.mem_cons] at hl
      rw [h1] at ih
      rcases hl with rfl | hl
      · intro hm
        rw [List.mem_cons] at hm
        rcases hm with hm | hm
        · exact hc hm.symm
        · exact ih l1 (List.mem_cons_self _ _) hm
      · exact ih l (List.mem_cons_of_mem _ hl)

theorem nonEmptyLines_spec (s : List Char) :
    ∀ l ∈ nonEmptyLines s, l ≠ [] ∧ newline ∉ l := by
  intro l hl
  unfold nonEmptyLines at hl
  rw [List.mem_filter] at hl
  exact ⟨by simpa using hl.2, not_mem_of_mem_splitAtNewlines s l hl.1⟩

theorem nonEmptyLines_append (a b : List Char) :
    nonEmptyLines (a ++ newline :: b) = nonEmptyLines a ++ nonEmptyLines b := by
  unfold nonEmptyLines
  rw [splitAtNewlines_append, List.filter_append]

theorem nonEmptyLines_of_line (l : List Char) (h1 : l ≠ []) (h2 : newline ∉ l) :
    nonEmptyLines l = [l] := by
  unfold nonEmptyLines
  rw [splitAtNewlines_of_not_mem l h2]
  simp [h1]

/-- The reversed string splits into the lines in reverse order. -/
theorem nonEmptyLines_buildReversed :
    ∀ (lines : List (List Char)), (∀ l ∈ lines, l ≠ [] ∧ newline ∉ l) →
      nonEmptyLines (buildReversed lines) = lines.reverse := by
  intro lines
  induction lines with
  | nil => intro _; rfl
  | cons l rest ih =>
    intro h
    cases rest with
    | nil =>
      have := h l (List.mem_cons_self _ _)
      simp only [buildReversed, List.reverse_cons, List.reverse_nil, List.nil_append]
      exact nonEmptyLines_of_line l this.1 this.2
    | cons l2 rest =>
      have hl := h l (List.mem_cons_self _ _)
      rw [buildReversed, nonEmptyLines_append, ih (fun x hx => h x (List.mem_cons_of_mem _ hx)),
        nonEmptyLines_of_line l hl.1 hl.2, List.reverse_cons (a := l)]

/-- The lines the layout computes: the first 100 non-empty lines of the text,
in reverse order. -/
theorem layoutLines_eq (text : List Char) :
    layoutLines text = ((nonEmptyLines text).take 100).reverse := by
  unfold layoutLines
  rw [strtokAll_eq, strtokLoop_eq, nonEmptyLines_buildReversed]
  intro l hl
  exact nonEmptyLines_spec text l (List.mem_of_mem_take hl)

theorem layoutObjs_text (characters : Nat → Character) (pos : Vec2) (textScale bw bh : Rat) :
    ∀ (lines : List (List Char)) (y : Rat),
      (layoutObjs characters pos textScale bw bh lines y).map (fun t => t.text) = lines := by
  intro lines
  induction lines with
  | nil => intro y; rfl
  | cons l rest ih =>
    intro y
    simp only [layoutObjs, List.map_cons, ih]

theorem newTexts_text (characters : Nat → Character) (text : List Char) (pos : Vec2)
    (textScale : Rat) :
    (newTexts characters text pos textScale).map (fun t => t.text) = layoutLines text := by
  unfold newTexts
  rw [layoutObjs_text]

/-- C11, as the claim words it, fails on a text with an empty line: for
"a", newline, newline, "b" the node gets the two text objects "b", "a",
while the text split at each newline, in reverse order, is "b", "", "a". -/
theorem create_skips_empty_lines :
    (CreateDialogueBox sampleFont blankLineText ⟨0, 0⟩ (1 / 100) emptyEditor).map
        (fun t => (t.textObjects.map (fun o => o.text),
          t.dialogueBoxes.map (fun b => b.numTextObjects)))
      = some (["b".toList, "a".toList], [2]) ∧
    (splitAtNewlines blankLineText).reverse = ["b".toList, [], "a".toList] :=
  ⟨rfl, by decide⟩

/-- C11, amended: for every node text that fits the buffers and every valid
insertion index of a consistent store, `CreateDialogueBoxAtIndex` returns and
the text objects it creates for the node, in vector order (the run starting
at the node's `beginningTextIndex`, `numTextObjects` long), carry the
non-empty lines of the text split at the newlines, at most the first 100 of
them, in reverse order: the first typed line is the last text object, and
empty lines give no text object. -/
theorem create_fragments_are_reversed_lines (characters : Nat → Character)
    (text : List Char) (pos : Vec2) (textScale : Rat) (insertIndex : Int) (s : Editor)
    (hs : WellFormed s) (hfit : TextFits text) (h0 : 0 ≤ insertIndex)
    (h1 : insertIndex ≤ (s.dialogueBoxes.length : Int)) :
    ∃ s1 T1 F T2 nb,
      CreateDialogueBoxAtIndex characters text pos textScale insertIndex s = some s1 ∧
      s.textObjects = T1 ++ T2 ∧ s1.textObjects = T1 ++ (F ++ T2) ∧
      slb_Vector_Get s1.dialogueBoxes insertIndex = some nb ∧ nb.text = text ∧
      nb.beginningTextIndex = (T1.length : Int) ∧ nb.numTextObjects = (F.length : Int) ∧
      F.map (fun o => o.text) =
        (((splitAtNewlines text).filter (fun l => decide (l ≠ []))).take 100).reverse := by
  obtain ⟨P, Q, R1, R2, T1, T2, hi, hb, hr, hR1, ht, hT1⟩ := hs.splitAt insertIndex h0 h1
  subst hi
  refine ⟨_, T1, newTexts characters text pos textScale, T2, newBox text (numSum P),
    CreateDialogueBoxAtIndex_eq characters text pos textScale s P Q R1 R2 T1 T2 hb hr hR1 ht
      hT1 hfit, ht, rfl, get_mid _ _ _, rfl, hT1.symm, ?_, ?_⟩
  · rw [newTexts_length]
    rfl
  · rw [newTexts_text, layoutLines_eq]
    rfl

theorem create_fragments_are_reversed_lines_witness :
    WellFormed sampleGraph ∧ TextFits blankLineText ∧
    ∃ s1 T1 F T2 nb,
      CreateDialogueBoxAtIndex sampleFont blankLineText ⟨5, 5⟩ (1 / 100) 1 sampleGraph
        = some s1 ∧
      sampleGraph.textObjects = T1 ++ T2 ∧ s1.textObjects = T1 ++ (F ++ T2) ∧
      slb_Vector_Get s1.dialogueBoxes 1 = some nb ∧ nb.text = blankLineText ∧
      nb.beginningTextIndex = (T1.length : Int) ∧ nb.numTextObjects = (F.length : Int) ∧
      F.map (fun o => o.text) =
        (((splitAtNewlines blankLineText).filter (fun l => decide (l ≠ []))).take 100).reverse :=
  ⟨by decide, by decide,
   create_fragments_are_reversed_lines sampleFont blankLineText ⟨5, 5⟩ (1 / 100) 1 sampleGraph
     (by decide) (by decide) (by decide) (by decide)⟩

/-! ### Text runs -/

theorem runLines_append (A B : List DialogueBox) :
    runLines (A ++ B) = runLines A ++ runLines B := by
  simp only [runLines, List.map_append, List.flatten_append]

theorem runLines_cons (x : DialogueBox) (B : List DialogueBox) :
    runLines (x :: B) = layoutLines x.text ++ runLines B := by
  simp only [runLines, List.map_cons, List.flatten_cons]

theorem runLines_length (B : List DialogueBox)
    (h : ∀ b ∈ B, b.numTextObjects = ((layoutLines b.text).length : Int)) :
    ((runLines B).length : Int) = numSum B := by
  induction B with
  | nil => rfl
  | cons x B ih =>
    rw [runLines_cons, numSum_cons, List.length_append, Nat.cast_add,
      ih (fun b hb => h b (List.mem_cons_of_mem _ hb)), h x (List.mem_cons_self _ _)]

theorem runLines_congr (B B1 : List DialogueBox) (h : B1.map textKey = B.map textKey) :
    runLines B1 = runLines B := by
  have e : ∀ (L : List DialogueBox),
      runLines L = ((L.map textKey).map (fun p => layoutLines p.1)).flatten := by
    intro L
    simp only [runLines, List.map_map]
    rfl
  rw [e, e, h]

theorem counts_congr (B B1 : List DialogueBox) (h : B1.map textKey = B.map textKey)
    (hB : ∀ b ∈ B, b.numTextObjects = ((layoutLines b.text).length : Int)) :
    ∀ b ∈ B1, b.numTextObjects = ((layoutLines b.text).length : Int) := by
  intro b hb
  have h1 : textKey b ∈ B.map textKey := by
    rw [← h]
    exact List.mem_map_of_mem textKey hb
  rw [List.mem_map] at h1
  obtain ⟨c, hc, hk⟩ := h1
  simp only [textKey, Prod.mk.injEq] at hk
  rw [← hk.1, ← hk.2]
  exact hB c hc

theorem LaidParts.congr {T T1 : List TextObject} {B B1 : List DialogueBox}
    (h : LaidParts T B) (hT : T1.map (fun o => o.text) = T.map (fun o => o.text))
    (hB : B1.map textKey = B.map textKey) : LaidParts T1 B1 :=
  ⟨by rw [hT, h.1, runLines_congr B B1 hB], counts_congr B B1 hB h.2⟩

theorem LaidParts.append {T1 T2 : List TextObject} {B1 B2 : List DialogueBox}
    (h1 : LaidParts T1 B1) (h2 : LaidParts T2 B2) : LaidParts (T1 ++ T2) (B1 ++ B2) := by
  refine ⟨?_, ?_⟩
  · rw [List.map_append, runLines_append, h1.1, h2.1]
  · intro b hb
    rw [List.mem_append] at hb
    rcases hb with hb | hb
    · exact h1.2 b hb
    · exact h2.2 b hb

theorem LaidParts.split {T1 T2 : List TextObject} {B1 B2 : List DialogueBox}
    (h : LaidParts (T1 ++ T2) (B1 ++ B2)) (hlen : (T1.length : Int) = numSum B1) :
    LaidParts T1 B1 ∧ LaidParts T2 B2 := by
  obtain ⟨h1, h2⟩ := h
  have hc1 : ∀ b ∈ B1, b.numTextObjects = ((layoutLines b.text).length : Int) :=
    fun b hb => h2 b (List.mem_append_left _ hb)
  have hc2 : ∀ b ∈ B2, b.numTextObjects = ((layoutLines b.text).length : Int) :=
    fun b hb => h2 b (List.mem_append_right _ hb)
  rw [List.map_append, runLines_append] at h1
  have hl : (T1.map (fun o => o.text)).length = (runLines B1).length := by
    have := runLines_length B1 hc1
    rw [List.length_map]
    omega
  obtain ⟨e1, e2⟩ := List.append_inj h1 hl
  exact ⟨⟨e1, hc1⟩, ⟨e2, hc2⟩⟩

theorem LaidParts.single (F : List TextObject) (nb : DialogueBox)
    (hF : F.map (fun o => o.text) = layoutLines nb.text)
    (hn : nb.numTextObjects = ((layoutLines nb.text).length : Int)) : LaidParts F [nb] := by
  refine ⟨?_, ?_⟩
  · rw [hF, runLines_cons]
    simp only [runLines, List.map_nil, List.flatten_nil, List.append_nil]
  · intro b hb
    rw [List.mem_singleton] at hb
    rw [hb]
    exact hn

theorem LaidParts.splitRun {T1 M T2 : List TextObject} {P Q : List DialogueBox}
    {x : DialogueBox} (h : LaidParts (T1 ++ (M ++ T2)) (P ++ x :: Q))
    (hT1 : (T1.length : Int) = numSum P) (hM : (M.length : Int) = x.numTextObjects) :
    LaidParts T1 P ∧ LaidParts M [x] ∧ LaidParts T2 Q := by
  obtain ⟨h1, h2⟩ := h.split hT1
  have h3 : LaidParts (M ++ T2) ([x] ++ Q) := h2
  obtain ⟨h4, h5⟩ := h3.split (by rw [hM]; simp [numSum])
  exact ⟨h1, h4, h5⟩

theorem textKey_bump (delta : Int) (Q : List DialogueBox) :
    (Q.map (bump delta)).map textKey = Q.map textKey := by
  rw [List.map_map]
  rfl

theorem textKey_rebaseBox (c : Int) (Q : List DialogueBox) :
    (Q.map (rebaseBox c)).map textKey = Q.map textKey := by
  rw [List.map_map]
  rfl

/-- A run put between the runs of `P` and `Q`. -/
theorem LaidParts.rebuild {T1 T2 F : List TextObject} {P Q P1 Q1 : List DialogueBox}
    {nb : DialogueBox} (h1 : LaidParts T1 P) (h2 : LaidParts T2 Q)
    (hP : P1.map textKey = P.map textKey) (hQ : Q1.map textKey = Q.map textKey)
    (hF : F.map (fun o => o.text) = layoutLines nb.text)
    (hn : nb.numTextObjects = ((layoutLines nb.text).length : Int)) :
    LaidParts (T1 ++ (F ++ T2)) (P1 ++ nb :: Q1) := by
  have h3 : LaidParts (F ++ T2) ([nb] ++ Q1) :=
    (LaidParts.single F nb hF hn).append (h2.congr rfl hQ)
  exact (h1.congr rfl hP).append h3

theorem CreateDialogueBoxAtIndex_laid (characters : Nat → Character) (text : List Char)
    (pos : Vec2) (textScale : Rat) (insertIndex : Int) (s s1 : Editor) (hs : WellFormed s)
    (hl : Laid s)
    (h : CreateDialogueBoxAtIndex characters text pos textScale insertIndex s = some s1) :
    Laid s1 := by
  obtain ⟨h0, h1, hfit, _, _, _⟩ := CreateDialogueBoxAtIndex_some _ _ _ _ _ _ _ h
  have hle : insertIndex ≤ (s.dialogueBoxes.length : Int) := by
    have := hs.2.1
    omega
  obtain ⟨P, Q, R1, R2, T1, T2, hi, hb, hr, hR1, ht, hT1⟩ := hs.splitAt insertIndex h0 hle
  rw [hi, CreateDialogueBoxAtIndex_eq characters text pos textScale s P Q R1 R2 T1 T2 hb hr hR1
    ht hT1 hfit] at h
  injection h with h
  subst h
  unfold Laid at hl ⊢
  rw [hb, ht] at hl
  obtain ⟨l1, l2⟩ := hl.split hT1
  exact l1.rebuild l2 rfl (textKey_bump _ Q) (newTexts_text characters text pos textScale) rfl

theorem deleteHandler_laid (s s1 : Editor) (hs : WellFormed s) (hl : Laid s)
    (h : deleteHandler s = some s1) : Laid s1 := by
  by_cases hg : s.currentDialogueBox ≠ -1 ∧ s.currentDialogueBox ≠ 0
  · have h2 := h
    unfold deleteHandler at h2
    rw [if_pos hg] at h2
    simp only [Option.bind_eq_some] at h2
    obtain ⟨x, hx, _⟩ := h2
    obtain ⟨P, Q, hb, hi⟩ := get_split hx
    obtain ⟨R1, r, R2, T1, M, T2, hr, hR1, ht, hT1, hM, hsum, _⟩ := hs.decompose P Q x hb
    rw [deleteHandler_eq s P Q x R1 R2 r T1 M T2 hb (by omega) hr hR1 ht hT1 hM] at h
    injection h with h
    subst h
    unfold Laid at hl ⊢
    rw [hb, ht] at hl
    obtain ⟨l1, _, l2⟩ := hl.splitRun (by rw [hT1, hsum]) hM
    exact (l1.congr rfl (textKey_rebaseBox _ P)).append
      (l2.congr rfl (by rw [textKey_bump, textKey_rebaseBox]))
  · unfold deleteHandler at h
    rw [if_neg hg] at h
    injection h with h
    rw [← h]
    exact hl

/-- The rebuild of a node lays out its current text, whatever its old run
held, when the runs of the other nodes are laid out. -/
theorem UpdateDialogueBox_laid_of_parts (characters : Nat → Character) (s s1 : Editor)
    (P Q : List DialogueBox) (x : DialogueBox) (T1 M T2 : List TextObject)
    (hs : WellFormed s) (hb : s.dialogueBoxes = P ++ x :: Q)
    (ht : s.textObjects = T1 ++ (M ++ T2)) (hT1 : (T1.length : Int) = x.beginningTextIndex)
    (hM : (M.length : Int) = x.numTextObjects) (l1 : LaidParts T1 P) (l2 : LaidParts T2 Q)
    (h : UpdateDialogueBox characters (P.length : Int) s = some s1) : Laid s1 := by
  obtain ⟨y, hy, hfit⟩ := UpdateDialogueBox_some _ _ _ _ h
  rw [hb, get_mid] at hy
  injection hy with hy
  subst hy
  obtain ⟨R1, r, R2, U1, N, U2, hr, hR1, hu, hU1, hN, hsum, _⟩ := hs.decompose P Q x hb
  rw [UpdateDialogueBox_eq characters s P Q x R1 R2 r T1 M T2 hb hr hR1 ht hT1 hM hsum
    hfit] at h
  injection h with h
  subst h
  unfold Laid
  exact l1.rebuild l2 rfl (by rw [textKey_bump, textKey_bump])
    (newTexts_text characters x.text r.position (1 / 100)) rfl

theorem UpdateDialogueBox_laid (characters : Nat → Character) (dialogueIndex : Int)
    (s s1 : Editor) (hs : WellFormed s) (hl : Laid s)
    (h : UpdateDialogueBox characters dialogueIndex s = some s1) : Laid s1 := by
  obtain ⟨x, hx, hfit⟩ := UpdateDialogueBox_some _ _ _ _ h
  obtain ⟨P, Q, hb, hi⟩ := get_split hx
  obtain ⟨R1, r, R2, T1, M, T2, hr, hR1, ht, hT1, hM, hsum, _⟩ := hs.decompose P Q x hb
  unfold Laid at hl
  rw [hb, ht] at hl
  obtain ⟨l1, _, l2⟩ := hl.splitRun (by rw [hT1, hsum]) hM
  rw [hi] at h
  exact UpdateDialogueBox_laid_of_parts characters s s1 P Q x T1 M T2 hs hb ht hT1 hM l1 l2 h

theorem editText_laid (characters : Nat → Character) (newText : List Char)
    (s s1 : Editor) (hs : WellFormed s) (hl : Laid s)
    (h : editText characters newText s = some s1) : Laid s1 := by
  unfold editText at h
  split at h
  · simp only [Option.bind_eq_some] at h
    obtain ⟨box, hbox, boxes, hset, hup⟩ := h
    obtain ⟨P, Q, hb, hb1, hi⟩ := get_set_split hbox hset
    obtain ⟨y, hy, hfit⟩ := UpdateDialogueBox_some _ _ _ _ hup
    simp only [hb1, hi, get_mid, Option.some.injEq] at hy
    rw [← hy] at hfit
    have hs2 : WellFormed { s with dialogueBoxes := boxes } :=
      WellFormed_replace s _ P Q box _ hs hb hb1 rfl rfl hfit rfl rfl
    obtain ⟨R1, r, R2, T1, M, T2, hr, hR1, ht, hT1, hM, hsum, _⟩ := hs.decompose P Q box hb
    unfold Laid at hl
    rw [hb, ht] at hl
    obtain ⟨l1, _, l2⟩ := hl.splitRun (by rw [hT1, hsum]) hM
    rw [hi] at hup
    exact UpdateDialogueBox_laid_of_parts characters _ s1 P Q { box with text := newText }
      T1 M T2 hs2 hb1 ht hT1 hM l1 l2 hup
  · cases h

/-- Replacing one box by a box with the same text and count keeps the runs
laid out. -/
theorem Laid_replace (s s1 : Editor) (P Q : List DialogueBox) (x y : DialogueBox)
    (hl : Laid s) (hb : s.dialogueBoxes = P ++ x :: Q) (hb1 : s1.dialogueBoxes = P ++ y :: Q)
    (hk : textKey y = textKey x) (ht : s1.textObjects = s.textObjects) : Laid s1 := by
  unfold Laid at hl ⊢
  rw [hb1, ht]
  rw [hb] at hl
  exact hl.congr rfl (by simp only [List.map_append, List.map_cons, hk])

theorem dragTextLoop_text (dx dz : Rat) (n : Nat) (i : Int) (v v1 : List TextObject)
    (h : forUp (dragTextBody dx dz) n i v = some v1) :
    v1.map (fun o => o.text) = v.map (fun o => o.text) := by
  refine forUp_invariant (dragTextBody dx dz)
    (fun w => w.map (fun o => o.text) = v.map (fun o => o.text)) ?_ n i v v1 h rfl
  intro j w w1 hw hp
  simp only [dragTextBody, Option.bind_eq_some] at hw
  obtain ⟨b, hget, hset⟩ := hw
  obtain ⟨A, B, e1, e2, _⟩ := get_set_split hget hset
  rw [← hp, e1, e2]
  simp only [List.map_append, List.map_cons]

theorem loadPass1_laid (characters : Nat → Character) (json : List DocElement) :
    ∀ (s s1 : Editor), WellFormed s → Laid s → loadPass1 characters json s = some s1 →
      Laid s1 := by
  induction json with
  | nil =>
    intro s s1 _ hl h
    simp only [loadPass1, Option.some.injEq] at h
    rw [← h]
    exact hl
  | cons e rest ih =>
    intro s s1 hs hl h
    unfold loadPass1 at h
    split at h
    · cases h
    · simp only [Option.bind_eq_some] at h
      obtain ⟨s2, hc, newBox, hget, h⟩ := h
      have hs2 : WellFormed s2 := CreateDialogueBoxAtIndex_wellFormed _ _ _ _ _ _ _ hs hc
      have hl2 : Laid s2 := CreateDialogueBoxAtIndex_laid _ _ _ _ _ _ _ hs hl hc
      split at h
      · exact ih s2 s1 hs2 hl2 h
      · split at h
        · cases h
        · simp only [Option.bind_eq_some] at h
          obtain ⟨boxes, hset, h⟩ := h
          obtain ⟨P, Q, hb, hb1, _⟩ := get_set_split hget hset
          refine ih _ s1 ?_ ?_ h
          · exact WellFormed_replace s2 _ P Q newBox _ hs2 hb hb1 rfl rfl
              (hs2.2.2.2.2 newBox (by rw [hb]; simp)) rfl rfl
          · exact Laid_replace s2 _ P Q newBox _ hl2 hb hb1 rfl rfl

theorem loadConnBody_laid (connections : List Int) (i j : Int) (s s1 : Editor)
    (h : loadConnBody connections i j s = some s1) (hl : Laid s) : Laid s1 := by
  unfold loadConnBody at h
  simp only [Option.bind_eq_some] at h
  obtain ⟨c, _, h⟩ := h
  split at h
  · simp only [Option.bind_eq_some] at h
    obtain ⟨_, _, box, hbox, boxes, hset, h⟩ := h
    injection h with h
    subst h
    obtain ⟨P, Q, hb, hb1, _⟩ := get_set_split hbox hset
    exact Laid_replace s _ P Q box _ hl hb hb1 rfl rfl
  · injection h with h
    subst h
    exact hl

theorem loadPass2_laid (json : List DocElement) :
    ∀ (i : Int) (s s1 : Editor), Laid s → loadPass2 json i s = some s1 → Laid s1 := by
  induction json with
  | nil =>
    intro i s s1 hl h
    simp only [loadPass2, Option.some.injEq] at h
    rw [← h]
    exact hl
  | cons e rest ih =>
    intro i s s1 hl h
    unfold loadPass2 at h
    simp only at h
    split at h
    · split at h
      · cases h
      · simp only [Option.bind_eq_some] at h
        obtain ⟨_, _, _, _, s2, hloop, h⟩ := h
        refine ih (i + 1) s2 s1 ?_ h
        exact forUp_invariant _ Laid (loadConnBody_laid (e.connections.map wrapInt) i) _ _ _ _ hloop hl
    · exact ih (i + 1) s s1 hl h

theorem LoadDialogueBoxes_laid (characters : Nat → Character) (file : Option Document)
    (s s1 : Editor) (hs : WellFormed s)
    (h : LoadDialogueBoxes characters file s = some s1) : Laid s1 := by
  unfold LoadDialogueBoxes at h
  rw [clearRenderObjects_eq _ _ (Nat.le_refl _), Option.some_bind] at h
  have hclear : WellFormed
      { s with renderObjects := s.renderObjects.take 1, textObjects := [],
               dialogueBoxes := [], lineObjects := [] } := by
    refine ⟨rfl, ?_, rfl, ?_, ?_⟩
    · have := hs.2.1
      simp only [List.length_take, List.length_nil]
      omega
    · intro b hb; cases hb
    · intro b hb; cases hb
  have hlaid : Laid
      { s with renderObjects := s.renderObjects.take 1, textObjects := [],
               dialogueBoxes := [], lineObjects := [] } :=
    ⟨rfl, fun b hb => by cases hb⟩
  cases file with
  | none =>
    injection h with h
    rw [← h]
    exact hlaid
  | some json =>
    simp only [Option.bind_eq_some] at h
    obtain ⟨s2, h1, h2⟩ := h
    exact loadPass2_laid json 0 s2 s1 (loadPass1_laid characters json _ s2 hclear hlaid h1) h2

/-- Every operation keeps the text runs laid out. -/
theorem step_laid (characters : Nat → Character) (a : Action) (s s1 : Editor)
    (hs : WellFormed s) (hl : Laid s) (h : step characters a s = some s1) : Laid s1 := by
  cases a with
  | createAt text pos textScale insertIndex =>
    exact CreateDialogueBoxAtIndex_laid _ _ _ _ _ _ _ hs hl h
  | middleDown pos =>
    simp only [step, middleDown, CreateDialogueBox] at h
    exact CreateDialogueBoxAtIndex_laid _ _ _ _ _ _ _ hs hl h
  | leftDown i =>
    simp only [step, leftDown] at h
    split at h
    · injection h with h
      subst h
      exact hl
    · cases h
  | leftUp i =>
    simp only [step, leftUp] at h
    split at h
    · injection h with h
      subst h
      exact hl
    · cases h
  | rightDown i =>
    simp only [step, rightDown] at h
    split at h
    · split at h
      · injection h with h
        subst h
        exact hl
      · simp only [Option.bind_eq_some] at h
        obtain ⟨_, _, box, hbox, boxes, hset, h⟩ := h
        injection h with h
        subst h
        obtain ⟨P, Q, hb, hb1, _⟩ := get_set_split hbox hset
        exact Laid_replace s _ P Q box _ hl hb hb1 rfl rfl
    · cases h
  | delete => exact deleteHandler_laid s s1 hs hl h
  | drag dx dz =>
    simp only [step, dragStep] at h
    split at h
    · simp only [Option.bind_eq_some] at h
      obtain ⟨_, _, _, _, tx, htx, _, _, h⟩ := h
      injection h with h
      subst h
      exact LaidParts.congr hl (dragTextLoop_text _ _ _ _ _ _ htx) rfl
    · injection h with h
      subst h
      exact hl
  | editText newText => exact editText_laid _ _ _ _ hs hl h
  | editEvent newEvent =>
    simp only [step, editEvent] at h
    split at h
    · simp only [Option.bind_eq_some] at h
      obtain ⟨box, hbox, boxes, hset, h⟩ := h
      injection h with h
      subst h
      obtain ⟨P, Q, hb, hb1, _⟩ := get_set_split hbox hset
      exact Laid_replace s _ P Q box _ hl hb hb1 rfl rfl
    · cases h
  | load file => exact LoadDialogueBoxes_laid _ _ _ _ hs h
  | update dialogueIndex => exact UpdateDialogueBox_laid _ _ _ _ hs hl h

theorem Reachable.laid {characters : Nat → Character} {s : Editor}
    (h : Reachable characters s) : Laid s := by
  induction h with
  | init s h0 =>
    have hl : Laid emptyEditor := ⟨rfl, fun b hb => by cases hb⟩
    exact CreateDialogueBoxAtIndex_laid characters "Hello, world!".toList ⟨0, 1⟩ (1 / 100)
      emptyEditor.dialogueBoxes.length emptyEditor s emptyEditor_wellFormed hl h0
  | step a s s1 hr hstep ih => exact step_laid characters a s s1 hr.wellFormed ih hstep

/-- C19: in every state reachable through `CreateDialogueBoxAtIndex` at any
valid index, the delete handler, `UpdateDialogueBox`, `LoadDialogueBoxes`
(and the other operations of the editor), for every node `k` the text objects
at `[beginningTextIndex, beginningTextIndex + numTextObjects)` lie inside
`textObjects` and carry exactly the lines the text layout computes from the
text of node `k`, in layout order. -/
theorem text_run_is_own_layout (characters : Nat → Character) (s : Editor)
    (h : Reachable characters s) (k : Nat) (b : DialogueBox)
    (hk : s.dialogueBoxes[k]? = some b) :
    0 ≤ b.beginningTextIndex ∧ 0 ≤ b.numTextObjects ∧
    b.beginningTextIndex + b.numTextObjects ≤ (s.textObjects.length : Int) ∧
    ((s.textObjects.drop b.beginningTextIndex.toNat).take b.numTextObjects.toNat).map
        (fun o => o.text) = layoutLines b.text := by
  have hget : slb_Vector_Get s.dialogueBoxes (k : Int) = some b := by
    unfold slb_Vector_Get
    rw [if_pos (by omega), Int.toNat_ofNat]
    exact hk
  obtain ⟨P, Q, hb, _⟩ := get_split hget
  obtain ⟨R1, r, R2, T1, M, T2, hr, hR1, ht, hT1, hM, hsum, _⟩ := h.wellFormed.decompose P Q b hb
  have hl := h.laid
  unfold Laid at hl
  rw [hb, ht] at hl
  obtain ⟨_, l2, _⟩ := hl.splitRun (by rw [hT1, hsum]) hM
  have e1 : b.beginningTextIndex.toNat = T1.length := by omega
  have e2 : b.numTextObjects.toNat = M.length := by omega
  refine ⟨by omega, by omega, ?_, ?_⟩
  · rw [ht]
    simp only [List.length_append, Nat.cast_add]
    omega
  · rw [ht, e1, e2, drop_left_length, take_left_length, l2.1, runLines_cons]
    simp only [runLines, List.map_nil, List.flatten_nil, List.append_nil]

theorem text_run_is_own_layout_witness :
    Reachable sampleFont sampleGraph ∧ sampleGraph.dialogueBoxes[0]? = some sampleFirstNode ∧
    0 ≤ sampleFirstNode.beginningTextIndex ∧ 0 ≤ sampleFirstNode.numTextObjects ∧
    sampleFirstNode.beginningTextIndex + sampleFirstNode.numTextObjects
      ≤ (sampleGraph.textObjects.length : Int) ∧
    ((sampleGraph.textObjects.drop sampleFirstNode.beginningTextIndex.toNat).take
        sampleFirstNode.numTextObjects.toNat).map (fun o => o.text)
      = layoutLines sampleFirstNode.text :=
  ⟨runFromStart_reachable sampleFont sampleActions (by decide), by decide,
   text_run_is_own_layout sampleFont sampleGraph
     (runFromStart_reachable sampleFont sampleActions (by decide)) 0 sampleFirstNode
     (by decide)⟩

/-! ### Lines derived from the connections -/

theorem edgePairs_append (A B : List DialogueBox) :
    ∀ (k : Int), edgePairs k (A ++ B) = edgePairs k A ++ edgePairs (k + (A.length : Int)) B := by
  induction A with
  | nil =>
    intro k
    simp only [List.nil_append, edgePairs, List.length_nil, Nat.cast_zero, Int.add_zero]
  | cons a A ih =>
    intro k
    have e : k + 1 + (A.length : Int) = k + ((A.length : Int) + 1) := by omega
    rw [List.cons_append, edgePairs, edgePairs, ih (k + 1), List.append_assoc,
      List.length_cons, Nat.cast_add, Nat.cast_one, e]

theorem edgePairs_congr (A B : List DialogueBox)
    (h : A.map (fun b => b.connections) = B.map (fun b => b.connections)) :
    ∀ (k : Int), edgePairs k A = edgePairs k B := by
  induction A generalizing B with
  | nil =>
    intro k
    cases B with
    | nil => rfl
    | cons b B => simp at h
  | cons a A ih =>
    intro k
    cases B with
    | nil => simp at h
    | cons b B =>
      simp only [List.map_cons, List.cons.injEq] at h
      simp only [edgePairs, h.1, ih B h.2]

theorem pruneLines_append (d : Int) (A B : List LineObject) :
    pruneLines d (A ++ B) = pruneLines d A ++ pruneLines d B := by
  simp only [pruneLines, List.filter_append, List.map_append]

theorem pruneLines_pairs_self (d : Int) (conns : List Int) :
    pruneLines d (conns.map (fun e => (⟨d, e - 1⟩ : LineObject))) = [] := by
  induction conns with
  | nil => rfl
  | cons e rest ih =>
    simp only [pruneLines, List.map_cons] at ih ⊢
    rw [List.filter_cons_of_neg (by simp [keepLine_eq])]
    exact ih

theorem pruneLines_pairs (d k : Int) (hk : k ≠ d) (conns : List Int) :
    pruneLines d (conns.map (fun e => (⟨k, e - 1⟩ : LineObject)))
      = (rebaseConnections (d + 1) conns).map
          (fun e => (⟨if k > d then k - 1 else k, e - 1⟩ : LineObject)) := by
  induction conns with
  | nil => rfl
  | cons e rest ih =>
    simp only [pruneLines, rebaseConnections, List.map_cons] at ih ⊢
    by_cases he : e = d + 1
    · have h1 : keepLine d ⟨k, e - 1⟩ = false := by
        rw [keepLine_eq]
        simp only [decide_eq_false_iff_not]
        intro hc
        exact hc.2 (by omega)
      rw [List.filter_cons_of_neg (by simp [h1]), List.filter_cons_of_neg (by simp [he])]
      exact ih
    · have h1 : keepLine d ⟨k, e - 1⟩ = true := by
        rw [keepLine_eq]
        simp only [decide_eq_true_eq]
        exact ⟨hk, by omega⟩
      rw [List.filter_cons_of_pos h1, List.filter_cons_of_pos (by simpa using he)]
      simp only [List.map_cons, ih, List.cons.injEq, and_true]
      rw [lineShift_eq]
      simp only [LineObject.mk.injEq, true_and]
      by_cases h2 : e > d + 1
      · rw [if_pos h2, if_pos (by omega)]
      · rw [if_neg h2, if_neg (by omega)]

theorem pruneLines_edgePairs_before (d : Int) :
    ∀ (P : List DialogueBox) (k : Int), k + (P.length : Int) ≤ d →
      pruneLines d (edgePairs k P) = edgePairs k (P.map (rebaseBox (d + 1))) := by
  intro P
  induction P with
  | nil => intro k _; rfl
  | cons b P ih =>
    intro k hk
    simp only [List.length_cons, Nat.cast_add, Nat.cast_one] at hk
    have hkd : ¬ k > d := by omega
    simp only [edgePairs, List.map_cons, pruneLines_append, ih (k + 1) (by omega),
      pruneLines_pairs d k (by omega), rebaseBox, hkd, if_false]

theorem pruneLines_edgePairs_after (d : Int) :
    ∀ (Q : List DialogueBox) (k : Int), d < k →
      pruneLines d (edgePairs k Q) = edgePairs (k - 1) (Q.map (rebaseBox (d + 1))) := by
  intro Q
  induction Q with
  | nil => intro k _; rfl
  | cons b Q ih =>
    intro k hk
    have hkd : k > d := hk
    have e : k + 1 - 1 = k - 1 + 1 := by omega
    simp only [edgePairs, List.map_cons, pruneLines_append, ih (k + 1) (by omega),
      pruneLines_pairs d k (by omega), rebaseBox, hkd, if_true, e]

/-- The line pruning of the delete handler turns the lines derived before
the deletion into the lines derived after it. -/
theorem pruneLines_edgePairs (P Q : List DialogueBox) (x : DialogueBox) :
    pruneLines (P.length : Int) (edgePairs 0 (P ++ x :: Q))
      = edgePairs 0 (P.map (rebaseBox ((P.length : Int) + 1)) ++
          (Q.map (rebaseBox ((P.length : Int) + 1))).map (bump (-x.numTextObjects))) := by
  have hbump : edgePairs (0 + (P.length : Int))
      ((Q.map (rebaseBox ((P.length : Int) + 1))).map (bump (-x.numTextObjects)))
      = edgePairs (0 + (P.length : Int)) (Q.map (rebaseBox ((P.length : Int) + 1))) := by
    apply edgePairs_congr
    rw [List.map_map]
    rfl
  rw [edgePairs_append, edgePairs_append, List.length_map, hbump]
  simp only [edgePairs, pruneLines_append, Int.zero_add]
  rw [pruneLines_edgePairs_before _ P 0 (by omega), pruneLines_pairs_self,
    pruneLines_edgePairs_after _ Q _ (by omega), List.nil_append]
  simp only [Int.add_sub_cancel]

theorem pruneLines_perm (d : Int) (A B : List LineObject) (h : List.Perm A B) :
    List.Perm (pruneLines d A) (pruneLines d B) :=
  (h.filter _).map _

theorem connections_bump (delta : Int) (Q : List DialogueBox) :
    (Q.map (bump delta)).map (fun b => b.connections) = Q.map (fun b => b.connections) := by
  rw [List.map_map]
  rfl

/-- A change that keeps the lines and the connections of every box keeps
the lines derived. -/
theorem Drawn_of_connections (s s1 : Editor) (hd : Drawn s)
    (hl : s1.lineObjects = s.lineObjects)
    (hc : s1.dialogueBoxes.map (fun b => b.connections)
      = s.dialogueBoxes.map (fun b => b.connections)) : Drawn s1 := by
  unfold Drawn at hd ⊢
  rw [hl, edgePairs_congr _ _ hc 0]
  exact hd

theorem Drawn_replace (s s1 : Editor) (P Q : List DialogueBox) (x y : DialogueBox)
    (hd : Drawn s) (hb : s.dialogueBoxes = P ++ x :: Q) (hb1 : s1.dialogueBoxes = P ++ y :: Q)
    (hy : y.connections = x.connections) (hl : s1.lineObjects = s.lineObjects) : Drawn s1 := by
  refine Drawn_of_connections s s1 hd hl ?_
  rw [hb, hb1]
  simp only [List.map_append, List.map_cons, hy]

/-- One more connection on box `P.length` together with its line keeps the
lines derived. -/
theorem Drawn_connect (s s1 : Editor) (P Q : List DialogueBox) (x y : DialogueBox) (c : Int)
    (hd : Drawn s) (hb : s.dialogueBoxes = P ++ x :: Q) (hb1 : s1.dialogueBoxes = P ++ y :: Q)
    (hy : y.connections = x.connections ++ [c])
    (hl : s1.lineObjects = s.lineObjects ++ [⟨(P.length : Int), c - 1⟩]) : Drawn s1 := by
  unfold Drawn at hd ⊢
  rw [hb, edgePairs_append] at hd
  rw [hb1, hl, edgePairs_append]
  simp only [edgePairs, hy, List.map_append, List.map_cons, List.map_nil, Int.zero_add,
    List.append_assoc] at hd ⊢
  refine (hd.append_right _).trans ?_
  simp only [List.append_assoc]
  exact List.Perm.append_left _ (List.Perm.append_left _ List.perm_append_comm)

theorem CreateDialogueBox_drawn (characters : Nat → Character) (text : List Char) (pos : Vec2)
    (textScale : Rat) (s s1 : Editor) (hs : WellFormed s) (hd : Drawn s)
    (h : CreateDialogueBox characters text pos textScale s = some s1) : Drawn s1 := by
  have hfit : TextFits text := by
    unfold CreateDialogueBox at h
    exact (CreateDialogueBoxAtIndex_some _ _ _ _ _ _ _ h).2.2.1
  rw [CreateDialogueBox_eq characters text pos textScale s hs hfit] at h
  injection h with h
  subst h
  unfold Drawn at hd ⊢
  simp only [edgePairs_append, edgePairs, newBox, List.map_nil, List.append_nil]
  exact hd

theorem deleteHandler_drawn (s s1 : Editor) (hs : WellFormed s) (hd : Drawn s)
    (h : deleteHandler s = some s1) : Drawn s1 := by
  by_cases hg : s.currentDialogueBox ≠ -1 ∧ s.currentDialogueBox ≠ 0
  · have h2 := h
    unfold deleteHandler at h2
    rw [if_pos hg] at h2
    simp only [Option.bind_eq_some] at h2
    obtain ⟨x, hx, _⟩ := h2
    obtain ⟨P, Q, hb, hi⟩ := get_split hx
    obtain ⟨R1, r, R2, T1, M, T2, hr, hR1, ht, hT1, hM, hsum, _⟩ := hs.decompose P Q x hb
    rw [deleteHandler_eq s P Q x R1 R2 r T1 M T2 hb (by omega) hr hR1 ht hT1 hM] at h
    injection h with h
    subst h
    unfold Drawn at hd ⊢
    rw [hb] at hd
    simp only
    rw [← pruneLines_edgePairs P Q x]
    exact pruneLines_perm _ _ _ hd
  · unfold deleteHandler at h
    rw [if_neg hg] at h
    injection h with h
    rw [← h]
    exact hd

theorem UpdateDialogueBox_drawn (characters : Nat → Character) (dialogueIndex : Int)
    (s s1 : Editor) (hs : WellFormed s) (hd : Drawn s)
    (h : UpdateDialogueBox characters dialogueIndex s = some s1) : Drawn s1 := by
  obtain ⟨x, hx, hfit⟩ := UpdateDialogueBox_some _ _ _ _ h
  obtain ⟨P, Q, hb, hi⟩ := get_split hx
  obtain ⟨R1, r, R2, T1, M, T2, hr, hR1, ht, hT1, hM, hsum, _⟩ := hs.decompose P Q x hb
  rw [hi, UpdateDialogueBox_eq characters s P Q x R1 R2 r T1 M T2 hb hr hR1 ht hT1 hM hsum
    hfit] at h
  injection h with h
  subst h
  refine Drawn_of_connections s _ hd rfl ?_
  rw [hb]
  simp only [List.map_append, List.map_cons, connections_bump]

theorem editText_drawn (characters : Nat → Character) (newText : List Char)
    (s s1 : Editor) (hs : WellFormed s) (hd : Drawn s)
    (h : editText characters newText s = some s1) : Drawn s1 := by
  unfold editText at h
  split at h
  · simp only [Option.bind_eq_some] at h
    obtain ⟨box, hbox, boxes, hset, hup⟩ := h
    obtain ⟨P, Q, hb, hb1, hi⟩ := get_set_split hbox hset
    obtain ⟨y, hy, hfit⟩ := UpdateDialogueBox_some _ _ _ _ hup
    simp only [hb1, hi, get_mid, Option.some.injEq] at hy
    rw [← hy] at hfit
    have hs2 : WellFormed { s with dialogueBoxes := boxes } :=
      WellFormed_replace s _ P Q box _ hs hb hb1 rfl rfl hfit rfl rfl
    have hd2 : Drawn { s with dialogueBoxes := boxes } :=
      Drawn_replace s _ P Q box _ hd hb hb1 rfl rfl
    exact UpdateDialogueBox_drawn characters _ _ s1 hs2 hd2 hup
  · cases h

theorem rightDown_drawn (i : Int) (s s1 : Editor) (hd : Drawn s)
    (h : rightDown i s = some s1) : Drawn s1 := by
  unfold rightDown at h
  split at h
  · split at h
    · injection h with h
      subst h
      exact hd
    · simp only [Option.bind_eq_some] at h
      obtain ⟨_, _, box, hbox, boxes, hset, h⟩ := h
      injection h with h
      subst h
      obtain ⟨P, Q, hb, hb1, hi⟩ := get_set_split hbox hset
      refine Drawn_connect s _ P Q box _ i hd hb hb1 rfl ?_
      simp only [slb_Vector_PushBack, hi]
  · cases h

theorem loadPass1_drawn (characters : Nat → Character) (json : List DocElement) :
    ∀ (s s1 : Editor), WellFormed s → Drawn s → loadPass1 characters json s = some s1 →
      Drawn s1 := by
  induction json with
  | nil =>
    intro s s1 _ hd h
    simp only [loadPass1, Option.some.injEq] at h
    rw [← h]
    exact hd
  | cons e rest ih =>
    intro s s1 hs hd h
    unfold loadPass1 at h
    split at h
    · cases h
    · simp only [Option.bind_eq_some] at h
      obtain ⟨s2, hc, newBox, hget, h⟩ := h
      have hs2 : WellFormed s2 := CreateDialogueBoxAtIndex_wellFormed _ _ _ _ _ _ _ hs hc
      have hd2 : Drawn s2 := CreateDialogueBox_drawn _ _ _ _ _ _ hs hd hc
      split at h
      · exact ih s2 s1 hs2 hd2 h
      · split at h
        · cases h
        · simp only [Option.bind_eq_some] at h
          obtain ⟨boxes, hset, h⟩ := h
          obtain ⟨P, Q, hb, hb1, _⟩ := get_set_split hget hset
          refine ih _ s1 ?_ ?_ h
          · exact WellFormed_replace s2 _ P Q newBox _ hs2 hb hb1 rfl rfl
              (hs2.2.2.2.2 newBox (by rw [hb]; simp)) rfl rfl
          · exact Drawn_replace s2 _ P Q newBox _ hd2 hb hb1 rfl rfl

theorem loadConnBody_drawn (connections : List Int) (i j : Int) (s s1 : Editor)
    (h : loadConnBody connections i j s = some s1) (hd : Drawn s) : Drawn s1 := by
  unfold loadConnBody at h
  simp only [Option.bind_eq_some] at h
  obtain ⟨c, _, h⟩ := h
  split at h
  · simp only [Option.bind_eq_some] at h
    obtain ⟨_, _, box, hbox, boxes, hset, h⟩ := h
    injection h with h
    subst h
    obtain ⟨P, Q, hb, hb1, hi⟩ := get_set_split hbox hset
    refine Drawn_connect s _ P Q box _ (c - 1 + 1) hd hb hb1 rfl ?_
    simp only [slb_Vector_PushBack, hi, Int.add_sub_cancel]
  · injection h with h
    subst h
    exact hd

theorem loadPass2_drawn (json : List DocElement) :
    ∀ (i : Int) (s s1 : Editor), Drawn s → loadPass2 json i s = some s1 → Drawn s1 := by
  induction json with
  | nil =>
    intro i s s1 hd h
    simp only [loadPass2, Option.some.injEq] at h
    rw [← h]
    exact hd
  | cons e rest ih =>
    intro i s s1 hd h
    unfold loadPass2 at h
    simp only at h
    split at h
    · split at h
      · cases h
      · simp only [Option.bind_eq_some] at h
        obtain ⟨_, _, _, _, s2, hloop, h⟩ := h
        refine ih (i + 1) s2 s1 ?_ h
        exact forUp_invariant _ Drawn (loadConnBody_drawn (e.connections.map wrapInt) i) _ _ _ _ hloop hd
    · exact ih (i + 1) s s1 hd h

theorem LoadDialogueBoxes_drawn (characters : Nat → Character) (file : Option Document)
    (s s1 : Editor) (hs : WellFormed s)
    (h : LoadDialogueBoxes characters file s = some s1) : Drawn s1 := by
  unfold LoadDialogueBoxes at h
  rw [clearRenderObjects_eq _ _ (Nat.le_refl _), Option.some_bind] at h
  have hclear : WellFormed
      { s with renderObjects := s.renderObjects.take 1, textObjects := [],
               dialogueBoxes := [], lineObjects := [] } := by
    refine ⟨rfl, ?_, rfl, ?_, ?_⟩
    · have := hs.2.1
      simp only [List.length_take, List.length_nil]
      omega
    · intro b hb; cases hb
    · intro b hb; cases hb
  have hdrawn : Drawn
      { s with renderObjects := s.renderObjects.take 1, textObjects := [],
               dialogueBoxes := [], lineObjects := [] } := List.Perm.refl _
  cases file with
  | none =>
    injection h with h
    rw [← h]
    exact hdrawn
  | some json =>
    simp only [Option.bind_eq_some] at h
    obtain ⟨s2, h1, h2⟩ := h
    exact loadPass2_drawn json 0 s2 s1 (loadPass1_drawn characters json _ s2 hclear hdrawn h1)
      h2

/-- Every public operation keeps the lines derived from the connections. -/
theorem step_drawn (characters : Nat → Character) (a : Action) (s s1 : Editor)
    (hs : WellFormed s) (hd : Drawn s) (ha : a.isPublic = true)
    (h : step characters a s = some s1) : Drawn s1 := by
  cases a with
  | createAt text pos textScale insertIndex => cases ha
  | middleDown pos =>
    simp only [step, middleDown] at h
    exact CreateDialogueBox_drawn _ _ _ _ _ _ hs hd h
  | leftDown i =>
    simp only [step, leftDown] at h
    split at h
    · injection h with h
      subst h
      exact hd
    · cases h
  | leftUp i =>
    simp only [step, leftUp] at h
    split at h
    · injection h with h
      subst h
      exact hd
    · cases h
  | rightDown i => exact rightDown_drawn i s s1 hd h
  | delete => exact deleteHandler_drawn s s1 hs hd h
  | drag dx dz =>
    simp only [step, dragStep] at h
    split at h
    · simp only [Option.bind_eq_some] at h
      obtain ⟨_, _, _, _, tx, htx, _, _, h⟩ := h
      injection h with h
      subst h
      exact hd
    · injection h with h
      subst h
      exact hd
  | editText newText => exact editText_drawn _ _ _ _ hs hd h
  | editEvent newEvent =>
    simp only [step, editEvent] at h
    split at h
    · simp only [Option.bind_eq_some] at h
      obtain ⟨box, hbox, boxes, hset, h⟩ := h
      injection h with h
      subst h
      obtain ⟨P, Q, hb, hb1, _⟩ := get_set_split hbox hset
      exact Drawn_replace s _ P Q box _ hd hb hb1 rfl rfl
    · cases h
  | load file => exact LoadDialogueBoxes_drawn _ _ _ _ hs h
  | update dialogueIndex => cases ha

theorem PublicReachable.drawn {characters : Nat → Character} {s : Editor}
    (h : PublicReachable characters s) : Drawn s := by
  induction h with
  | init s h0 =>
    exact CreateDialogueBox_drawn characters "Hello, world!".toList ⟨0, 1⟩ (1 / 100)
      emptyEditor s emptyEditor_wellFormed (List.Perm.refl _) h0
  | step a s s1 hr ha hstep ih =>
    exact step_drawn characters a s s1 hr.reachable.wellFormed ih ha hstep

/-- C28: on a consistent store, for a text that fits the buffers and a valid
insertion index, `CreateDialogueBoxAtIndex` returns and the node it inserts at
`insertIndex` stores the caller's text as given (not the reversed form the
layout uses), an empty event and no connections. -/
theorem created_node_stores_text (characters : Nat → Character) (text : List Char)
    (pos : Vec2) (textScale : Rat) (insertIndex : Int) (s : Editor)
    (hs : WellFormed s) (hfit : TextFits text) (h0 : 0 ≤ insertIndex)
    (h1 : insertIndex ≤ (s.dialogueBoxes.length : Int)) :
    ∃ s1 nb, CreateDialogueBoxAtIndex characters text pos textScale insertIndex s = some s1 ∧
      slb_Vector_Get s1.dialogueBoxes insertIndex = some nb ∧
      nb.text = text ∧ nb.event = [] ∧ nb.connections = [] := by
  obtain ⟨P, Q, R1, R2, T1, T2, hi, hb, hr, hR1, ht, hT1⟩ := hs.splitAt insertIndex h0 h1
  subst hi
  exact ⟨_, newBox text (numSum P),
    CreateDialogueBoxAtIndex_eq characters text pos textScale s P Q R1 R2 T1 T2 hb hr hR1 ht
      hT1 hfit, get_mid _ _ _, rfl, rfl, rfl⟩

theorem created_node_stores_text_witness :
    WellFormed sampleGraph ∧ TextFits sampleText ∧
    layoutLines sampleText = ["b".toList, "a".toList] ∧
    ∃ s1 nb, CreateDialogueBoxAtIndex sampleFont sampleText ⟨5, 5⟩ (1 / 100) 1 sampleGraph
        = some s1 ∧
      slb_Vector_Get s1.dialogueBoxes 1 = some nb ∧
      nb.text = sampleText ∧ nb.event = [] ∧ nb.connections = [] :=
  ⟨by decide, by decide, by decide,
   created_node_stores_text sampleFont sampleText ⟨5, 5⟩ (1 / 100) 1 sampleGraph
     (by decide) (by decide) (by decide) (by decide)⟩

/-- C21: on a consistent store, for a text that fits the buffers and a valid
insertion index, `CreateDialogueBoxAtIndex` returns with `lineObjects` exactly
as it was, and the nodes other than the new one carry, in the same order, the
connections they carried before: no edge value and no line index is touched
by an insert. -/
theorem create_keeps_edges_and_lines (characters : Nat → Character) (text : List Char)
    (pos : Vec2) (textScale : Rat) (insertIndex : Int) (s : Editor)
    (hs : WellFormed s) (hfit : TextFits text) (h0 : 0 ≤ insertIndex)
    (h1 : insertIndex ≤ (s.dialogueBoxes.length : Int)) :
    ∃ s1, CreateDialogueBoxAtIndex characters text pos textScale insertIndex s = some s1 ∧
      s1.lineObjects = s.lineObjects ∧
      (s1.dialogueBoxes.eraseIdx insertIndex.toNat).map (fun b => b.connections)
        = s.dialogueBoxes.map (fun b => b.connections) := by
  obtain ⟨P, Q, R1, R2, T1, T2, hi, hb, hr, hR1, ht, hT1⟩ := hs.splitAt insertIndex h0 h1
  subst hi
  refine ⟨_, CreateDialogueBoxAtIndex_eq characters text pos textScale s P Q R1 R2 T1 T2 hb hr
    hR1 ht hT1 hfit, rfl, ?_⟩
  rw [Int.toNat_ofNat, hb]
  simp only [eraseIdx_mid, List.map_append, connections_bump]

theorem create_keeps_edges_and_lines_witness :
    WellFormed sampleGraph ∧ TextFits sampleText ∧
    ∃ s1, CreateDialogueBoxAtIndex sampleFont sampleText ⟨5, 5⟩ (1 / 100) 1 sampleGraph
        = some s1 ∧
      s1.lineObjects = sampleGraph.lineObjects ∧
      (s1.dialogueBoxes.eraseIdx (1 : Int).toNat).map (fun b => b.connections)
        = sampleGraph.dialogueBoxes.map (fun b => b.connections) :=
  ⟨by decide, by decide,
   create_keeps_edges_and_lines sampleFont sampleText ⟨5, 5⟩ (1 / 100) 1 sampleGraph
     (by decide) (by decide) (by decide) (by decide)⟩

/-- C22: on a consistent store with node `i` selected, the delete handler
returns; the node list is the old one without node `i`, every other node
keeping its text, event and `numTextObjects`; the anchor list is the old one
without the anchor at `i + 1`; and `textObjects` is the old vector without
the positions `[beginningTextIndex, beginningTextIndex + numTextObjects)` of
node `i`, the text objects before and behind them in their old order. -/
theorem delete_removes_node_anchor_run (s : Editor) (i : Nat) (hs : WellFormed s)
    (hi : i < s.dialogueBoxes.length) (hcur : s.currentDialogueBox = (i : Int) + 1) :
    ∃ s1 b, deleteHandler s = some s1 ∧ s.dialogueBoxes[i]? = some b ∧
      s1.dialogueBoxes.map (fun b => (b.text, b.event, b.numTextObjects)) =
        (s.dialogueBoxes.eraseIdx i).map (fun b => (b.text, b.event, b.numTextObjects)) ∧
      s1.renderObjects = s.renderObjects.eraseIdx (i + 1) ∧
      0 ≤ b.beginningTextIndex ∧ 0 ≤ b.numTextObjects ∧
      b.beginningTextIndex + b.numTextObjects ≤ (s.textObjects.length : Int) ∧
      s1.textObjects = s.textObjects.take b.beginningTextIndex.toNat ++
        s.textObjects.drop (b.beginningTextIndex + b.numTextObjects).toNat := by
  obtain ⟨P, x, Q, hb, hP⟩ := split_mid s.dialogueBoxes i hi
  obtain ⟨R1, r, R2, T1, M, T2, hr, hR1, ht, hT1, hM, _, _⟩ := hs.decompose P Q x hb
  subst hP
  have e1 : x.beginningTextIndex.toNat = T1.length := by omega
  have e2 : (x.beginningTextIndex + x.numTextObjects).toNat = T1.length + M.length := by omega
  refine ⟨_, x, deleteHandler_eq s P Q x R1 R2 r T1 M T2 hb hcur hr hR1 ht hT1 hM, ?_, ?_, ?_,
    by omega, by omega, ?_, ?_⟩
  · rw [hb]
    exact getElem?_mid P Q x
  · simp only [hb, eraseIdx_mid, List.map_append, List.map_map, Function.comp_def, rebaseBox,
      bump]
  · rw [hr, ← hR1, eraseIdx_mid]
  · rw [ht]
    simp only [List.length_append, Nat.cast_add]
    omega
  · rw [e1, e2, ht, take_left_length, ← List.append_assoc, ← List.length_append,
      drop_left_length]

theorem delete_removes_node_anchor_run_witness :
    WellFormed sampleGraph ∧ 1 < sampleGraph.dialogueBoxes.length ∧
    sampleGraph.currentDialogueBox = ((1 : Nat) : Int) + 1 ∧
    ∃ s1 b, deleteHandler sampleGraph = some s1 ∧ sampleGraph.dialogueBoxes[1]? = some b ∧
      s1.dialogueBoxes.map (fun b => (b.text, b.event, b.numTextObjects)) =
        (sampleGraph.dialogueBoxes.eraseIdx 1).map
          (fun b => (b.text, b.event, b.numTextObjects)) ∧
      s1.renderObjects = sampleGraph.renderObjects.eraseIdx (1 + 1) ∧
      0 ≤ b.beginningTextIndex ∧ 0 ≤ b.numTextObjects ∧
      b.beginningTextIndex + b.numTextObjects ≤ (sampleGraph.textObjects.length : Int) ∧
      s1.textObjects = sampleGraph.textObjects.take b.beginningTextIndex.toNat ++
        sampleGraph.textObjects.drop (b.beginningTextIndex + b.numTextObjects).toNat :=
  ⟨by decide, by decide, by decide,
   delete_removes_node_anchor_run sampleGraph 1 (by decide) (by decide) (by decide)⟩

/-! ### Export, fragment count and line indices -/

theorem exportLoop_eq (s : Editor) :
    ∀ (n : Nat) (i : Int) (acc : Document),
      forUp (exportBody s) n i (acc.map stripPosition)
        = (forUp (saveBody s) n i acc).map (List.map stripPosition) := by
  intro n
  induction n with
  | zero => intro i acc; rfl
  | succ n ih =>
    intro i acc
    simp only [forUp, exportBody, saveBody]
    cases slb_Vector_Get s.dialogueBoxes i with
    | none => rfl
    | some box =>
      cases slb_Vector_Get s.renderObjects (i + 1) with
      | none => rfl
      | some obj =>
        simp only [Option.some_bind]
        rw [← ih (i + 1)]
        simp only [List.map_append, List.map_cons, List.map_nil, stripPosition]

/-- C24: for every graph, Export is defined exactly when Save is, and the
document it builds is the one Save builds with the position removed from every
element: the same elements in the same order with the same text, event and
connections. -/
theorem export_eq_save_without_position (s : Editor) :
    Export s = (Save s).map (List.map stripPosition) :=
  exportLoop_eq s s.dialogueBoxes.length 0 []

/-- C27: on a consistent store, for a text that fits the buffers and a valid
insertion index, `CreateDialogueBoxAtIndex` returns; `numTextObjects` of the
new node and the number of text objects created are the minimum of 100 and
the number of non-empty lines of the text; the text objects carry the first
that many non-empty lines in reverse order; tokenizing the reversed text
gives as many lines as the first tokenization; and the empty text gives a
node without text objects. -/
theorem fragment_count_is_min (characters : Nat → Character)
    (text : List Char) (pos : Vec2) (textScale : Rat) (insertIndex : Int) (s : Editor)
    (hs : WellFormed s) (hfit : TextFits text) (h0 : 0 ≤ insertIndex)
    (h1 : insertIndex ≤ (s.dialogueBoxes.length : Int)) :
    (∃ s1 T1 F T2 nb,
      CreateDialogueBoxAtIndex characters text pos textScale insertIndex s = some s1 ∧
      s.textObjects = T1 ++ T2 ∧ s1.textObjects = T1 ++ (F ++ T2) ∧
      slb_Vector_Get s1.dialogueBoxes insertIndex = some nb ∧
      nb.numTextObjects = ((min 100 (nonEmptyLines text).length : Nat) : Int) ∧
      F.length = min 100 (nonEmptyLines text).length ∧
      F.map (fun o => o.text) =
        ((nonEmptyLines text).take (min 100 (nonEmptyLines text).length)).reverse) ∧
    (strtokAll (buildReversed (strtokLoop 100 text))).length = (strtokLoop 100 text).length ∧
    (CreateDialogueBox characters [] pos textScale emptyEditor).map
        (fun t => (t.textObjects.length, t.dialogueBoxes.map (fun b => b.numTextObjects)))
      = some (0, [0]) := by
  have hlen : (layoutLines text).length = min 100 (nonEmptyLines text).length := by
    rw [layoutLines_eq, List.length_reverse, List.length_take]
  have htake : (nonEmptyLines text).take (min 100 (nonEmptyLines text).length)
      = (nonEmptyLines text).take 100 := by
    rw [List.take_eq_take]
    simp
  refine ⟨?_, ?_, rfl⟩
  · obtain ⟨P, Q, R1, R2, T1, T2, hi, hb, hr, hR1, ht, hT1⟩ := hs.splitAt insertIndex h0 h1
    subst hi
    refine ⟨_, T1, newTexts characters text pos textScale, T2, newBox text (numSum P),
      CreateDialogueBoxAtIndex_eq characters text pos textScale s P Q R1 R2 T1 T2 hb hr hR1 ht
        hT1 hfit, ht, rfl, get_mid _ _ _, ?_, ?_, ?_⟩
    · simp only [newBox, hlen]
    · rw [newTexts_length, hlen]
    · rw [newTexts_text, layoutLines_eq, htake]
  · have h := hlen
    unfold layoutLines at h
    rw [h, strtokLoop_eq, List.length_take]

theorem fragment_count_is_min_witness :
    WellFormed sampleGraph ∧ TextFits blankLineText ∧
    ∃ s1 T1 F T2 nb,
      CreateDialogueBoxAtIndex sampleFont blankLineText ⟨5, 5⟩ (1 / 100) 1 sampleGraph
        = some s1 ∧
      sampleGraph.textObjects = T1 ++ T2 ∧ s1.textObjects = T1 ++ (F ++ T2) ∧
      slb_Vector_Get s1.dialogueBoxes 1 = some nb ∧
      nb.numTextObjects = ((min 100 (nonEmptyLines blankLineText).length : Nat) : Int) ∧
      F.length = min 100 (nonEmptyLines blankLineText).length ∧
      F.map (fun o => o.text) =
        ((nonEmptyLines blankLineText).take
          (min 100 (nonEmptyLines blankLineText).length)).reverse :=
  ⟨by decide, by decide,
   (fragment_count_is_min sampleFont blankLineText ⟨5, 5⟩ (1 / 100) 1 sampleGraph
     (by decide) (by decide) (by decide) (by decide)).1⟩

theorem mem_edgePairs (l : LineObject) :
    ∀ (boxes : List DialogueBox) (k : Int), l ∈ edgePairs k boxes →
      k ≤ l.firstBoxIndex ∧ l.firstBoxIndex < k + (boxes.length : Int) ∧
      ∃ b ∈ boxes, ∃ e ∈ b.connections, l.secondBoxIndex = e - 1 := by
  intro boxes
  induction boxes with
  | nil =>
    intro k h
    simp only [edgePairs, List.not_mem_nil] at h
  | cons b rest ih =>
    intro k h
    simp only [edgePairs, List.mem_append, List.mem_map] at h
    simp only [List.length_cons, Nat.cast_add, Nat.cast_one]
    rcases h with ⟨e, he, rfl⟩ | h
    · exact ⟨Int.le_refl _, by simp only; omega, b, List.mem_cons_self _ _, e, he, rfl⟩
    · obtain ⟨h1, h2, c, hc, e, he, h3⟩ := ih (k + 1) h
      exact ⟨by omega, by omega, c, List.mem_cons_of_mem _ hc, e, he, h3⟩

theorem unitLoop_some (body : Int → Unit → Option Unit) (len : Nat)
    (h : ∀ (i : Int), 0 ≤ i → i < len → body i () = some ()) :
    ∀ (n : Nat) (i : Int), 0 ≤ i → i + n ≤ len → forUp body n i () = some () := by
  intro n
  induction n with
  | zero => intro i _ _; rfl
  | succ n ih =>
    intro i h0 h1
    simp only [Nat.cast_add, Nat.cast_one] at h1
    simp only [forUp, h i h0 (by omega), Option.some_bind]
    exact ih (i + 1) (by omega) (by omega)

/-- As long as every operation of a run stays inside its vectors, both
indices of every line object name an existing node and the per-frame line
update reads inside the anchor list. The runs this leaves out are those in
which the second click of a connection reads `renderObjects` at a stale
`firstConnectionDialogueBox`. -/
theorem lineObjects_name_existing_nodes (characters : Nat → Character) (s : Editor)
    (h : PublicReachable characters s) :
    (∀ l ∈ s.lineObjects,
      0 ≤ l.firstBoxIndex ∧ l.firstBoxIndex < (s.dialogueBoxes.length : Int) ∧
      0 ≤ l.secondBoxIndex ∧ l.secondBoxIndex < (s.dialogueBoxes.length : Int) ∧
      l.firstBoxIndex + 1 < (s.renderObjects.length : Int) ∧
      l.secondBoxIndex + 1 < (s.renderObjects.length : Int)) ∧
    lineUpdate s = some () := by
  have hmem : ∀ l ∈ s.lineObjects,
      0 ≤ l.firstBoxIndex ∧ l.firstBoxIndex < (s.dialogueBoxes.length : Int) ∧
      0 ≤ l.secondBoxIndex ∧ l.secondBoxIndex < (s.dialogueBoxes.length : Int) ∧
      l.firstBoxIndex + 1 < (s.renderObjects.length : Int) ∧
      l.secondBoxIndex + 1 < (s.renderObjects.length : Int) := by
    intro l hl
    have hd := h.drawn
    unfold Drawn at hd
    obtain ⟨h1, h2, b, hb, e, he, h3⟩ := mem_edgePairs l _ 0 ((hd.mem_iff).mp hl)
    have h4 := (h.reachable.linked b hb).2 e he
    have h5 := h.reachable.wellFormed.2.1
    omega
  refine ⟨hmem, ?_⟩
  unfold lineUpdate
  refine unitLoop_some _ s.lineObjects.length ?_ _ 0 (Int.le_refl _) (by omega)
  intro i h0 h1
  have hlt : i.toNat < s.lineObjects.length := by omega
  have hget : slb_Vector_Get s.lineObjects i = some (s.lineObjects[i.toNat]) := by
    unfold slb_Vector_Get
    rw [if_pos h0]
    exact List.getElem?_eq_getElem hlt
  obtain ⟨a1, a2, a3, a4, a5, a6⟩ := hmem _ (List.getElem_mem hlt)
  have g : ∀ (k : Int), 0 ≤ k → k < (s.renderObjects.length : Int) →
      ∃ r, slb_Vector_Get s.renderObjects k = some r := by
    intro k k0 k1
    have hk : k.toNat < s.renderObjects.length := by omega
    refine ⟨s.renderObjects[k.toNat], ?_⟩
    unfold slb_Vector_Get
    rw [if_pos k0]
    exact List.getElem?_eq_getElem hk
  obtain ⟨r1, hr1⟩ := g _ (by omega) a5
  obtain ⟨r2, hr2⟩ := g _ (by omega) a6
  simp only [lineUpdateBody, hget, Option.some_bind, hr1, hr2, ite_self]

theorem lineObjects_name_existing_nodes_witness :
    PublicReachable sampleFont scenarioBGraph ∧
    (∀ l ∈ scenarioBGraph.lineObjects,
      0 ≤ l.firstBoxIndex ∧ l.firstBoxIndex < (scenarioBGraph.dialogueBoxes.length : Int) ∧
      0 ≤ l.secondBoxIndex ∧ l.secondBoxIndex < (scenarioBGraph.dialogueBoxes.length : Int) ∧
      l.firstBoxIndex + 1 < (scenarioBGraph.renderObjects.length : Int) ∧
      l.secondBoxIndex + 1 < (scenarioBGraph.renderObjects.length : Int)) ∧
    lineUpdate scenarioBGraph = some () :=
  ⟨runFromStart_publicReachable sampleFont scenarioBActions (by decide) (by decide),
   lineObjects_name_existing_nodes sampleFont scenarioBGraph
     (runFromStart_publicReachable sampleFont scenarioBActions (by decide) (by decide))⟩

/-! ### The JSON wrappers -/

theorem find_replace (key : List Char) (v : JsonValue) :
    ∀ (members : List (List Char × JsonValue)),
      members.any (fun m => decide (m.1 = key)) = true →
      (members.map (fun m => if m.1 = key then (m.1, v) else m)).find?
        (fun m => decide (m.1 = key)) = some (key, v) := by
  intro members
  induction members with
  | nil => intro h; simp at h
  | cons m rest ih =>
    intro h
    by_cases hm : m.1 = key
    · simp only [List.map_cons, hm, if_true, List.find?_cons_of_pos, decide_True]
    · have hr : rest.any (fun m => decide (m.1 = key)) = true := by
        rw [List.any_cons] at h
        simp only [hm, decide_False, Bool.false_or] at h
        exact h
      simp only [List.map_cons, hm, if_false]
      rw [List.find?_cons_of_neg _ (by simpa using hm)]
      exact ih hr

theorem find_append_new (key : List Char) (v : JsonValue) :
    ∀ (members : List (List Char × JsonValue)),
      members.any (fun m => decide (m.1 = key)) = false →
      (members ++ [(key, v)]).find? (fun m => decide (m.1 = key)) = some (key, v) := by
  intro members
  induction members with
  | nil => intro _; simp
  | cons m rest ih =>
    intro h
    simp only [List.any_cons, Bool.or_eq_false_iff, decide_eq_false_iff_not] at h
    rw [List.cons_append, List.find?_cons_of_neg _ (by simpa using h.1)]
    exact ih h.2

/-- After `json[key] = v` on a null value or an object, the member under
`key` is `v`. -/
theorem assign_member (j : JsonValue) (key : List Char) (v : JsonValue)
    (hj : j = JsonValue.null ∨ ∃ members, j = JsonValue.object members) :
    ∃ j1, j.assign key v = some j1 ∧ j1.contains key = true ∧ j1.member key = some v := by
  rcases hj with rfl | ⟨members, rfl⟩
  · refine ⟨_, rfl, ?_, ?_⟩
    · simp [JsonValue.contains]
    · simp [JsonValue.member]
  · by_cases h : members.any (fun m => decide (m.1 = key)) = true
    · refine ⟨JsonValue.object (members.map (fun m => if m.1 = key then (m.1, v) else m)),
        by simp only [JsonValue.assign, h, if_true], ?_, ?_⟩
      · have := find_replace key v members h
        simp only [JsonValue.contains, List.any_eq_true]
        exact ⟨(key, v), List.mem_of_find?_eq_some this, by simp⟩
      · simp only [JsonValue.member, find_replace key v members h, Option.map_some']
    · have h2 : members.any (fun m => decide (m.1 = key)) = false := Bool.eq_false_iff.mpr h
      refine ⟨JsonValue.object (members ++ [(key, v)]),
        by simp only [JsonValue.assign, h2, Bool.false_eq_true, if_false], ?_, ?_⟩
      · have := find_append_new key v members h2
        simp only [JsonValue.contains, List.any_eq_true]
        exact ⟨(key, v), List.mem_of_find?_eq_some this, by simp⟩
      · simp only [JsonValue.member, find_append_new key v members h2, Option.map_some']

/-- The load loop over an array of C ints copies them into the buffer. -/
theorem loadIntLoop_ints :
    ∀ (vals A B : List Int), (∀ v ∈ vals, -2147483648 ≤ v ∧ v < 2147483648) →
      vals.length ≤ B.length →
      loadIntLoop (vals.map JsonValue.int) A.length (A ++ B)
        = some (A.length + vals.length, A ++ (vals ++ B.drop vals.length)) := by
  intro vals
  induction vals with
  | nil =>
    intro A B _ _
    simp [loadIntLoop]
  | cons v rest ih =>
    intro A B hr hlen
    cases B with
    | nil => simp at hlen
    | cons b B =>
      have hv := wrapInt_of_int v (hr v (List.mem_cons_self _ _))
      have hlt : A.length < (A ++ b :: B).length := by simp
      have h := ih (A ++ [v]) B (fun w hw => hr w (List.mem_cons_of_mem _ hw))
        (by simpa using hlen)
      simp only [List.length_append, List.length_singleton, List.append_assoc,
        List.singleton_append] at h
      simp only [List.map_cons, loadIntLoop, JsonValue.getInt, hv, Option.some_bind, hlt,
        if_true, set_mid, h, List.length_cons, List.drop_succ_cons, List.cons_append]
      congr 2
      omega

/-- The float load loop over an array of numbers copies them into the buffer
and counts them. -/
theorem loadFloatLoop_numbers :
    ∀ (xs : List JsonValue) (nums : List Rat) (A B : List Rat),
      xs.map JsonValue.getFloat = nums.map some → nums.length ≤ B.length →
      loadFloatLoop xs A.length (A ++ B)
        = some (A.length + nums.length, A ++ (nums ++ B.drop nums.length)) := by
  intro xs
  induction xs with
  | nil =>
    intro nums A B h _
    cases nums with
    | nil => simp [loadFloatLoop]
    | cons x rest => simp at h
  | cons p rest ih =>
    intro nums A B h hlen
    cases nums with
    | nil => simp at h
    | cons x nums =>
      cases B with
      | nil => simp at hlen
      | cons b B =>
        simp only [List.map_cons, List.cons.injEq] at h
        have hlt : A.length < (A ++ b :: B).length := by simp
        have h2 := ih nums (A ++ [x]) B h.2 (by simpa using hlen)
        simp only [List.length_append, List.length_singleton, List.append_assoc,
          List.singleton_append] at h2
        simp only [loadFloatLoop, h.1, Option.some_bind, hlt, if_true, set_mid, h2,
          List.length_cons, List.drop_succ_cons, List.cons_append]
        congr 2
        omega

/-- C29: for a JSON value `j` that is null or an object, a name, a non-empty
array `vals` of C ints and a buffer `out` of at least that length,
`slb_Json_SaveIntArray` stores the array under the name; on the result
`slb_Json_LoadIntArray` returns the length and leaves `vals` in the first
positions of `out`, the others untouched, and `slb_Json_GetIntArraySize`
returns the length; with size 0 `slb_Json_SaveIntArray` leaves `j` as it is;
and on a value that has no member under the name the load returns 0 without
writing and the size query returns 0. -/
theorem intArray_save_then_load (j : JsonValue) (name : List Char) (vals out : List Int)
    (hj : j = JsonValue.null ∨ ∃ members, j = JsonValue.object members)
    (hv : vals ≠ []) (hr : ∀ v ∈ vals, -2147483648 ≤ v ∧ v < 2147483648)
    (hout : vals.length ≤ out.length) :
    (∃ j1, slb_Json_SaveIntArray j name vals vals.length = some j1 ∧
      slb_Json_LoadIntArray j1 name out
        = some (vals.length, vals ++ out.drop vals.length) ∧
      slb_Json_GetIntArraySize j1 name = vals.length) ∧
    slb_Json_SaveIntArray j name vals 0 = some j ∧
    (∀ (k : JsonValue), k.contains name = false →
      slb_Json_LoadIntArray k name out = some (0, out) ∧
      slb_Json_GetIntArraySize k name = 0) := by
  refine ⟨?_, rfl, ?_⟩
  · obtain ⟨j1, h1, h2, h3⟩ := assign_member j name (JsonValue.array (vals.map JsonValue.int)) hj
    have hpos : vals.length > 0 := List.length_pos.mpr hv
    refine ⟨j1, ?_, ?_, ?_⟩
    · simp only [slb_Json_SaveIntArray, hpos, if_true, Nat.le_refl, List.take_length]
      exact h1
    · have h := loadIntLoop_ints vals [] out hr hout
      simp only [List.length_nil, List.nil_append, Nat.zero_add] at h
      simp only [slb_Json_LoadIntArray, h2, not_true_eq_false, if_false, h3, Option.some_bind,
        JsonValue.elements]
      exact h
    · simp only [slb_Json_GetIntArraySize, h2, if_true, h3, List.length_map]
  · intro k hk
    constructor
    · simp only [slb_Json_LoadIntArray, hk, Bool.false_eq_true, not_false_eq_true, if_true]
    · simp only [slb_Json_GetIntArraySize, hk, Bool.false_eq_true, if_false]

theorem intArray_save_then_load_witness :
    ([2, 3] : List Int) ≠ [] ∧
    (∃ j1, slb_Json_SaveIntArray JsonValue.null "connections".toList [2, 3]
        ([2, 3] : List Int).length = some j1 ∧
      slb_Json_LoadIntArray j1 "connections".toList [0, 0, 0]
        = some (([2, 3] : List Int).length,
            [2, 3] ++ ([0, 0, 0] : List Int).drop ([2, 3] : List Int).length) ∧
      slb_Json_GetIntArraySize j1 "connections".toList = ([2, 3] : List Int).length) :=
  ⟨by decide,
   (intArray_save_then_load JsonValue.null "connections".toList [2, 3] [0, 0, 0]
     (Or.inl rfl) (by decide) (by decide) (by decide)).1⟩

/-- What `slb_Json_LoadFloatArray` returns for an object that holds an array
of numbers under the name: the numbers are copied, and the value returned is
their count plus one. -/
theorem slb_Json_LoadFloatArray_count (members : List (List Char × JsonValue))
    (name : List Char) (xs : List JsonValue) (nums val : List Rat)
    (hm : (JsonValue.object members).member name = some (JsonValue.array xs))
    (hx : xs.map JsonValue.getFloat = nums.map some) (hlen : nums.length ≤ val.length) :
    slb_Json_LoadFloatArray (JsonValue.object members) name val
      = some (JsonValue.object members, nums.length + 1, nums ++ val.drop nums.length) := by
  simp only [JsonValue.member, Option.map_eq_some'] at hm
  obtain ⟨m, hfind, hm2⟩ := hm
  have h := loadFloatLoop_numbers xs nums [] val hx hlen
  simp only [List.length_nil, List.nil_append, Nat.zero_add] at h
  simp only [slb_Json_LoadFloatArray, JsonValue.access, hfind, Option.some_bind, hm2,
    JsonValue.elements, h, Option.map_some']

/-- C30, evaluated where it fails: for the object holding the two numbers
`[1, 2]` under "a", `slb_Json_LoadFloatArray` copies two numbers and returns
3, while `slb_Json_LoadIntArray` returns 2 and the array has size 2. -/
theorem loadFloatArray_returns_one_more :
    (slb_Json_LoadFloatArray sampleJson "a".toList [0, 0]).map (fun r => r.2.1) = some 3 ∧
    (slb_Json_LoadFloatArray sampleJson "a".toList [0, 0]).map (fun r => r.2.2.length)
      = some 2 ∧
    (slb_Json_LoadIntArray sampleJson "a".toList [0, 0]).map (fun r => r.1) = some 2 ∧
    slb_Json_GetIntArraySize sampleJson "a".toList = 2 :=
  ⟨by decide, by decide, by decide, by decide⟩

/-- The second pass of the load has no defined result as soon as one element
carries more than 16 connection values. -/
theorem loadPass2_overflow :
    ∀ (json : List DocElement) (i : Int) (s : Editor),
      (∃ e ∈ json, 16 < e.connections.length) → loadPass2 json i s = none := by
  intro json
  induction json with
  | nil =>
    intro i s h
    obtain ⟨e, he, _⟩ := h
    cases he
  | cons e rest ih =>
    intro i s h
    unfold loadPass2
    simp only
    by_cases h16 : e.connections.length > 16
    · rw [if_pos (by omega), if_pos h16]
    · have hrest : ∃ e2 ∈ rest, 16 < e2.connections.length := by
        obtain ⟨e2, he2, hl⟩ := h
        rw [List.mem_cons] at he2
        rcases he2 with rfl | he2
        · exact absurd hl h16
        · exact ⟨e2, he2, hl⟩
      by_cases h0 : e.connections.length > 0
      · rw [if_pos h0, if_neg h16]
        cases slb_Vector_Get s.dialogueBoxes i with
        | none => rfl
        | some _ =>
          cases slb_Vector_Get s.renderObjects (i + 1) with
          | none => rfl
          | some _ =>
            cases forUp (loadConnBody (e.connections.map wrapInt) i) e.connections.length 0 s with
            | none => rfl
            | some s1 => exact ih (i + 1) s1 hrest
      · rw [if_neg h0]
        exact ih (i + 1) s hrest

/-- The load has no defined result for a document in which one element
carries more than 16 connection values. -/
theorem LoadDialogueBoxes_overflow (characters : Nat → Character) (json : Document)
    (s : Editor) (h : ∃ e ∈ json, 16 < e.connections.length) :
    LoadDialogueBoxes characters (some json) s = none := by
  unfold LoadDialogueBoxes
  cases clearRenderObjects s.renderObjects.length s.renderObjects with
  | none => rfl
  | some ro =>
    simp only [Option.some_bind]
    cases loadPass1 characters json _ with
    | none => rfl
    | some s2 => exact loadPass2_overflow json 0 s2 h

theorem overflowingDocument_fits : DocFits overflowingDocument := by
  intro e he
  simp only [overflowingDocument, List.mem_singleton] at he
  subst he
  exact ⟨by decide, fun ev h => by cases h⟩

/-- C26, evaluated where it fails: the document with one element "A" that
carries seventeen connection values parses and fits every text buffer, the
first pass of the load creates its node, and the second pass copies the
seventeen values into the 16-entry buffer: `slb_Json_GetIntArraySize` returns
17, `slb_Json_LoadIntArray` writes past a 16-entry buffer, and the load has
no defined result. -/
theorem load_overflows_connections_buffer :
    DocFits overflowingDocument ∧
    (loadPass1 sampleFont overflowingDocument emptyEditor).isSome = true ∧
    overflowingDocument.map (fun e => e.connections.length) = [17] ∧
    LoadDialogueBoxes sampleFont (some overflowingDocument) emptyEditor = none ∧
    slb_Json_GetIntArraySize overflowingElement "connections".toList = 17 ∧
    slb_Json_LoadIntArray overflowingElement "connections".toList (List.replicate 16 0)
      = none :=
  ⟨overflowingDocument_fits, by decide, by decide, by decide, by decide, by decide⟩

/-! ### Box sizing -/

theorem roundHalfEven_nonneg (q : Rat) (h : 0 ≤ q) : 0 ≤ roundHalfEven q := by
  have hf : 0 ≤ ⌊q⌋ := Int.floor_nonneg.mpr h
  unfold roundHalfEven
  split_ifs <;> omega

/-- Rounding to `float` keeps the sign: a number that is not negative rounds
to a float that is not negative. -/
theorem roundFloat_nonneg (x : Rat) (h : 0 ≤ x) : 0 ≤ roundFloat x := by
  unfold roundFloat
  split_ifs with h0
  · exact le_refl 0
  · have hp : (0 : Rat) < 2 ^ (max (Int.log 2 |x|) (-126) - 23) := zpow_pos (by norm_num) _
    exact mul_nonneg (Int.cast_nonneg.mpr (roundHalfEven_nonneg _ (div_nonneg h hp.le))) hp.le

theorem lineWidthLoop_eq (characters : Nat → Character) (textScale : Rat) :
    ∀ (line : List Char) (w : Rat), (∀ c ∈ line, c.toNat < 128) →
      lineWidthLoop characters textScale line w
        = some ((line.map (fun c => fmul (characters c.toNat).ax (roundFloat textScale))).foldl
            fadd w) := by
  intro line
  induction line with
  | nil => intro w _; rfl
  | cons c rest ih =>
    intro w h
    have hc : c.toNat < 128 := h c (List.mem_cons_self _ _)
    simp only [lineWidthLoop, glyph, if_pos hc, Option.some_bind, List.map_cons, List.foldl_cons]
    exact ih _ (fun d hd => h d (List.mem_cons_of_mem _ hd))

/-- The loop of the code over the characters of a line computes the line
width of the specification. -/
theorem lineWidth_eq (characters : Nat → Character) (textScale : Rat) (line : List Char)
    (h : ∀ c ∈ line, c.toNat < 128) :
    lineWidth characters textScale line = some (specLineWidth characters textScale line) :=
  lineWidthLoop_eq characters textScale line 0 h

theorem maxLineWidthLoop_eq (characters : Nat → Character) (textScale : Rat) :
    ∀ (lines : List (List Char)) (m : Rat), (∀ l ∈ lines, ∀ c ∈ l, c.toNat < 128) →
      maxLineWidthLoop characters textScale lines m
        = some ((lines.map (specLineWidth characters textScale)).foldl max m) := by
  intro lines
  induction lines with
  | nil => intro m _; rfl
  | cons l rest ih =>
    intro m h
    have e : ∀ w : Rat, (if w > m then w else m) = max m w := by
      intro w
      by_cases hw : w > m
      · rw [if_pos hw, max_eq_right (le_of_lt hw)]
      · rw [if_neg hw, max_eq_left (not_lt.mp hw)]
    simp only [maxLineWidthLoop, lineWidth_eq characters textScale l
      (h l (List.mem_cons_self _ _)), Option.some_bind, List.map_cons, List.foldl_cons, e]
    exact ih _ (fun l2 hl2 => h l2 (List.mem_cons_of_mem _ hl2))

theorem foldl_max_init :
    ∀ (L : List Rat) (a b : Rat), L.foldl max (max b a) = max b (L.foldl max a) := by
  intro L
  induction L with
  | nil => intro a b; rfl
  | cons c cs ih =>
    intro a b
    simp only [List.foldl_cons]
    rw [max_assoc, ih]

theorem foldl_max_ge :
    ∀ (L : List Rat) (a : Rat), a ≤ L.foldl max a := by
  intro L
  induction L with
  | nil => intro a; exact le_refl a
  | cons c cs ih =>
    intro a
    exact le_trans (le_max_left a c) (ih (max a c))

/-- A running maximum that starts at 0 is the maximum of the list (0 for the
empty list) when the first entry of the list is not negative. -/
theorem foldl_max_zero (L : List Rat) (h : ∀ a ∈ L.head?, (0 : Rat) ≤ a) :
    L.foldl max 0 = (L.max?).getD 0 := by
  cases L with
  | nil => rfl
  | cons a as =>
    have ha : 0 ≤ a := h a rfl
    rw [List.max?_cons', Option.getD_some, List.foldl_cons, foldl_max_init]
    exact max_eq_right (le_trans ha (foldl_max_ge as a))

theorem foldl_fadd_nonneg :
    ∀ (L : List Rat) (w : Rat), 0 ≤ w → (∀ p ∈ L, 0 ≤ p) → 0 ≤ L.foldl fadd w := by
  intro L
  induction L with
  | nil => intro w hw _; exact hw
  | cons p ps ih =>
    intro w hw h
    rw [List.foldl_cons]
    exact ih _ (roundFloat_nonneg _ (add_nonneg hw (h p (List.mem_cons_self _ _))))
      (fun q hq => h q (List.mem_cons_of_mem _ hq))

theorem specLineWidth_nonneg (characters : Nat → Character) (textScale : Rat)
    (line : List Char) (hs : 0 ≤ textScale) (ha : ∀ c, c < 128 → 0 ≤ (characters c).ax)
    (h : ∀ c ∈ line, c.toNat < 128) :
    0 ≤ specLineWidth characters textScale line := by
  unfold specLineWidth
  apply foldl_fadd_nonneg _ _ (le_refl 0)
  intro p hp
  rw [List.mem_map] at hp
  obtain ⟨c, hc, rfl⟩ := hp
  exact roundFloat_nonneg _ (mul_nonneg (ha _ (h c hc)) (roundFloat_nonneg _ hs))

/-- The box width of the code is the box width of the specification, when
every character is in the glyph table and neither the text scale nor an
advance of the table is negative. -/
theorem boxWidth_eq (characters : Nat → Character) (textScale : Rat)
    (lines : List (List Char)) (hs : 0 ≤ textScale)
    (ha : ∀ c, c < 128 → 0 ≤ (characters c).ax)
    (h : ∀ l ∈ lines, ∀ c ∈ l, c.toNat < 128) :
    boxWidth characters textScale lines = some (specBoxWidth characters textScale lines) := by
  unfold boxWidth maxLineWidth
  rw [maxLineWidthLoop_eq characters textScale lines 0 h, Option.map_some', foldl_max_zero]
  · rfl
  · intro a hm
    cases lines with
    | nil => simp at hm
    | cons l rest =>
      simp only [List.map_cons, List.head?_cons, Option.mem_def, Option.some.injEq] at hm
      rw [← hm]
      exact specLineWidth_nonneg characters textScale l hs ha (h l (List.mem_cons_self _ _))

theorem roundHalfEven_of_lt (q : Rat) (n : Int) (h1 : (n : Rat) ≤ q) (h2 : q - n < 1 / 2) :
    roundHalfEven q = n := by
  have hf : ⌊q⌋ = n := Int.floor_eq_iff.mpr ⟨h1, by linarith⟩
  unfold roundHalfEven
  rw [hf, if_pos h2]

theorem roundHalfEven_of_gt (q : Rat) (n : Int) (h2 : q < n) (h3 : 1 / 2 < q - (n - 1)) :
    roundHalfEven q = n := by
  have hf : ⌊q⌋ = n - 1 := Int.floor_eq_iff.mpr ⟨by push_cast; linarith, by push_cast; linarith⟩
  unfold roundHalfEven
  rw [hf]
  push_cast
  rw [if_neg (by linarith), if_pos h3]
  ring

theorem roundFloat_of_binade (x : Rat) (e : Int) (hx : 0 < x) (hlo : (2 : Rat) ^ e ≤ x)
    (hhi : x < (2 : Rat) ^ (e + 1)) (he : -126 ≤ e) :
    roundFloat x = (roundHalfEven (x / 2 ^ (e - 23)) : Rat) * 2 ^ (e - 23) := by
  have hlog : Int.log 2 |x| = e := by
    rw [abs_of_pos hx]
    apply le_antisymm
    · have := (Int.lt_zpow_iff_log_lt (b := 2) (by norm_num) hx).mp (by exact_mod_cast hhi)
      omega
    · exact (Int.zpow_le_iff_le_log (b := 2) (by norm_num) hx).mp (by exact_mod_cast hlo)
  unfold roundFloat
  rw [if_neg (ne_of_gt hx), hlog, max_eq_left he]

/-- The float nearest to a positive number `x` of the binade `2 ^ e`: the
multiple `n * 2 ^ (e - 23)` of the unit in the last place that is less than
half a unit away from `x`. -/
theorem roundFloat_eq (x : Rat) (e n : Int) (hx : 0 < x) (hlo : (2 : Rat) ^ e ≤ x)
    (hhi : x < (2 : Rat) ^ (e + 1)) (he : -126 ≤ e)
    (h1 : (n : Rat) - 1 / 2 < x / 2 ^ (e - 23)) (h2 : x / 2 ^ (e - 23) < n + 1 / 2) :
    roundFloat x = (n : Rat) * 2 ^ (e - 23) := by
  rw [roundFloat_of_binade x e hx hlo hhi he]
  by_cases h : (n : Rat) ≤ x / 2 ^ (e - 23)
  · rw [roundHalfEven_of_lt _ n h (by linarith)]
  · rw [roundHalfEven_of_gt _ n (not_le.mp h) (by linarith)]

/-- The constant `0.4f` is the float 13421773 / 2 ^ 25, not the real number
0.4. -/
theorem padding_eq : padding = 13421773 / 33554432 := by
  unfold padding
  rw [roundFloat_eq (4 / 10) (-2) 13421773 (by norm_num) (by norm_num) (by norm_num)
    (by norm_num) (by norm_num) (by norm_num)]
  norm_num

/-- The argument `0.01f` every caller passes is the float 5368709 / 2 ^ 29. -/
theorem textScale_eq : roundFloat (1 / 100) = 5368709 / 536870912 := by
  rw [roundFloat_eq (1 / 100) (-7) 10737418 (by norm_num) (by norm_num) (by norm_num)
    (by norm_num) (by norm_num) (by norm_num)]
  norm_num

/-- Box size of the two-line text of the closed examples for the font whose
advances and bitmap heights are all 1, at the text scale `0.01f`: each line
has the width `0.01f`, and the box is 13589545 / 2 ^ 24 wide and
13757317 / 2 ^ 24 high; the real numbers 0.81 and 0.82 are not floats. -/
theorem sample_box_size :
    specBoxWidth sampleFont (1 / 100) (layoutLines sampleText) = 13589545 / 16777216 ∧
    specBoxHeight sampleFont (1 / 100) (layoutLines sampleText).length
      = 13757317 / 16777216 := by
  have hl : layoutLines sampleText = [['b'], ['a']] := by decide
  have hf : ∀ c, sampleFont c = ⟨1, 0, 1, 1, 0, 0, 0, 0⟩ := fun _ => rfl
  have hid : roundFloat (5368709 / 536870912) = 5368709 / 536870912 := by
    rw [roundFloat_eq (5368709 / 536870912) (-7) 10737418 (by norm_num) (by norm_num)
      (by norm_num) (by norm_num) (by norm_num) (by norm_num)]
    norm_num
  have hp : roundFloat (2 * (13421773 / 33554432)) = 13421773 / 16777216 := by
    rw [roundFloat_eq (2 * (13421773 / 33554432)) (-1) 13421773 (by norm_num) (by norm_num)
      (by norm_num) (by norm_num) (by norm_num) (by norm_num)]
    norm_num
  have hw : roundFloat (5368709 / 536870912 + 13421773 / 16777216) = 13589545 / 16777216 := by
    rw [roundFloat_eq (5368709 / 536870912 + 13421773 / 16777216) (-1) 13589545 (by norm_num)
      (by norm_num) (by norm_num) (by norm_num) (by norm_num) (by norm_num)]
    norm_num
  have h2 : roundFloat (2 : Rat) = 2 := by
    rw [roundFloat_eq 2 1 8388608 (by norm_num) (by norm_num) (by norm_num) (by norm_num)
      (by norm_num) (by norm_num)]
    norm_num
  have hd : roundFloat (5368709 / 536870912 * 2) = 5368709 / 268435456 := by
    rw [roundFloat_eq (5368709 / 536870912 * 2) (-6) 10737418 (by norm_num) (by norm_num)
      (by norm_num) (by norm_num) (by norm_num) (by norm_num)]
    norm_num
  have hh : roundFloat (5368709 / 268435456 + 13421773 / 16777216) = 13757317 / 16777216 := by
    rw [roundFloat_eq (5368709 / 268435456 + 13421773 / 16777216) (-1) 13757317 (by norm_num)
      (by norm_num) (by norm_num) (by norm_num) (by norm_num) (by norm_num)]
    norm_num
  have hline : ∀ c : Char, specLineWidth sampleFont (1 / 100) [c] = 5368709 / 536870912 := by
    intro c
    simp only [specLineWidth, List.map_cons, List.map_nil, List.foldl_cons, List.foldl_nil,
      fadd, fmul, hf, textScale_eq, one_mul, zero_add, hid]
  have hc : ((2 : Nat) : Rat) = 2 := by norm_num
  constructor
  · rw [hl]
    have hm : (([['b'], ['a']].map (specLineWidth sampleFont (1 / 100))).max?).getD 0
        = 5368709 / 536870912 := by
      simp only [List.map_cons, List.map_nil, hline, List.max?_cons', List.foldl_cons,
        List.foldl_nil, max_self, Option.getD_some]
    rw [specBoxWidth, hm]
    simp only [fadd, fmul]
    rw [← padding, padding_eq, hp, hw]
  · rw [hl]
    simp only [specBoxHeight, fadd, fmul, hf, textScale_eq, one_mul, hid, List.length_cons,
      List.length_nil, zero_add, Nat.reduceAdd]
    rw [← padding, padding_eq, hp, hc, h2, hd, hh]

/-- C23: on a consistent store, for a text that fits the buffers and the
glyph table, a valid insertion index, a text scale that is not negative and a
glyph table without negative advance, `CreateDialogueBoxAtIndex` returns and
the anchor it inserts at `insertIndex + 1` has scale `(W, H)`, in `float`
arithmetic: `W` is the maximum over the laid-out lines of the sum over the
characters of the line of `ax * textScale`, 0 when there is no line, plus
`2 * 0.4f`, and `H` is `bh('A') * textScale * (number of lines) + 2 * 0.4f`. -/
theorem anchor_scale_formula (characters : Nat → Character) (text : List Char)
    (pos : Vec2) (textScale : Rat) (insertIndex : Int) (s : Editor)
    (hs : WellFormed s) (hfit : TextFits text) (h0 : 0 ≤ insertIndex)
    (h1 : insertIndex ≤ (s.dialogueBoxes.length : Int))
    (hscale : 0 ≤ textScale) (hadv : ∀ c, c < 128 → 0 ≤ (characters c).ax) :
    ∃ s1 anchor,
      CreateDialogueBoxAtIndex characters text pos textScale insertIndex s = some s1 ∧
      slb_Vector_Get s1.renderObjects (insertIndex + 1) = some anchor ∧
      anchor.scale.x = specBoxWidth characters textScale (layoutLines text) ∧
      anchor.scale.y = specBoxHeight characters textScale (layoutLines text).length := by
  obtain ⟨P, Q, R1, R2, T1, T2, hi, hb, hr, hR1, ht, hT1⟩ := hs.splitAt insertIndex h0 h1
  subst hi
  refine ⟨_, newAnchor characters text pos textScale,
    CreateDialogueBoxAtIndex_eq characters text pos textScale s P Q R1 R2 T1 T2 hb hr hR1 ht
      hT1 hfit, ?_, ?_, ?_⟩
  · have e : ((P.length : Int) + 1) = ((R1.length : Nat) : Int) := by
      rw [hR1]
      simp
    rw [e]
    exact get_mid _ _ _
  · simp only [newAnchor, CreateRenderObject,
      boxWidth_eq characters textScale (layoutLines text) hscale hadv hfit.2.2,
      Option.getD_some]
  · simp only [newAnchor, CreateRenderObject, boxHeight, specBoxHeight, padding]

theorem anchor_scale_formula_witness :
    WellFormed sampleGraph ∧ TextFits sampleText ∧
    (0 : Rat) ≤ 1 / 100 ∧ (∀ c, c < 128 → 0 ≤ (sampleFont c).ax) ∧
    ∃ s1 anchor,
      CreateDialogueBoxAtIndex sampleFont sampleText ⟨5, 5⟩ (1 / 100) 1 sampleGraph
        = some s1 ∧
      slb_Vector_Get s1.renderObjects (1 + 1) = some anchor ∧
      anchor.scale.x = specBoxWidth sampleFont (1 / 100) (layoutLines sampleText) ∧
      anchor.scale.y = specBoxHeight sampleFont (1 / 100) (layoutLines sampleText).length :=
  ⟨by decide, by decide, by norm_num, fun _ _ => by norm_num [sampleFont],
   anchor_scale_formula sampleFont sampleText ⟨5, 5⟩ (1 / 100) 1 sampleGraph
     (by decide) (by decide) (by decide) (by decide) (by norm_num)
     (fun _ _ => by norm_num [sampleFont])⟩

/-- C25, evaluated where it fails: a middle click, a right click on node 1, a
left click on node 1 and the DELETE key are public operations after which one
node and two anchors are left while the connection is still pending with
`firstConnectionDialogueBox = 2`; the next right click on node 0 reads
`renderObjects` and `dialogueBoxes` at that stale index, outside both
vectors, and the line it pushes has `firstBoxIndex = 1`, which is not below
the node count 1, so that the per-frame line update reads `renderObjects` at
index 2, outside the anchor list. -/
theorem stale_connection_leaves_anchor_list :
    PublicReachable sampleFont danglingConnectionGraph ∧
    (danglingConnectionGraph.isConnecting, danglingConnectionGraph.firstConnectionDialogueBox,
      danglingConnectionGraph.dialogueBoxes.length,
      danglingConnectionGraph.renderObjects.length) = (true, 2, 1, 2) ∧
    slb_Vector_Get danglingConnectionGraph.renderObjects
      danglingConnectionGraph.firstConnectionDialogueBox = none ∧
    slb_Vector_Get danglingConnectionGraph.dialogueBoxes
      (danglingConnectionGraph.firstConnectionDialogueBox - 1) = none ∧
    rightDown 1 danglingConnectionGraph = none ∧
    ¬ (danglingConnectionGraph.firstConnectionDialogueBox - 1
        < (danglingConnectionGraph.dialogueBoxes.length : Int)) ∧
    lineUpdate
      { danglingConnectionGraph with
        lineObjects := danglingConnectionGraph.lineObjects ++
          [⟨danglingConnectionGraph.firstConnectionDialogueBox - 1, 1 - 1⟩] } = none :=
  ⟨runFromStart_publicReachable sampleFont danglingConnectionActions (by decide) (by decide),
   by decide, by decide, by decide, by decide, by decide, by decide⟩

end Diagmaker
